import Mathlib

/-!
# ical-relay: module execution engine

A shallow embedding of `modules.go` (the calendar mutators of ical-relay) and the
properties of its specification.

Conventions of the embedding.

* A Go slice of components is a `List`; where the code keeps reading a slice header
  taken before an in-place removal (the `range` loop of `moduleDeleteId`), the backing
  array and the current length are kept apart (`removeInPlace`).
* A module returns `Option Outcome`: `none` is a Go runtime panic (index or slice bounds
  out of range, nil pointer dereference), `some o` carries the document as the call leaves
  it, the returned delta and the returned error.
* The parameter bag `map[string]string` is a total function `String → String`; an absent
  key reads as the empty string, as a Go map lookup does.
* Library calls (golang-ical, `time`, `strings`) are modelled next to the code that uses
  them; each model says which library function it stands for.
* What a call takes from outside is a parameter: the clock, the zone of the host and the
  zone database, the order of each walk over a Go map (drawn anew for every walk, always a
  permutation of the entries) and `regexp` in `Env`, the files and the web in `Sources`.
-/

set_option autoImplicit false

namespace IcalRelay

/-! ## Calendar document model (golang-ical) -/

/-- One content line of a component: its token (`UID`, `SUMMARY`, `RRULE`, ...), its value as
it stands in the document (escapes included), and its parameters (`TZID=...`), a Go
`map[string][]string`, as the list of their entries. -/
structure IANAProperty where
  IANAToken : String
  Value : String
  ICalParameters : List (String × List String)
deriving DecidableEq, Repr

/-- An alarm sub-component of an event. -/
structure VAlarm where
  Properties : List IANAProperty
deriving DecidableEq, Repr

/-- An event: the ordered property list of its `ComponentBase` and its alarms. -/
structure VEvent where
  Properties : List IANAProperty
  Alarms : List VAlarm
deriving DecidableEq, Repr

/-- A calendar component: an event, or any other component kind (time zone, todo, ...). -/
inductive Component where
  | event (e : VEvent)
  | other (kind : String) (props : List IANAProperty)
deriving DecidableEq, Repr

/-- A calendar: its ordered components and its calendar-level properties. -/
structure Calendar where
  Components : List Component
  CalendarProperties : List IANAProperty
deriving DecidableEq, Repr

/-- The parameter bag of a module call. -/
abbrev Params := String → String

/-- What a module call that returns leaves behind: the document, the delta and the error. Of
an error built as `fmt.Errorf("...: %s", err.Error())` the text before the colon is kept; the
detail that the Go library puts behind it is not modelled. -/
structure Outcome where
  cal : Calendar
  delta : Int
  err : Option String
deriving DecidableEq, Repr

/-- The golang-ical lookup `GetProperty`: the first property carrying the token, if any. -/
def GetProperty (props : List IANAProperty) (token : String) : Option IANAProperty :=
  props.find? (fun p => p.IANAToken == token)

/-- The golang-ical function `FromText` on the characters of a value: one pass from left to
right that undoes the escapes of a TEXT value: a doubled backslash becomes one, a backslash
before `n` or `N` a line feed, a backslash before `;` or `,` goes; any other backslash stays. -/
def FromTextChars : List Char → List Char
  | [] => []
  | c :: cs =>
    if c = '\\' then
      match cs with
      | [] => [c]
      | d :: rest =>
        if d = '\\' then d :: FromTextChars rest
        else if d = 'n' ∨ d = 'N' then '\n' :: FromTextChars rest
        else if d = ';' ∨ d = ',' then d :: FromTextChars rest
        else c :: d :: FromTextChars rest
    else c :: FromTextChars cs

/-- The golang-ical function `FromText`. -/
def FromText (s : String) : String := String.mk (FromTextChars s.data)

/-- The golang-ical accessor `Id`: the value of the `UID` property with its escapes undone, or
the empty string. -/
def VEvent.Id (event : VEvent) : String :=
  match GetProperty event.Properties "UID" with
  | some p => FromText p.Value
  | none => ""

/-! ## Instants (Go `time.Time`) -/

/-- A Go `time.Time` without its monotonic reading: the instant in nanoseconds since
1970-01-01T00:00:00Z and the offset (seconds east of UTC) of its location. -/
structure Time where
  ns : Int
  offset : Int
deriving DecidableEq, Repr

/-- Go `Time.After`: instants are compared, locations are not. -/
def Time.After (t u : Time) : Bool := decide (u.ns < t.ns)

/-- Go `Time.Add` with a duration in nanoseconds. -/
def Time.Add (t : Time) (d : Int) : Time := ⟨t.ns + d, t.offset⟩

/-- Go `Time.UTC`: the same instant in the location UTC. -/
def Time.UTC (t : Time) : Time := ⟨t.ns, 0⟩

/-- The zero `time.Time{}`: 0001-01-01T00:00:00Z. -/
def zeroTime : Time := ⟨-62135596800 * 1000000000, 0⟩

/-- The upper sentinel of the modules:
`time.Unix(1<<63-1-int64((1969*365+1969/4-1969/100+1969/400)*24*60*60), 999999999)`. -/
def maxTime : Time :=
  ⟨((2 : Int) ^ 63 - 1 - ((1969 * 365 + 1969 / 4 - 1969 / 100 + 1969 / 400) * 24 * 60 * 60))
      * 1000000000 + 999999999, 0⟩

/-- Leap years of the Gregorian calendar. -/
def isLeap (y : Int) : Bool := y % 4 == 0 && (y % 100 != 0 || y % 400 == 0)

/-- Go `daysIn`: the number of days of a month. -/
def daysIn (m : Nat) (y : Int) : Nat :=
  if m == 2 then (if isLeap y then 29 else 28)
  else if m == 4 || m == 6 || m == 9 || m == 11 then 30 else 31

/-- Days from 0001-01-01 to the first day of year `y`. -/
def daysBeforeYear (y : Int) : Int :=
  365 * (y - 1) + (y - 1) / 4 - (y - 1) / 100 + (y - 1) / 400

/-- Go `daysBefore`: days of the year before the first day of month `m`. -/
def daysBeforeMonth (leap : Bool) (m : Nat) : Nat :=
  (if m ≤ 1 then 0 else if m = 2 then 31 else if m = 3 then 59 else if m = 4 then 90
    else if m = 5 then 120 else if m = 6 then 151 else if m = 7 then 181
    else if m = 8 then 212 else if m = 9 then 243 else if m = 10 then 273
    else if m = 11 then 304 else 334)
  + (if leap && 2 < m then 1 else 0)

/-- Days from 1970-01-01 to the given proleptic Gregorian date. -/
def daysFromCivil (y : Int) (m d : Nat) : Int :=
  daysBeforeYear y + daysBeforeMonth (isLeap y) m + d - 1 - 719162

/-- Go `absDate`, the year part: the year of a day number counted from 1970-01-01 and the day
within that year (from 0), by cycles of 400, 100, 4 and 1 years. -/
def yearDay (z : Int) : Int × Nat :=
  let d0 : Int := z + 719162
  let n400 : Int := d0 / 146097
  let d1 : Int := d0 - 146097 * n400
  let n100 : Int := if d1 / 36524 < 3 then d1 / 36524 else 3
  let d2 : Int := d1 - 36524 * n100
  let n4 : Int := d2 / 1461
  let d3 : Int := d2 - 1461 * n4
  let n1 : Int := if d3 / 365 < 3 then d3 / 365 else 3
  (1 + 400 * n400 + 100 * n100 + 4 * n4 + n1, (d3 - 365 * n1).toNat)

/-- The month of a day of the year (from 0), and the day of that month. -/
def monthDay (leap : Bool) (yday : Nat) : Nat × Nat :=
  if daysBeforeMonth leap 12 ≤ yday then (12, yday - daysBeforeMonth leap 12 + 1)
  else if daysBeforeMonth leap 11 ≤ yday then (11, yday - daysBeforeMonth leap 11 + 1)
  else if daysBeforeMonth leap 10 ≤ yday then (10, yday - daysBeforeMonth leap 10 + 1)
  else if daysBeforeMonth leap 9 ≤ yday then (9, yday - daysBeforeMonth leap 9 + 1)
  else if daysBeforeMonth leap 8 ≤ yday then (8, yday - daysBeforeMonth leap 8 + 1)
  else if daysBeforeMonth leap 7 ≤ yday then (7, yday - daysBeforeMonth leap 7 + 1)
  else if daysBeforeMonth leap 6 ≤ yday then (6, yday - daysBeforeMonth leap 6 + 1)
  else if daysBeforeMonth leap 5 ≤ yday then (5, yday - daysBeforeMonth leap 5 + 1)
  else if daysBeforeMonth leap 4 ≤ yday then (4, yday - daysBeforeMonth leap 4 + 1)
  else if daysBeforeMonth leap 3 ≤ yday then (3, yday - daysBeforeMonth leap 3 + 1)
  else if daysBeforeMonth leap 2 ≤ yday then (2, yday - daysBeforeMonth leap 2 + 1)
  else (1, yday + 1)

/-- Go `Time.Date` on a day number counted from 1970-01-01: year, month, day. -/
def civilFromDays (z : Int) : Int × Nat × Nat :=
  let yd := yearDay z
  (yd.1, monthDay (isLeap yd.1) yd.2)

/-- The instant of a wall-clock reading taken at the given offset, or `none` when a field is
out of range (the range errors of Go `time.Parse`). -/
def mkTime (y m d hh mm ss nsec : Nat) (offset : Int) : Option Time :=
  if 1 ≤ m ∧ m ≤ 12 ∧ 1 ≤ d ∧ d ≤ daysIn m y ∧ hh < 24 ∧ mm < 60 ∧ ss < 60 then
    some ⟨((daysFromCivil y m d * 86400 + hh * 3600 + mm * 60 + ss - offset) * 1000000000
      + nsec), offset⟩
  else none

/-- The value of a decimal digit. -/
def digitVal (c : Char) : Option Nat :=
  if '0' ≤ c ∧ c ≤ '9' then some (c.toNat - 48) else none

/-- Reads exactly `n` decimal digits. -/
def takeDigits : Nat → List Char → Option (Nat × List Char)
  | 0, cs => some (0, cs)
  | n + 1, c :: cs =>
    match digitVal c, takeDigits n cs with
    | some v, some (w, rest) => some (v * 10 ^ n + w, rest)
    | _, _ => none
  | _ + 1, [] => none

/-- The leading run of decimal digits and what follows it. -/
def spanDigits : List Char → List Nat × List Char
  | [] => ([], [])
  | c :: cs =>
    match digitVal c with
    | some v => let r := spanDigits cs; (v :: r.1, r.2)
    | none => ([], c :: cs)

/-- Go `parseNanoseconds` on the digits of a fraction: the first nine digits count. -/
def fracNanos (ds : List Nat) : Nat :=
  ((ds.take 9) ++ List.replicate (9 - (ds.take 9).length) 0).foldl (fun acc d => acc * 10 + d) 0

/-- An optional fraction of a second after the seconds field: a separator followed by at least
one digit. Gives the nanoseconds and the rest of the input. -/
def takeFraction (seps : List Char) : List Char → Nat × List Char
  | c :: cs =>
    if c ∈ seps then
      match spanDigits cs with
      | ([], _) => (0, c :: cs)
      | (ds, rest) => (fracNanos ds, rest)
    else (0, c :: cs)
  | [] => (0, [])

/-- Go `time.Parse("20060102T150405Z", v)`: year, month, day, `T`, hour, minute, second, an
optional fraction of a second (accepted by `Parse` although the layout has none), `Z`. -/
def parseCompactChars (cs : List Char) : Option Time :=
  match takeDigits 4 cs with
  | some (y, r1) =>
    match takeDigits 2 r1 with
    | some (m, r2) =>
      match takeDigits 2 r2 with
      | some (d, 'T' :: r3) =>
        match takeDigits 2 r3 with
        | some (hh, r4) =>
          match takeDigits 2 r4 with
          | some (mm, r5) =>
            match takeDigits 2 r5 with
            | some (ss, r6) =>
              match takeFraction ['.', ','] r6 with
              | (nsec, ['Z']) => mkTime y m d hh mm ss nsec 0
              | _ => none
            | none => none
          | none => none
        | none => none
      | _ => none
    | none => none
  | none => none

/-- Go `time.Parse("20060102T150405Z", v)` on a string. -/
def parseCompact (v : String) : Option Time := parseCompactChars v.data

/-- Go `getnum(s, false)`: a number of two digits, or of one digit when no digit follows it. -/
def takeNum (cs : List Char) : Option (Nat × List Char) :=
  match cs with
  | [] => none
  | [c] => (digitVal c).map (fun v => (v, []))
  | c :: d :: rest =>
    match digitVal c, digitVal d with
    | some v, some w => some (v * 10 + w, rest)
    | some v, none => some (v, d :: rest)
    | none, _ => none

/-- The zone `Z07:00` of a Go layout at the end of a value: `Z`, or a sign, two digits, a
colon and two digits, and nothing after it. Gives the offset in seconds east of UTC. The range
test of Go lets an offset of 24 hours and one of 60 minutes pass. -/
def parseZone (cs : List Char) : Option Int :=
  match cs with
  | ['Z'] => some 0
  | sign :: rest =>
    if sign = '+' ∨ sign = '-' then
      match takeDigits 2 rest with
      | some (hh, ':' :: r1) =>
        match takeDigits 2 r1 with
        | some (mm, []) =>
          if hh ≤ 24 ∧ mm ≤ 60 then
            some (if sign = '-' then -((hh * 3600 + mm * 60 : Nat) : Int)
              else ((hh * 3600 + mm * 60 : Nat) : Int))
          else none
        | _ => none
      | _ => none
    else none
  | [] => none

/-- Go `time.Parse(time.RFC3339, v)`, layout `2006-01-02T15:04:05Z07:00`: a year of four
digits, month and day of two, an hour of one or two digits, minute and second of two, an
optional fraction of a second behind a period or a comma, and the zone. The fields are tested
for their ranges, the day against the length of its month. -/
def parseRFC3339Chars (cs : List Char) : Option Time :=
  match takeDigits 4 cs with
  | some (y, '-' :: r1) =>
    match takeDigits 2 r1 with
    | some (m, '-' :: r2) =>
      match takeDigits 2 r2 with
      | some (d, 'T' :: r3) =>
        match takeNum r3 with
        | some (hh, ':' :: r4) =>
          match takeDigits 2 r4 with
          | some (mm, ':' :: r5) =>
            match takeDigits 2 r5 with
            | some (ss, r6) =>
              match parseZone (takeFraction ['.', ','] r6).2 with
              | some off => mkTime y m d hh mm ss (takeFraction ['.', ','] r6).1 off
              | none => none
            | none => none
          | _ => none
        | _ => none
      | _ => none
    | _ => none
  | _ => none

/-- Go `time.Parse(time.RFC3339, v)` on a string. -/
def parseRFC3339 (v : String) : Option Time := parseRFC3339Chars v.data

/-- The character of a decimal digit. -/
def digitChar (d : Nat) : Char :=
  match d with
  | 0 => '0' | 1 => '1' | 2 => '2' | 3 => '3' | 4 => '4'
  | 5 => '5' | 6 => '6' | 7 => '7' | 8 => '8' | _ => '9'

/-- The last `w` decimal digits of `n`, most significant first. -/
def padDigits : Nat → Nat → List Char
  | 0, _ => []
  | w + 1, n => padDigits w (n / 10) ++ [digitChar (n % 10)]

/-- Go `appendInt(b, year, 4)`: at least four digits, a minus sign for a negative year. -/
def yearDigits (y : Int) : List Char :=
  let a := y.natAbs
  let w := if a < 10000 then 4 else (Nat.toDigits 10 a).length
  (if y < 0 then ['-'] else []) ++ padDigits w a

/-- The wall clock of an instant at its own offset: year, month, day, hour, minute, second. -/
def Time.clock (t : Time) : Int × Nat × Nat × Nat × Nat × Nat :=
  let secs : Int := t.ns / 1000000000 + t.offset
  let days : Int := secs / 86400
  let sod : Nat := (secs % 86400).toNat
  let ymd := civilFromDays days
  (ymd.1, ymd.2.1, ymd.2.2, sod / 3600, sod % 3600 / 60, sod % 60)

/-- Go `t.Format("20060102T150405Z")`: the wall clock of `t` at its own offset followed by the
literal letter `Z` (a lone `Z` is no zone verb of a Go layout). -/
def Time.formatCompact (t : Time) : String :=
  let c := t.clock
  String.mk (yearDigits c.1 ++ padDigits 2 c.2.1 ++ padDigits 2 c.2.2.1 ++ ['T']
    ++ padDigits 2 c.2.2.2.1 ++ padDigits 2 c.2.2.2.2.1 ++ padDigits 2 c.2.2.2.2.2 ++ ['Z'])

/-- The digits of a fraction of a second as `Time.String` prints them: nine digits with the
trailing zeros cut, nothing for a whole second. -/
def fracDigits (nsec : Nat) : List Char :=
  if nsec = 0 then []
  else '.' :: ((padDigits 9 nsec).reverse.dropWhile (fun c => c == '0')).reverse

/-- The zone part `-0700` of a Go layout. -/
def zoneDigits (offset : Int) : List Char :=
  let a := offset.natAbs
  (if offset < 0 then ['-'] else ['+']) ++ padDigits 2 (a / 3600) ++ padDigits 2 (a % 3600 / 60)

/-- Go `Time.String`, layout `2006-01-02 15:04:05.999999999 -0700 MST`, for a time whose
zone has the given abbreviation; a zone without a name is printed as its numeric offset. -/
def Time.String (t : Time) (zone : String) : String :=
  let c := t.clock
  String.mk (yearDigits c.1 ++ ['-'] ++ padDigits 2 c.2.1 ++ ['-'] ++ padDigits 2 c.2.2.1 ++ [' ']
    ++ padDigits 2 c.2.2.2.1 ++ [':'] ++ padDigits 2 c.2.2.2.2.1 ++ [':']
    ++ padDigits 2 c.2.2.2.2.2 ++ fracDigits (t.ns % 1000000000).toNat ++ [' ']
    ++ zoneDigits t.offset ++ [' ']
    ++ (if zone = "" then zoneDigits t.offset else zone.data))

/-! ## What a module call takes from its host -/

/-- A Go `*time.Location` as the modules meet it. `unixOf` is the instant (seconds since
1970-01-01T00:00:00Z) that Go `Date` gives to a wall-clock reading in the location, the reading
counted in seconds as if it were taken in UTC; `offsetAt` and `nameAt` are the offset (seconds
east of UTC) and the abbreviation (`CET`, `CEST`, ...) of the zone in force at an instant. -/
structure Location where
  unixOf : Int → Int
  offsetAt : Int → Int
  nameAt : Int → String

/-- The surroundings of a module call: the clock reading of `time.Now()`; the zone of the host
(`time.Local`) and its zone database (`time.LoadLocation`, `none` for a name it does not
know); the order in which a Go `range` walks a map; and `regexp.Compile` together with
`MatchString` (`none`: the pattern does not compile). Go draws the order of a walk anew for
every `range`: `mapOrder i` is the order of the walk that the call makes while it is at the
component at position `i`, and all that is known of it is that it yields every entry once. -/
structure Env where
  now : Time
  hostZone : Location
  loadLocation : String → Option Location
  mapOrder : Nat → List (String × String) → List (String × String)
  mapOrder_perm : ∀ (i : Nat) (m : List (String × String)), (mapOrder i m).Perm m
  compile : String → Option (String → Bool)

/-! ## Event times (golang-ical) -/

/-- The leading `n` characters of a value when they are decimal digits, and what follows
them. -/
def leadDigits (n : Nat) (cs : List Char) : Option (List Char × List Char) :=
  if n ≤ cs.length ∧ (cs.take n).all (fun c => (digitVal c).isSome) then
    some (cs.take n, cs.drop n)
  else none

/-- An optional group of `n` digits at the head of a value, `([0-9]{n})?`: the group (empty
when the value does not start with `n` digits) and what follows it. -/
def optDigits (n : Nat) (cs : List Char) : List Char × List Char :=
  (leadDigits n cs).getD ([], cs)

/-- An optional group of one character out of a set at the head of a value, `([TZ])?`: the
group and what follows it. -/
def optChar (set : List Char) (cs : List Char) : List Char × List Char :=
  match cs with
  | c :: r => if c ∈ set then ([c], r) else ([], c :: r)
  | [] => ([], [])

/-- The golang-ical pattern `timeStampVariations`, `^([0-9]{8})?([TZ])?([0-9]{6})?(Z)?$`: the
four groups of a value that matches, an absent group being empty. Each group takes what it can:
where a group that took its text lets the match fail, the match fails without it as well. -/
def timeStampVariations (cs : List Char) :
    Option (List Char × List Char × List Char × List Char) :=
  let g1 := optDigits 8 cs
  let g2 := optChar ['T', 'Z'] g1.2
  let g3 := optDigits 6 g2.2
  let g4 := optChar ['Z'] g3.2
  if g4.2 = [] then some (g1.1, g2.1, g3.1, g4.1) else none

/-- The location that `getTimeProp` takes from the parameter `TZID` of a property: `none` is
the error of a `TZID` that has not exactly one value or that `time.LoadLocation` does not know,
`some none` a property without `TZID`. -/
def propLocation (env : Env) (p : IANAProperty) : Option (Option Location) :=
  match p.ICalParameters.lookup "TZID" with
  | none => some none
  | some [tz] => (env.loadLocation tz).map some
  | some _ => none

/-- Go `Date` in a location, on the fields of a wall-clock reading: the instant, the offset and
the abbreviation of the zone in force at it; `none` when a field is out of range. -/
def dateIn (loc : Location) (y m d hh mm ss : Nat) : Option (Time × String) :=
  if 1 ≤ m ∧ m ≤ 12 ∧ 1 ≤ d ∧ d ≤ daysIn m y ∧ hh < 24 ∧ mm < 60 ∧ ss < 60 then
    some (⟨loc.unixOf (daysFromCivil y m d * 86400 + hh * 3600 + mm * 60 + ss) * 1000000000,
        loc.offsetAt (loc.unixOf (daysFromCivil y m d * 86400 + hh * 3600 + mm * 60 + ss))⟩,
      loc.nameAt (loc.unixOf (daysFromCivil y m d * 86400 + hh * 3600 + mm * 60 + ss)))
  else none

/-- The fields `20060102` of a Go layout: year, month and day, and what follows them. -/
def takeDate (cs : List Char) : Option (Nat × Nat × Nat × List Char) :=
  match takeDigits 4 cs with
  | some (y, r1) =>
    match takeDigits 2 r1 with
    | some (m, r2) =>
      match takeDigits 2 r2 with
      | some (d, r3) => some (y, m, d, r3)
      | none => none
    | none => none
  | none => none

/-- The fields `150405` of a Go layout: hour, minute and second, and what follows them. -/
def takeClock (cs : List Char) : Option (Nat × Nat × Nat × List Char) :=
  match takeDigits 2 cs with
  | some (hh, r1) =>
    match takeDigits 2 r1 with
    | some (mm, r2) =>
      match takeDigits 2 r2 with
      | some (ss, r3) => some (hh, mm, ss, r3)
      | none => none
    | none => none
  | none => none

/-- The golang-ical reading of the time value of a property (`getTimeProp` on a property that is
there): the time and the abbreviation of its zone, `none` for each of its errors. The value has
to match `timeStampVariations`; a `TZID` has to load; then the four forms are read with
`time.ParseInLocation`: `YYYYMMDDThhmmssZ` and `YYYYMMDDZ` in UTC, `YYYYMMDDThhmmss` and
`YYYYMMDD` in the location of the `TZID`, or in `time.Local` without one. -/
def readStamp (env : Env) (p : IANAProperty) : Option (Time × String) :=
  match timeStampVariations p.Value.data with
  | none => none
  | some (date, tOrZ, clock, z) =>
    match propLocation env p with
    | none => none
    | some propLoc =>
      if date ≠ [] ∧ clock ≠ [] ∧ tOrZ = ['T'] ∧ z = ['Z'] then
        (parseCompactChars p.Value.data).map (fun t => (t, "UTC"))
      else if date ≠ [] ∧ clock ≠ [] ∧ tOrZ = ['T'] ∧ z = [] then
        match takeDate date, takeClock clock with
        | some (y, m, d, _), some (hh, mm, ss, _) =>
          dateIn (propLoc.getD env.hostZone) y m d hh mm ss
        | _, _ => none
      else if date ≠ [] ∧ clock = [] ∧ tOrZ = ['Z'] ∧ z = [] then
        match takeDate date with
        | some (y, m, d, _) => (mkTime y m d 0 0 0 0 0).map (fun t => (t, "UTC"))
        | none => none
      else if date ≠ [] ∧ clock = [] ∧ tOrZ = [] ∧ z = [] then
        match takeDate date with
        | some (y, m, d, _) => dateIn (propLoc.getD env.hostZone) y m d 0 0 0
        | none => none
      else none

/-- The golang-ical function `getTimeProp` with its error dropped, as every caller in
`modules.go` drops it: the time of the property with the token and the abbreviation of its
zone, the zero time when the property is absent or unreadable. -/
def getTimeProp (env : Env) (event : VEvent) (token : String) : Time × String :=
  match GetProperty event.Properties token with
  | some p => (readStamp env p).getD (zeroTime, "UTC")
  | none => (zeroTime, "UTC")

/-- The golang-ical accessor `GetStartAt`, error dropped. -/
def VEvent.GetStartAt (event : VEvent) (env : Env) : Time := (getTimeProp env event "DTSTART").1

/-- The golang-ical accessor `GetEndAt`, error dropped. -/
def VEvent.GetEndAt (event : VEvent) (env : Env) : Time := (getTimeProp env event "DTEND").1

/-! ## Slice removal -/

/-- Source `remove`: `append(slice[:s], slice[s+1:]...)`. The slice expression `slice[s+1:]`
panics when `s + 1` exceeds the length. -/
def remove {α : Type} (slice : List α) (s : Nat) : Option (List α) :=
  if s + 1 ≤ slice.length then some (slice.take s ++ slice.drop (s + 1)) else none

/-- Modelled from the spec: `removeFromICS` is called by the modules but defined outside the
given sources; the spec has it "remove the component at a given position", which is the
contract of the source's own `remove`. -/
def removeFromICS (slice : List Component) (s : Nat) : Option (List Component) :=
  remove slice s

/-- The effect of `remove` on the backing array: `arr` is the array, its first `len` cells are
the slice. Cells `s .. len-2` receive the cells `s+1 .. len-1`; the cell `len-1` and all later
ones keep their old content, and the returned slice has length `len - 1`. -/
def removeInPlace {α : Type} (arr : List α) (len s : Nat) : Option (List α × Nat) :=
  if s + 1 ≤ len then
    some (arr.take s ++ (arr.take len).drop (s + 1) ++ arr.drop (len - 1), len - 1)
  else none

/-! ## delete-byid -/

/-- The test of `moduleDeleteId` on one component: an event whose id is the wanted one. -/
def hasId (id : String) : Component → Bool
  | .event e => e.Id == id
  | .other _ _ => false

/-- The loop `for i, component := range cal.Components` of `moduleDeleteId`. The range
expression is evaluated once, so the loop runs over the original length and reads cell `i`
of the backing array `arr`, which the removals shift in place; `len` is the current length of
`cal.Components`. The `break` of the source leaves the `switch`, not the loop.
`k` counts the iterations still to run. -/
def moduleDeleteIdLoop (id : String) :
    Nat → Nat → List Component → Nat → Int → Option (List Component × Nat × Int)
  | 0, _, arr, len, count => some (arr, len, count)
  | k + 1, i, arr, len, count =>
    match arr.get? i with
    | some c =>
      if hasId id c then
        match removeInPlace arr len i with
        | some (arr', len') => moduleDeleteIdLoop id k (i + 1) arr' len' (count - 1)
        | none => none
      else moduleDeleteIdLoop id k (i + 1) arr len count
    | none => none

/-- Source `moduleDeleteId`. -/
def moduleDeleteId (cal : Calendar) (params : Params) : Option Outcome :=
  if params "id" = "" then
    some ⟨cal, 0, some "missing mandatory Parameter 'id'"⟩
  else
    let n := cal.Components.length
    match moduleDeleteIdLoop (params "id") n 0 cal.Components n 0 with
    | some (arr, len, count) => some ⟨{ cal with Components := arr.take len }, count, none⟩
    | none => none

/-! ## delete-duplicates -/

/-- Modelled from the spec: `stringInSlice` is called by `moduleDeleteDuplicates` but defined
outside the given sources; the spec reads it as "key already seen". -/
def stringInSlice (a : String) (list : List String) : Bool := list.contains a

/-- The identifier `start.String() + end.String() + summary` of `moduleDeleteDuplicates`;
`none` is the nil dereference on an event without a summary property. -/
def identifier (env : Env) (event : VEvent) : Option String :=
  match GetProperty event.Properties "SUMMARY" with
  | some p =>
    some ((getTimeProp env event "DTSTART").1.String (getTimeProp env event "DTSTART").2
      ++ (getTimeProp env event "DTEND").1.String (getTimeProp env event "DTEND").2 ++ p.Value)
  | none => none

/-- The loop `for i := len(cal.Components) - 1; i >= 0; i--` of `moduleDeleteDuplicates`; the
first argument is `i + 1`. -/
def moduleDeleteDuplicatesLoop (env : Env) :
    Nat → List Component → List String → Int → Option (List Component × Int)
  | 0, comps, _, count => some (comps, count)
  | i + 1, comps, uniques, count =>
    match comps.get? i with
    | some (.event event) =>
      match identifier env event with
      | some key =>
        if stringInSlice key uniques then
          match removeFromICS comps i with
          | some comps' => moduleDeleteDuplicatesLoop env i comps' uniques (count - 1)
          | none => none
        else moduleDeleteDuplicatesLoop env i comps (uniques ++ [key]) count
      | none => none
    | some (.other _ _) => moduleDeleteDuplicatesLoop env i comps uniques count
    | none => none

/-- Source `moduleDeleteDuplicates`. -/
def moduleDeleteDuplicates (env : Env) (cal : Calendar) (_params : Params) : Option Outcome :=
  match moduleDeleteDuplicatesLoop env cal.Components.length cal.Components [] 0 with
  | some (comps, count) => some ⟨{ cal with Components := comps }, count, none⟩
  | none => none

/-- Whether a component is an event with the given identifier. -/
def hasKey (env : Env) (key : String) : Component → Bool
  | .event e => identifier env e == some key
  | .other _ _ => false

/-- Whether a component is no event. -/
def isOther : Component → Bool
  | .event _ => false
  | .other _ _ => true

/-- Whether a component is an event that has no summary property. -/
def lacksSummary : Component → Bool
  | .event e => (GetProperty e.Properties "SUMMARY").isNone
  | .other _ _ => false

/-- The spec's reading of delete-duplicates: an event is dropped exactly when a later event of
the document has the same identifier (or the identifier is among `seen`). -/
def keepLast (env : Env) (seen : List String) : List Component → List Component
  | [] => []
  | c :: rest =>
    match c with
    | .event e =>
      match identifier env e with
      | some key =>
        if seen.contains key || rest.any (hasKey env key) then keepLast env seen rest
        else c :: keepLast env seen rest
      | none => c :: keepLast env seen rest
    | .other _ _ => c :: keepLast env seen rest

/-! ## Recurrence rules -/

/-- Go `strings.Split` with a separator of one character. -/
def splitOn (sep : Char) : List Char → List (List Char)
  | [] => [[]]
  | c :: cs =>
    if c = sep then [] :: splitOn sep cs
    else
      match splitOn sep cs with
      | h :: t => (c :: h) :: t
      | [] => [[c]]

/-- A Go map from strings to strings, as the list of its entries (keys are distinct). -/
abbrev RuleMap := List (String × String)

/-- The lookup `v, ok := m[k]`. -/
def mapGet (m : RuleMap) (k : String) : Option String :=
  match m with
  | [] => none
  | (k', v) :: rest => if k' = k then some v else mapGet rest k

/-- The assignment `m[k] = v`. -/
def mapSet (m : RuleMap) (k v : String) : RuleMap :=
  match m with
  | [] => [(k, v)]
  | (k', v') :: rest => if k' = k then (k, v) :: rest else (k', v') :: mapSet rest k v

/-- The loop `for _, e := range props { p := strings.Split(e, "="); m[p[0]] = p[1] }`;
`none` is the index panic on a part without `=`. -/
def fillMap (m : RuleMap) : List (List Char) → Option RuleMap
  | [] => some m
  | e :: rest =>
    match splitOn '=' e with
    | p0 :: p1 :: _ => fillMap (mapSet m (String.mk p0) (String.mk p1)) rest
    | _ => none

/-- The rule of an event read into a map: split on `;`, then each part on `=`. -/
def rruleToMap (value : String) : Option RuleMap :=
  fillMap [] (splitOn ';' value.data)

/-- The branch on `UNTIL` and `COUNT` of `moduleDeleteTimeframe`: an `UNTIL` later than `after`
is replaced by `after`, a rule with `COUNT` only is left alone, a rule with neither gets an
`UNTIL`. An `UNTIL` that does not parse ends the call with an error. -/
def truncateMap (after : Time) (m : RuleMap) : Except String RuleMap :=
  match mapGet m "UNTIL" with
  | some v =>
    match parseCompact v with
    | none => .error "invalid UNTIL time"
    | some untilTime =>
      if untilTime.After after then .ok (mapSet m "UNTIL" after.formatCompact) else .ok m
  | none =>
    match mapGet m "COUNT" with
    | some _ => .ok m
    | none => .ok (mapSet m "UNTIL" after.formatCompact)

/-- The reassembly `for k, v := range m { rrulestring += k + "=" + v + ";" }` over the entries in
the order the walk yields them. -/
def rruleString (entries : List (String × String)) : String :=
  entries.foldl (fun acc kv => acc ++ kv.1 ++ "=" ++ kv.2 ++ ";") ""

/-- Source `removeProperty`, seen on the backing array: the call's result is dropped by its only
caller, so `event.Properties` keeps its length and shows the shifted array. -/
def removeProperty (arr : List IANAProperty) (s : Nat) : Option (List IANAProperty) :=
  (removeInPlace arr arr.length s).map (fun r => r.1)

/-- The loop `for i, p := range event.Properties` that deletes the old rule: the range runs
over the length taken at its start and reads cell `i` of the array as it is by then. -/
def deleteOldRruleLoop : Nat → Nat → List IANAProperty → Option (List IANAProperty)
  | 0, _, arr => some arr
  | k + 1, i, arr =>
    match arr.get? i with
    | some p =>
      if p.IANAToken == "RRULE" then
        match removeProperty arr i with
        | some arr' => deleteOldRruleLoop k (i + 1) arr'
        | none => none
      else deleteOldRruleLoop k (i + 1) arr
    | none => none

/-- The golang-ical call `AddRrule`: a new `RRULE` property at the end of the list. -/
def VEvent.AddRrule (event : VEvent) (s : String) : VEvent :=
  { event with Properties := event.Properties ++ [⟨"RRULE", s, []⟩] }

/-- The body of `if event.GetProperty(ics.ComponentPropertyRrule) != nil { ... }` for the rule
value found on the event at position `i`: `none` is a panic, an error ends the call, otherwise
the event as rewritten. -/
def rewriteRrule (env : Env) (after : Time) (i : Nat) (event : VEvent) (value : String) :
    Option (Except String VEvent) :=
  match rruleToMap value with
  | none => none
  | some m =>
    match truncateMap after m with
    | .error msg => some (.error msg)
    | .ok m' =>
      match deleteOldRruleLoop event.Properties.length 0 event.Properties with
      | some props =>
        some (.ok (VEvent.AddRrule { event with Properties := props }
          (rruleString (env.mapOrder i m'))))
      | none => none

/-- The rule handling of the event at position `i` in `moduleDeleteTimeframe`; an event without
a rule is left as it is. -/
def truncateEvent (env : Env) (after : Time) (i : Nat) (event : VEvent) :
    Option (Except String VEvent) :=
  match GetProperty event.Properties "RRULE" with
  | some rr => rewriteRrule env after i event rr.Value
  | none => some (.ok event)

/-! ## delete-timeframe -/

/-- The membership test `date.After(after) && before.After(date)` of the time window. -/
def inWindow (after before date : Time) : Bool := date.After after && before.After date

/-- The loop `for i := len(cal.Components) - 1; i >= 0; i--` of `moduleDeleteTimeframe`; the
first argument is `i + 1`. An error leaves the loop with delta 0. -/
def moduleDeleteTimeframeLoop (env : Env) (after before : Time) :
    Nat → List Component → Int → Option (List Component × Int × Option String)
  | 0, comps, count => some (comps, count, none)
  | i + 1, comps, count =>
    match comps.get? i with
    | some (.event event) =>
      match truncateEvent env after i event with
      | some (.ok event') =>
        if inWindow after before (event'.GetStartAt env) then
          match removeFromICS (comps.set i (.event event')) i with
          | some comps' => moduleDeleteTimeframeLoop env after before i comps' (count - 1)
          | none => none
        else moduleDeleteTimeframeLoop env after before i (comps.set i (.event event')) count
      | some (.error msg) => some (comps, 0, some msg)
      | none => none
    | some (.other _ _) => moduleDeleteTimeframeLoop env after before i comps count
    | none => none

/-- The resolution of one bound of a time window: absent, `now`, or an RFC 3339 timestamp. -/
def resolveBound (env : Env) (absent : Time) (value : String) : Option Time :=
  if value = "" then some absent
  else if value = "now" then some env.now
  else parseRFC3339 value

/-- Source `moduleDeleteTimeframe`. -/
def moduleDeleteTimeframe (env : Env) (cal : Calendar) (params : Params) : Option Outcome :=
  if params "after" = "" ∧ params "before" = "" then
    some ⟨cal, 0, some "missing both Parameters 'start' or 'end'. One has to be present"⟩
  else
    match resolveBound env zeroTime (params "after") with
    | none => some ⟨cal, 0, some "invalid start time"⟩
    | some after =>
      match resolveBound env maxTime (params "before") with
      | none => some ⟨cal, 0, some "invalid end time"⟩
      | some before =>
        match moduleDeleteTimeframeLoop env after before cal.Components.length
            cal.Components 0 with
        | some (comps, count, err) => some ⟨{ cal with Components := comps }, count, err⟩
        | none => none

/-- Whether a component is an event whose start lies strictly inside the window. -/
def startInWindow (env : Env) (after before : Time) : Component → Bool
  | .event e => inWindow after before (e.GetStartAt env)
  | .other _ _ => false

/-- Whether the rule handling of `moduleDeleteTimeframe` can read a component: it is no event,
or an event without a rule, or an event whose rule has the form `KEY=VALUE` in every part (the
rule reads into a mapping) and whose `UNTIL`, if the mapping has one, parses in the compact
form `YYYYMMDDThhmmssZ`. -/
def ruleReadable : Component → Bool
  | .event e =>
    match GetProperty e.Properties "RRULE" with
    | none => true
    | some rr =>
      match rruleToMap rr.Value with
      | none => false
      | some m =>
        match mapGet m "UNTIL" with
        | none => true
        | some v => (parseCompact v).isSome
  | .other _ _ => true

/-- The component at position `i` as `moduleDeleteTimeframe` leaves it when it stays in the
document: an event with a rule carries the rewritten rule, everything else is as before. -/
def withTruncatedRule (env : Env) (after : Time) (i : Nat) : Component → Component
  | .event e =>
    match truncateEvent env after i e with
    | some (.ok e') => .event e'
    | _ => .event e
  | .other kind props => .other kind props

/-! ## Field edits -/

/-- The golang-ical call `SetProperty`: the first property with the token gets the value, or a
new property is added at the end. -/
def SetProperty (props : List IANAProperty) (token value : String) : List IANAProperty :=
  match props with
  | [] => [⟨token, value, []⟩]
  | p :: rest =>
    if p.IANAToken == token then ⟨token, value, []⟩ :: rest
    else p :: SetProperty rest token value

/-- `SetProperty` on an event. -/
def VEvent.SetProperty (event : VEvent) (token value : String) : VEvent :=
  { event with Properties := IcalRelay.SetProperty event.Properties token value }

/-- The golang-ical call `SetStartAt`: `DTSTART` in the compact UTC form. -/
def VEvent.SetStartAt (event : VEvent) (t : Time) : VEvent :=
  event.SetProperty "DTSTART" t.UTC.formatCompact

/-- The golang-ical call `SetEndAt`: `DTEND` in the compact UTC form. -/
def VEvent.SetEndAt (event : VEvent) (t : Time) : VEvent :=
  event.SetProperty "DTEND" t.UTC.formatCompact

/-- The block `if params["new-..."] != "" { ... }` for one text field, as it stands three times
in `moduleEditId` and three times in `moduleEditSummaryRegex`. The state is the event and the
current value of `params["overwrite"]`: an absent field sets that entry to `true`, and the
entry stays so for whatever is edited after it. -/
def editText (token newValue : String) (st : VEvent × String) : VEvent × String :=
  if newValue = "" then st
  else
    match GetProperty st.1.Properties token with
    | none => (st.1.SetProperty token newValue, "true")
    | some p =>
      if st.2 = "false" then (st.1.SetProperty token (p.Value ++ "; " ++ newValue), st.2)
      else if st.2 = "fillempty" then
        (if p.Value = "" then st.1.SetProperty token newValue else st.1, st.2)
      else if st.2 = "true" then (st.1.SetProperty token newValue, st.2)
      else st

/-- The three text blocks in the order of the source: summary, description, location. -/
def editTexts (params : Params) (st : VEvent × String) : VEvent × String :=
  editText "LOCATION" (params "new-location")
    (editText "DESCRIPTION" (params "new-description")
      (editText "SUMMARY" (params "new-summary") st))

/-- The blocks for `new-start` and `new-end`: the event as the blocks leave it and the error,
if one of the timestamps does not parse. A start that was set stays set when the end fails. -/
def editTimes (params : Params) (event : VEvent) : VEvent × Option String :=
  if params "new-start" = "" then
    (if params "new-end" = "" then (event, none)
    else
      match parseRFC3339 (params "new-end") with
      | some t => (event.SetEndAt t, none)
      | none => (event, some "invalid end time"))
  else
    match parseRFC3339 (params "new-start") with
    | none => (event, some "invalid start time")
    | some s =>
      if params "new-end" = "" then (event.SetStartAt s, none)
      else
        match parseRFC3339 (params "new-end") with
        | some t => ((event.SetStartAt s).SetEndAt t, none)
        | none => (event.SetStartAt s, some "invalid end time")

/-! ## edit-byid -/

/-- The loop `for i := len(cal.Components) - 1; i >= 0; i--` of `moduleEditId`; the first
argument is `i + 1`. The first event met with the wanted id is edited and the call returns. -/
def moduleEditIdLoop (params : Params) (overwrite : String) :
    Nat → List Component → Option (List Component × Option String)
  | 0, comps => some (comps, none)
  | i + 1, comps =>
    match comps.get? i with
    | some (.event event) =>
      if event.Id = params "id" then
        let r := editTimes params (editTexts params (event, overwrite)).1
        some (comps.set i (.event r.1), r.2)
      else moduleEditIdLoop params overwrite i comps
    | some (.other _ _) => moduleEditIdLoop params overwrite i comps
    | none => none

/-- Source `moduleEditId`. -/
def moduleEditId (cal : Calendar) (params : Params) : Option Outcome :=
  if params "id" = "" then some ⟨cal, 0, some "missing mandatory Parameter 'id'"⟩
  else
    let overwrite := if params "overwrite" = "" then "true" else params "overwrite"
    match moduleEditIdLoop params overwrite cal.Components.length cal.Components with
    | some (comps, err) => some ⟨{ cal with Components := comps }, 0, err⟩
    | none => none

/-- The text of a field of a component, if it is an event that has the field. -/
def fieldOf (token : String) : Component → Option String
  | .event e => (GetProperty e.Properties token).map (fun p => p.Value)
  | .other _ _ => none

/-! ## Durations (Go `time.ParseDuration`) -/

/-- The number of binary digits of a natural number; the first argument bounds the count. -/
def bitLength : Nat → Nat → Nat
  | 0, _ => 0
  | fuel + 1, n => if n = 0 then 0 else bitLength fuel (n / 2) + 1

/-- The `float64` nearest to the rational `n / d`, ties to the even mantissa, as a mantissa `m`
of at most 53 binary digits and an exponent `e`: the number `m * 2^e`. The exponent is not
bounded: overflow and underflow of a `float64` are not modelled. -/
def roundFloat (n d : Nat) : Nat × Int :=
  if n = 0 ∨ d = 0 then (0, 0)
  else
    let e0 : Int := (bitLength (n + 1) n : Int) - (bitLength (d + 1) d : Int) - 53
    let e : Int :=
      if n * 2 ^ (-e0).toNat < d * 2 ^ e0.toNat * 2 ^ 53 then e0 else e0 + 1
    let num : Nat := n * 2 ^ (-e).toNat
    let den : Nat := d * 2 ^ e.toNat
    if 2 * (num % den) > den ∨ (2 * (num % den) = den ∧ num / den % 2 = 1) then
      (num / den + 1, e)
    else (num / den, e)

/-- The product of two `float64`, rounded. -/
def mulFloat (a b : Nat × Int) : Nat × Int :=
  roundFloat (a.1 * b.1 * 2 ^ (a.2 + b.2).toNat) (2 ^ (-(a.2 + b.2)).toNat)

/-- The quotient of two `float64`, rounded. -/
def divFloat (a b : Nat × Int) : Nat × Int :=
  roundFloat (a.1 * 2 ^ (a.2 - b.2).toNat) (b.1 * 2 ^ (b.2 - a.2).toNat)

/-- The conversion `uint64(x)` of a `float64` that is not negative: its integer part. -/
def truncFloat (a : Nat × Int) : Nat :=
  if 0 ≤ a.2 then a.1 * 2 ^ a.2.toNat else a.1 / 2 ^ (-a.2).toNat

/-- Go `leadingInt`: the value of the leading decimal digits and what follows them; `none` is
the error of a value above `1<<63`. -/
def leadingInt : List Char → Nat → Option (Nat × List Char)
  | [], x => some (x, [])
  | c :: cs, x =>
    match digitVal c with
    | none => some (x, c :: cs)
    | some d =>
      if x > 2 ^ 63 / 10 then none
      else if x * 10 + d > 2 ^ 63 then none
      else leadingInt cs (x * 10 + d)

/-- Go `leadingFraction`: the leading decimal digits are all consumed; the value takes the
digits up to the first one that would lead above `1<<63`, and the scale, a `float64`, is
multiplied by ten for each digit taken. Gives value, scale and what follows the digits. -/
def leadingFraction :
    List Char → Nat → Nat × Int → Bool → Nat × (Nat × Int) × List Char
  | [], x, scale, _ => (x, scale, [])
  | c :: cs, x, scale, overflow =>
    match digitVal c with
    | none => (x, scale, c :: cs)
    | some d =>
      if overflow then leadingFraction cs x scale true
      else if x > (2 ^ 63 - 1) / 10 then leadingFraction cs x scale true
      else if x * 10 + d > 2 ^ 63 then leadingFraction cs x scale true
      else leadingFraction cs (x * 10 + d) (mulFloat scale (10, 0)) false

/-- The unit of a duration, which runs up to the next digit or period. -/
def spanUnit : List Char → List Char × List Char
  | [] => ([], [])
  | c :: cs =>
    if c = '.' ∨ (digitVal c).isSome then ([], c :: cs)
    else let r := spanUnit cs; (c :: r.1, r.2)

/-- Go `unitMap`: the nanoseconds of a unit of duration. -/
def unitNanos (u : List Char) : Option Nat :=
  if u = ['n', 's'] then some 1
  else if u = ['u', 's'] ∨ u = ['µ', 's'] ∨ u = ['μ', 's'] then some 1000
  else if u = ['m', 's'] then some 1000000
  else if u = ['s'] then some 1000000000
  else if u = ['m'] then some 60000000000
  else if u = ['h'] then some 3600000000000
  else none

/-- The loop `for s != ""` of Go `time.ParseDuration` over the terms
`[0-9]*(\.[0-9]*)?[a-z]+` of a duration, with the sum `d` so far, a `uint64`; `none` is each of
its errors. The fraction of a term is computed as
`uint64(float64(f) * (float64(unit) / scale))`. The first argument bounds the number of terms. -/
def durationTerms : Nat → List Char → Nat → Option Nat
  | 0, cs, d => if cs = [] then some d else none
  | fuel + 1, cs, d =>
    match cs with
    | [] => some d
    | c :: _ =>
      if ¬ (c = '.' ∨ (digitVal c).isSome) then none
      else
        match leadingInt cs 0 with
        | none => none
        | some (v, s1) =>
          let pre : Bool := s1.length != cs.length
          let fr : Nat × (Nat × Int) × List Char :=
            match s1 with
            | '.' :: r => leadingFraction r 0 (1, 0) false
            | r => (0, (1, 0), r)
          let post : Bool :=
            match s1 with
            | '.' :: r => fr.2.2.length != r.length
            | _ => false
          if !pre && !post then none
          else
            let u := spanUnit fr.2.2
            if u.1 = [] then none
            else
              match unitNanos u.1 with
              | none => none
              | some unit =>
                if v > 2 ^ 63 / unit then none
                else
                  let v1 : Nat :=
                    if fr.1 > 0 then
                      v * unit + truncFloat
                        (mulFloat (roundFloat fr.1 1) (divFloat (roundFloat unit 1) fr.2.1))
                    else v * unit
                  if v1 > 2 ^ 63 then none
                  else if (d + v1) % 2 ^ 64 > 2 ^ 63 then none
                  else durationTerms fuel u.2 ((d + v1) % 2 ^ 64)

/-- Go `time.ParseDuration`: an optional sign, then `0` or a sequence of terms such as `90m`,
`1.5h`, `300ms`; the result is in nanoseconds. -/
def ParseDurationChars (cs : List Char) : Option Int :=
  let neg : Bool := match cs with
    | '-' :: _ => true
    | _ => false
  let body : List Char := match cs with
    | '-' :: r => r
    | '+' :: r => r
    | r => r
  if body = ['0'] then some 0
  else if body = [] then none
  else
    match durationTerms body.length body 0 with
    | none => none
    | some d =>
      if neg then some (-(d : Int))
      else if d > 2 ^ 63 - 1 then none else some (d : Int)

/-- Go `time.ParseDuration` on a string. -/
def ParseDuration (s : String) : Option Int := ParseDurationChars s.data

/-! ## edit-bysummary-regex -/

/-- The loop `for i := len(cal.Components) - 1; i >= 0; i--` of `moduleEditSummaryRegex`; the
first argument is `i + 1`, the last one the current value of `params["overwrite"]`. `none` is
the nil dereference on an event inside the window that has no summary. -/
def moduleEditSummaryRegexLoop (env : Env) (params : Params) (re : String → Bool) (after before : Time) :
    Nat → List Component → String → Option (List Component × Option String)
  | 0, comps, _ => some (comps, none)
  | i + 1, comps, overwrite =>
    match comps.get? i with
    | some (.event event) =>
      if inWindow after before (event.GetStartAt env) then
        match GetProperty event.Properties "SUMMARY" with
        | none => none
        | some summary =>
          if re summary.Value then
            let st := editTexts params (event, overwrite)
            let r := editTimes params st.1
            match r.2 with
            | some msg => some (comps.set i (.event r.1), some msg)
            | none =>
              if params "move-time" = "" then
                moduleEditSummaryRegexLoop env params re after before i
                  (comps.set i (.event r.1)) st.2
              else
                match ParseDuration (params "move-time") with
                | none => some (comps.set i (.event r.1), some "invalid duration")
                | some dur =>
                  moduleEditSummaryRegexLoop env params re after before i
                    (comps.set i (.event
                      ((r.1.SetStartAt ((r.1.GetStartAt env).Add dur)).SetEndAt
                        ((r.1.GetEndAt env).Add dur))))
                    st.2
          else moduleEditSummaryRegexLoop env params re after before i comps overwrite
      else moduleEditSummaryRegexLoop env params re after before i comps overwrite
    | some (.other _ _) => moduleEditSummaryRegexLoop env params re after before i comps overwrite
    | none => none

/-- The lower bound of `moduleEditSummaryRegex`: whether a bound is given is read from
`params["after"]`, the timestamp itself from `params["start"]`. -/
def resolveAfterOfEdit (env : Env) (params : Params) : Option Time :=
  if params "after" = "" then some zeroTime
  else if params "after" = "now" then some env.now
  else parseRFC3339 (params "start")

/-- Source `moduleEditSummaryRegex`. -/
def moduleEditSummaryRegex (env : Env) (cal : Calendar) (params : Params) : Option Outcome :=
  if params "regex" = "" then some ⟨cal, 0, some "missing mandatory Parameter 'regex'"⟩
  else
    match env.compile (params "regex") with
    | none => some ⟨cal, 0, some "invalid regex"⟩
    | some re =>
      match resolveAfterOfEdit env params with
      | none => some ⟨cal, 0, some "invalid start time"⟩
      | some after =>
        match resolveBound env maxTime (params "before") with
        | none => some ⟨cal, 0, some "invalid end time"⟩
        | some before =>
          if params "move-time" ≠ "" ∧ (params "new-start" ≠ "" ∨ params "new-end" ≠ "") then
            some ⟨cal, 0,
              some "two exclusive params were given: 'move-time' and 'new-start'/'new-end'"⟩
          else
            match moduleEditSummaryRegexLoop env params re after before cal.Components.length
                cal.Components (params "overwrite") with
            | some (comps, err) => some ⟨{ cal with Components := comps }, 0, err⟩
            | none => none

/-- Whether `moduleEditSummaryRegex` edits a component: an event whose start lies strictly
inside the window and whose summary matches the pattern. -/
def matchesEdit (env : Env) (re : String → Bool) (after before : Time) : Component → Bool
  | .event e =>
    inWindow after before (e.GetStartAt env) &&
      (match GetProperty e.Properties "SUMMARY" with
        | some p => re p.Value
        | none => false)
  | .other _ _ => false

/-- Whether `moduleEditSummaryRegex` would run into the nil dereference on a component: an
event inside the window that has no summary property. -/
def inWindowWithoutSummary (env : Env) (after before : Time) : Component → Bool
  | .event e =>
    inWindow after before (e.GetStartAt env) && (GetProperty e.Properties "SUMMARY").isNone
  | .other _ _ => false

/-- An instant, in nanoseconds, whose year in UTC has four digits. -/
def fourDigitYear (ns : Int) : Prop :=
  -62167219200 * 1000000000 ≤ ns ∧ ns < 253402300800 * 1000000000

instance (ns : Int) : Decidable (fourDigitYear ns) :=
  inferInstanceAs (Decidable (-62167219200 * 1000000000 ≤ ns ∧ ns < 253402300800 * 1000000000))

/-- The start of a component, the zero time if it is no event. -/
def startOf (env : Env) : Component → Time
  | .event e => (e.GetStartAt env)
  | .other _ _ => zeroTime

/-- The end of a component, the zero time if it is no event. -/
def endOf (env : Env) : Component → Time
  | .event e => (e.GetEndAt env)
  | .other _ _ => zeroTime

/-! ## delete-bysummary-regex -/

/-- The loop `for i := len(cal.Components) - 1; i >= 0; i--` of `removeByRegexSummaryAndTime`;
the first argument is `i + 1`. `none` is the nil dereference on an event inside the window that
has no summary. -/
def removeByRegexSummaryAndTimeLoop (env : Env) (regex : String → Bool) (start stop : Time) :
    Nat → List Component → Int → Option (List Component × Int)
  | 0, comps, count => some (comps, count)
  | i + 1, comps, count =>
    match comps.get? i with
    | some (.event event) =>
      if inWindow start stop (event.GetStartAt env) then
        match GetProperty event.Properties "SUMMARY" with
        | none => none
        | some summary =>
          if regex summary.Value then
            match removeFromICS comps i with
            | some comps' => removeByRegexSummaryAndTimeLoop env regex start stop i comps' (count - 1)
            | none => none
          else removeByRegexSummaryAndTimeLoop env regex start stop i comps count
      else removeByRegexSummaryAndTimeLoop env regex start stop i comps count
    | some (.other _ _) => removeByRegexSummaryAndTimeLoop env regex start stop i comps count
    | none => none

/-- Source `removeByRegexSummaryAndTime`: the document it leaves and the count it returns. -/
def removeByRegexSummaryAndTime (env : Env) (cal : Calendar) (regex : String → Bool) (start stop : Time) :
    Option (Calendar × Int) :=
  match removeByRegexSummaryAndTimeLoop env regex start stop cal.Components.length
      cal.Components 0 with
  | some (comps, count) => some ({ cal with Components := comps }, count)
  | none => none

/-- Source `removeByRegexSummary`: the window from `time.Time{}` to the upper sentinel. -/
def removeByRegexSummary (env : Env) (cal : Calendar) (regex : String → Bool) : Option (Calendar × Int) :=
  removeByRegexSummaryAndTime env cal regex zeroTime maxTime

/-- The result of `time.Parse(time.RFC3339, value)` with the error dropped: the zero time when
the value does not parse. -/
def parseOrZero (value : String) : Time := (parseRFC3339 value).getD zeroTime

/-- Source `moduleDeleteSummaryRegex`. The error of `regexp.Compile` is dropped, and the nil
pointer it leaves is dereferenced (`*regex`) where the pattern is handed on: `none`. -/
def moduleDeleteSummaryRegex (env : Env) (cal : Calendar) (params : Params) : Option Outcome :=
  if params "regex" = "" then
    some ⟨cal, 0, some "missing mandatory Parameter 'regex'"⟩
  else
    match env.compile (params "regex") with
    | none => none
    | some regex =>
      match (if params "from" ≠ "" ∧ params "until" ≠ "" then
          removeByRegexSummaryAndTime env cal regex (parseOrZero (params "from"))
            (parseOrZero (params "until"))
        else removeByRegexSummary env cal regex) with
      | some (cal', count) =>
        if count > 0 then some ⟨cal', count, some "this number should not be positive"⟩
        else some ⟨cal', count, none⟩
      | none => none

/-! ## Aggregation -/

/-- The type switch `case *VEvent` on a component. -/
def eventOf : Component → Option VEvent
  | .event e => some e
  | .other _ _ => none

/-- The golang-ical accessor `Events`: the events of a calendar in document order. -/
def Calendar.Events (cal : Calendar) : List VEvent := cal.Components.filterMap eventOf

/-- The golang-ical call `AddVEvent`: the event is appended to the components. -/
def Calendar.AddVEvent (cal : Calendar) (event : VEvent) : Calendar :=
  { cal with Components := cal.Components ++ [.event event] }

/-- The loop `for _, event := range cal2.Events()` of `addEvents`. -/
def addEventsLoop : List VEvent → Calendar → Int → Calendar × Int
  | [], cal1, count => (cal1, count)
  | event :: rest, cal1, count => addEventsLoop rest (cal1.AddVEvent event) (count + 1)

/-- Source `addEvents`: the target as the call leaves it and the count. -/
def addEvents (cal1 cal2 : Calendar) : Calendar × Int := addEventsLoop cal2.Events cal1 0

/-- What `os.Stat`, `os.Open` and `ics.ParseCalendar` make of a file name: `os.Stat` fails, or
the file is there and the reader yields no calendar (a nil pointer), or it yields a calendar. -/
inductive FileState where
  | missing
  | unparsed
  | parsed (cal : Calendar)
deriving DecidableEq, Repr

/-- What `http.NewRequest`, `http.DefaultClient.Do` and `ics.ParseCalendar` make of a URL and
its request headers: the request cannot be built, or the transfer fails, or there is an answer
with a status code and a body that yields a calendar or none (a nil pointer). -/
inductive Response where
  | badRequest (msg : String)
  | failed (msg : String)
  | answer (code : Nat) (body : Option Calendar)
deriving DecidableEq, Repr

/-- The outside world of the modules that read or write: the files, the web, and
`ioutil.WriteFile` (the error message of a failed write, `none` for a write that succeeds). -/
structure Sources where
  file : String → FileState
  fetch : String → (String → String) → Response
  writeFile : String → Calendar → Option String

/-- Source `addEventsFile`. The errors of `os.Open` and `ics.ParseCalendar` are dropped; a nil
calendar makes `addEvents` panic: `none`. -/
def addEventsFile (src : Sources) (cal : Calendar) (filename : String) : Option Outcome :=
  match src.file filename with
  | .missing => some ⟨cal, 0, some ("file " ++ filename ++ " not found")⟩
  | .unparsed => none
  | .parsed addics => some ⟨(addEvents cal addics).1, (addEvents cal addics).2, none⟩

/-- The loop `for _, filename := range filenames` of `addMultiFile`. -/
def addMultiFileLoop (src : Sources) : List String → Calendar → Int → Option Outcome
  | [], cal, count => some ⟨cal, count, none⟩
  | filename :: rest, cal, count =>
    match addEventsFile src cal filename with
    | some r =>
      match r.err with
      | some msg => some ⟨r.cal, count, some msg⟩
      | none => addMultiFileLoop src rest r.cal (count + r.delta)
    | none => none

/-- Source `addMultiFile`. -/
def addMultiFile (src : Sources) (cal : Calendar) (filenames : List String) : Option Outcome :=
  addMultiFileLoop src filenames cal 0

/-- Source `moduleAddFile`. -/
def moduleAddFile (src : Sources) (cal : Calendar) (params : Params) : Option Outcome :=
  if params "filename" = "" then
    some ⟨cal, 0, some "missing mandatory Parameter 'filename'"⟩
  else addEventsFile src cal (params "filename")

/-- Source `addEventsURL`. An answer with a status other than 200 is passed over without an
error; the error of `ics.ParseCalendar` is logged only, and a body that yields no calendar
makes `addEvents` panic: `none`. -/
def addEventsURL (src : Sources) (cal : Calendar) (url : String) (headers : String → String) :
    Option Outcome :=
  match src.fetch url headers with
  | .badRequest msg => some ⟨cal, 0, some msg⟩
  | .failed msg => some ⟨cal, 0, some ("error requesting additional URL: " ++ msg)⟩
  | .answer code body =>
    if code ≠ 200 then some ⟨cal, 0, none⟩
    else
      match body with
      | some addcal => some ⟨(addEvents cal addcal).1, (addEvents cal addcal).2, none⟩
      | none => none

/-- Source `moduleAddURL`. The header map holds the entries of the bag whose key starts with
`header-`, under the rest of the key. -/
def moduleAddURL (src : Sources) (cal : Calendar) (params : Params) : Option Outcome :=
  if params "url" = "" then
    some ⟨cal, 0, some "missing mandatory Parameter 'url'"⟩
  else addEventsURL src cal (params "url") (fun k => params ("header-" ++ k))

/-- Source `moduleSaveToFile`. -/
def moduleSaveToFile (src : Sources) (cal : Calendar) (params : Params) : Option Outcome :=
  if params "file" = "" then
    some ⟨cal, 0, some "missing mandatory Parameter 'file'"⟩
  else
    match src.writeFile (params "file") cal with
    | some msg => some ⟨cal, 0, some ("error writing to file: " ++ msg)⟩
    | none => some ⟨cal, 0, none⟩

/-! ## add-reminder -/

/-- The golang-ical call `AddAlarm`: an alarm without properties is appended to the event. -/
def VEvent.AddAlarm (event : VEvent) : VEvent :=
  { event with Alarms := event.Alarms ++ [⟨[]⟩] }

/-- The statement `event.Alarms()[0].SetProperty(token, value)`, as `SetTrigger` and
`SetAction` make it: the property is set on the first alarm of the event. `none` is the index
panic on an event without alarms. -/
def setOnFirstAlarm (token value : String) (event : VEvent) : Option VEvent :=
  match event.Alarms with
  | [] => none
  | alarm :: rest =>
    some { event with Alarms := ⟨SetProperty alarm.Properties token value⟩ :: rest }

/-- The body of the loop of `moduleAddAllReminder` for one event. -/
def addReminder (time : String) (event : VEvent) : Option VEvent :=
  match setOnFirstAlarm "TRIGGER" ("-PT" ++ time) event.AddAlarm with
  | some event' => setOnFirstAlarm "ACTION" "DISPLAY" event'
  | none => none

/-- The loop `for i := len(cal.Components) - 1; i >= 0; i--` of `moduleAddAllReminder`; the
first argument is `i + 1`. -/
def moduleAddAllReminderLoop (params : Params) : Nat → List Component → Option (List Component)
  | 0, comps => some comps
  | i + 1, comps =>
    match comps.get? i with
    | some (.event event) =>
      match addReminder (params "time") event with
      | some event' => moduleAddAllReminderLoop params i (comps.set i (.event event'))
      | none => none
    | some (.other _ _) => moduleAddAllReminderLoop params i comps
    | none => none

/-- Source `moduleAddAllReminder`. -/
def moduleAddAllReminder (cal : Calendar) (params : Params) : Option Outcome :=
  match moduleAddAllReminderLoop params cal.Components.length cal.Components with
  | some comps => some ⟨{ cal with Components := comps }, 0, none⟩
  | none => none

/-- What `moduleAddAllReminder` makes of one component: the body of its loop on an event, the
component itself otherwise. -/
def withReminder (time : String) : Component → Component
  | .event e =>
    match addReminder time e with
    | some e' => .event e'
    | none => .event e
  | .other kind props => .other kind props

/-! ## Expiry cleanup (`config.go`) -/

/-- One entry of a profile's module list, a Go `map[string]string`, as the list of its
entries. -/
abbrev ModuleEntry := List (String × String)

/-- The lookup `m[k]` in a Go map of strings: the empty string for an absent key. -/
def entryGet (m : ModuleEntry) (k : String) : String := (mapGet m k).getD ""

/-- Source `profile`, with the one field that the cleanup works on. -/
structure profile where
  Modules : List ModuleEntry
deriving DecidableEq, Repr

/-- Source `Config`, with its profiles only: the Go map `Profiles` as the list of its entries,
in the order in which the `range` of `RunCleanup` walks them. -/
structure Config where
  Profiles : List (String × profile)
deriving DecidableEq, Repr

/-- The two tests of `RunCleanup` on a module entry: `m["expires"] != ""`, and
`time.Now().After(exp)` for the `exp` parsed from `m["expiration"]`, the error of the parse
dropped. An entry that passes both is handed to `removeModuleFromProfile`. -/
def cleanupSelects (env : Env) (m : ModuleEntry) : Bool :=
  entryGet m "expires" != "" && env.now.After (parseOrZero (entryGet m "expiration"))

/-- The loop `for i, m := range c.Profiles[p].Modules` of `RunCleanup`, with the call of
`removeModuleFromProfile` in its body. The range expression is evaluated once, so the loop runs
over the length taken at its start and reads cell `i` of the array as it is by then; `k` counts
the iterations still to run. `removeFromMapString` stands for the helper of that name, which is
defined outside the given sources: it takes the module list and an index to the module list as
the profile shows it after the call (`removeModuleFromProfile` drops the result of the call, so
the list keeps its length), `none` if the helper panics. The last argument collects the indices
handed to `removeModuleFromProfile`. Writing the configuration to its file (`saveConfig`) is not
modelled. -/
def RunCleanupLoop (removeFromMapString : List ModuleEntry → Nat → Option (List ModuleEntry))
    (env : Env) : Nat → Nat → List ModuleEntry → List Nat → Option (List ModuleEntry × List Nat)
  | 0, _, arr, selected => some (arr, selected)
  | k + 1, i, arr, selected =>
    match arr.get? i with
    | some m =>
      if cleanupSelects env m then
        match removeFromMapString arr i with
        | some arr' => RunCleanupLoop removeFromMapString env k (i + 1) arr' (selected ++ [i])
        | none => none
      else RunCleanupLoop removeFromMapString env k (i + 1) arr selected
    | none => none

/-- The loop `for p := range c.Profiles` of `RunCleanup`: the profiles as the call leaves them
and, per profile, the indices handed to `removeModuleFromProfile`. -/
def RunCleanupProfiles
    (removeFromMapString : List ModuleEntry → Nat → Option (List ModuleEntry)) (env : Env) :
    List (String × profile) → Option (List (String × profile) × List (String × List Nat))
  | [] => some ([], [])
  | (name, p) :: rest =>
    match RunCleanupLoop removeFromMapString env p.Modules.length 0 p.Modules [] with
    | some (arr, selected) =>
      match RunCleanupProfiles removeFromMapString env rest with
      | some (rest', log) => some ((name, ⟨arr⟩) :: rest', (name, selected) :: log)
      | none => none
    | none => none

/-- Source `Config.RunCleanup`, the clock read once: the configuration as the call leaves it
and the modules it has selected for removal. -/
def Config.RunCleanup (c : Config)
    (removeFromMapString : List ModuleEntry → Nat → Option (List ModuleEntry)) (env : Env) :
    Option (Config × List (String × List Nat)) :=
  match RunCleanupProfiles removeFromMapString env c.Profiles with
  | some (profiles, log) => some (⟨profiles⟩, log)
  | none => none

/-! ## Module table -/

/-- The keys of the source's table `modules`, in the order of the source. -/
def modules : List String :=
  ["delete-bysummary-regex", "delete-byid", "add-url", "add-file", "delete-timeframe",
    "delete-duplicates", "edit-byid", "edit-bysummary-regex", "save-to-file", "add-reminder"]

/-- Source `lowPrivModules`. -/
def lowPrivModules : List String :=
  ["delete-bysummary-regex", "delete-byid", "delete-timeframe", "delete-duplicates",
    "edit-byid", "edit-bysummary-regex"]

/-! ## Sample documents -/

/-- An event with the given id and summary. -/
def sampleEvent (uid summary : String) : Component :=
  .event ⟨[⟨"UID", uid, []⟩, ⟨"SUMMARY", summary, []⟩], []⟩

/-- A parameter bag with one entry. -/
def oneParam (key value : String) : Params := fun k => if k = key then value else ""

/-- A calendar without calendar-level properties. -/
def calOf (cs : List Component) : Calendar := ⟨cs, []⟩

/-- An event with id, start, end and summary. -/
def timedEvent (uid start stop summary : String) : Component :=
  .event ⟨[⟨"UID", uid, []⟩, ⟨"DTSTART", start, []⟩, ⟨"DTEND", stop, []⟩, ⟨"SUMMARY", summary, []⟩], []⟩

/-- An event that has an id and a start but no summary. -/
def bareEvent (uid start : String) : Component :=
  .event ⟨[⟨"UID", uid, []⟩, ⟨"DTSTART", start, []⟩], []⟩

/-- The empty parameter bag. -/
def noParams : Params := fun _ => ""

/-- A literal pattern of letters, digits and blanks matches the strings that contain it; other
patterns are outside this stand-in for `regexp.Compile`. -/
def containsChars (pat : List Char) : List Char → Bool
  | [] => pat.isEmpty
  | c :: cs => (pat.zip (c :: cs)).all (fun p => p.1 == p.2) && pat.length ≤ (c :: cs).length
      || containsChars pat cs

/-- A stand-in for `regexp.Compile` that knows literal patterns only. -/
def literalCompile (pat : String) : Option (String → Bool) :=
  if pat.data.all (fun c => c.isAlphanum || c == ' ') then
    some (fun s => containsChars pat.data s.data)
  else none

/-- The location `time.UTC`. -/
def utcLocation : Location := ⟨fun wall => wall, fun _ => 0, fun _ => "UTC"⟩

/-- A host whose clock shows 2025-06-01T00:00:00Z, whose zone is UTC and whose zone database
knows UTC and the host zone only, whose map walk yields the entries in the order of insertion, and whose patterns
are literals. -/
def sampleEnv : Env :=
  ⟨⟨1748736000 * 1000000000, 0⟩, utcLocation,
    fun name => if name = "" ∨ name = "UTC" ∨ name = "Local" then some utcLocation else none,
    fun _ m => m, fun _ m => List.Perm.refl m, literalCompile⟩

/-- A location with one offset (seconds east of UTC) and one abbreviation, as Go
`time.FixedZone`. -/
def fixedZone (name : String) (offset : Int) : Location :=
  ⟨fun wall => wall - offset, fun _ => offset, fun _ => name⟩

/-- A host like `sampleEnv` that stands one hour east of UTC and whose zone database knows one
more zone, `Asia/Tokyo`, nine hours east of UTC. -/
def eastEnv : Env :=
  ⟨⟨1748736000 * 1000000000, 3600⟩, fixedZone "CET" 3600,
    fun name =>
      if name = "" ∨ name = "UTC" then some utcLocation
      else if name = "Local" then some (fixedZone "CET" 3600)
      else if name = "Asia/Tokyo" then some (fixedZone "JST" 32400)
      else none,
    fun _ m => m, fun _ m => List.Perm.refl m, literalCompile⟩

/-- A parameter bag with two entries. -/
def twoParams (k1 v1 k2 v2 : String) : Params :=
  fun k => if k = k1 then v1 else if k = k2 then v2 else ""

/-- An event with id, start, rule and summary. -/
def recurringEvent (uid start rule summary : String) : Component :=
  .event ⟨[⟨"UID", uid, []⟩, ⟨"DTSTART", start, []⟩, ⟨"RRULE", rule, []⟩, ⟨"SUMMARY", summary, []⟩], []⟩

/-- The instant 2025-01-01T00:00:00Z. -/
def jan2025 : Time := ⟨1735689600 * 1000000000, 0⟩

/-- The instant 2025-03-01T00:00:00Z. -/
def mar2025 : Time := ⟨1740787200 * 1000000000, 0⟩

/-- The window from 2025-01-01T00:00:00Z to 2025-03-01T00:00:00Z as `after` and `before`. -/
def windowParams : Params :=
  twoParams "after" "2025-01-01T00:00:00Z" "before" "2025-03-01T00:00:00Z"

/-- A document with a recurring event that started before the window, a time zone component,
an event inside the window and an event that starts exactly on the lower bound. -/
def windowCal : Calendar :=
  calOf [recurringEvent "a" "20240101T100000Z" "FREQ=DAILY;UNTIL=20301231T000000Z" "S",
    .other "VTIMEZONE" [],
    timedEvent "b" "20250201T100000Z" "20250201T110000Z" "T",
    timedEvent "c" "20250101T000000Z" "20250101T110000Z" "on the bound"]

/-- A recurring event inside the window whose rule ends on a date (`UNTIL` in the date form). -/
def dateUntilEvent : Component :=
  recurringEvent "a" "20250201T100000Z" "FREQ=DAILY;UNTIL=20301231" "S"

/-- The rule of the spec's example, ending on 2030-12-31. -/
def dailyUntil2030 : String := "FREQ=DAILY;UNTIL=20301231T000000Z"

/-- The rule `dailyUntil2030` as a mapping. -/
def dailyUntil2030Map : RuleMap := [("FREQ", "DAILY"), ("UNTIL", "20301231T000000Z")]

/-- An event that carries the rule `dailyUntil2030`. -/
def dailyEvent : VEvent :=
  ⟨[⟨"UID", "a", []⟩, ⟨"DTSTART", "20240101T100000Z", []⟩, ⟨"RRULE", dailyUntil2030, []⟩,
    ⟨"SUMMARY", "S", []⟩], []⟩

/-- A parameter bag with three entries. -/
def threeParams (k1 v1 k2 v2 k3 v3 : String) : Params :=
  fun k => if k = k1 then v1 else if k = k2 then v2 else if k = k3 then v3 else ""

/-- A parameter bag with four entries. -/
def fourParams (k1 v1 k2 v2 k3 v3 k4 v4 : String) : Params :=
  fun k => if k = k1 then v1 else if k = k2 then v2 else if k = k3 then v3
    else if k = k4 then v4 else ""

/-- An event with an id and a description and no summary. -/
def describedEvent (uid description : String) : Component :=
  .event ⟨[⟨"UID", uid, []⟩, ⟨"DESCRIPTION", description, []⟩], []⟩

/-- A document with a stand-up meeting and a lunch, one hour each. -/
def meetingCal : Calendar :=
  calOf [timedEvent "a" "20250101T100000Z" "20250101T110000Z" "Standup",
    timedEvent "b" "20250101T120000Z" "20250101T130000Z" "Lunch"]

/-- The pattern `Standup` as `literalCompile` compiles it. -/
def standupRe : String → Bool := fun s => containsChars "Standup".data s.data

/-- An event that has an audio alarm ten minutes ahead and no other alarm. -/
def alarmedEvent (uid : String) : Component :=
  .event ⟨[⟨"UID", uid, []⟩], [⟨[⟨"ACTION", "AUDIO", []⟩, ⟨"TRIGGER", "-PT10M", []⟩]⟩]⟩

/-- A recurring event whose rule `dailyUntil2030` is the last of its properties. -/
def ruleLastEvent : Component :=
  .event ⟨[⟨"UID", "a", []⟩, ⟨"DTSTART", "20240101T100000Z", []⟩, ⟨"RRULE", dailyUntil2030, []⟩], []⟩

/-- An event with id, start, summary and description. -/
def notedEvent (uid start summary description : String) : Component :=
  .event ⟨[⟨"UID", uid, []⟩, ⟨"DTSTART", start, []⟩, ⟨"SUMMARY", summary, []⟩,
    ⟨"DESCRIPTION", description, []⟩], []⟩

/-- A call of edit-byid with a new summary and a `new-start` that is no timestamp. -/
def garbageStart : Params := threeParams "id" "x" "new-summary" "moved" "new-start" "garbage"

/-- A file with three events and a time zone component. -/
def fileA : Calendar :=
  calOf [sampleEvent "a1" "A1", .other "VTIMEZONE" [], sampleEvent "a2" "A2",
    sampleEvent "a3" "A3"]

/-- A file with two events. -/
def fileB : Calendar := calOf [sampleEvent "b1" "B1", sampleEvent "b2" "B2"]

/-- A target document with a product id, a time zone component and one event. -/
def targetCal : Calendar :=
  ⟨[.other "VTIMEZONE" [], sampleEvent "t" "T"], [⟨"PRODID", "relay", []⟩]⟩

/-- An outside world with the files `a.ics` and `b.ics` and nothing else: no other file, no
web, and writes that succeed. -/
def sampleSources : Sources :=
  ⟨fun name => if name = "a.ics" then .parsed fileA
      else if name = "b.ics" then .parsed fileB else .missing,
    fun _ _ => .failed "no route to host", fun _ _ => none⟩

/-- A parameter bag with the given entries. -/
def paramsOf (entries : List (String × String)) : Params :=
  fun k => (mapGet entries k).getD ""

/-- A helper that removes in the manner of the source's `remove`, seen through a slice header
that is not updated: the cells behind the index move one place down, the last cell keeps its
content. -/
def shiftDown (arr : List ModuleEntry) (s : Nat) : Option (List ModuleEntry) :=
  (removeInPlace arr arr.length s).map (fun r => r.1)

/-- A helper that leaves the list of its caller as it is. -/
def copyOnly (arr : List ModuleEntry) (_s : Nat) : Option (List ModuleEntry) := some arr

/-- Whether an event has no start that the code can read: no `DTSTART` property, or one whose
value `GetStartAt` does not read (a value in none of its forms, a field out of range, a `TZID`
that does not load). -/
def hasNoStart (env : Env) (e : VEvent) : Bool :=
  match GetProperty e.Properties "DTSTART" with
  | none => true
  | some p => (readStamp env p).isNone

/-- Whether an event has no end that the code can read: no `DTEND` property, or one whose value
`GetEndAt` does not read. -/
def hasNoEnd (env : Env) (e : VEvent) : Bool :=
  match GetProperty e.Properties "DTEND" with
  | none => true
  | some p => (readStamp env p).isNone

/-- Whether a component is an event without a readable start. -/
def noStart (env : Env) : Component → Bool
  | .event e => hasNoStart env e
  | .other _ _ => false

/-- A document with an event that has neither start nor summary, an event that has a summary and
no start, and two events in January 2025. -/
def startlessCal : Calendar :=
  calOf [.event ⟨[⟨"UID", "n", []⟩], []⟩, sampleEvent "x" "Standup",
    timedEvent "a" "20250115T100000Z" "20250115T110000Z" "Standup",
    timedEvent "b" "20250116T120000Z" "20250116T130000Z" "Lunch"]

/-- A document with a recurring event that starts in 2026 and one that starts in 2024. -/
def recurringCal : Calendar :=
  calOf [recurringEvent "late" "20260101T100000Z" dailyUntil2030 "S",
    recurringEvent "early" "20240101T100000Z" "FREQ=DAILY" "T"]

/-- A configuration with one profile `feed` that holds the given module entries. -/
def feedConfig (entries : List ModuleEntry) : Config := ⟨[("feed", ⟨entries⟩)]⟩

/-! # Properties -/

/-! ## delete-byid -/

/-- Iterations over cells that hold no event with the wanted id change nothing. -/
theorem moduleDeleteIdLoop_skip (id : String) (a b : Nat) :
    ∀ (i : Nat) (arr : List Component) (len : Nat) (count : Int),
      i + a ≤ arr.length →
      (∀ c ∈ (arr.drop i).take a, hasId id c = false) →
      moduleDeleteIdLoop id (a + b) i arr len count
        = moduleDeleteIdLoop id b (i + a) arr len count := by
  induction a with
  | zero => intro i arr len count _ _; simp
  | succ a ih =>
    intro i arr len count hlen hno
    have hi : i < arr.length := by omega
    have hget : arr.get? i = some arr[i] := List.get?_eq_get hi
    have hdrop : arr.drop i = arr[i] :: arr.drop (i + 1) := List.drop_eq_getElem_cons hi
    rw [hdrop, List.take_succ_cons] at hno
    have h0 : hasId id arr[i] = false := hno _ (List.mem_cons_self _ _)
    have hk : a + 1 + b = (a + b) + 1 := by omega
    have hk2 : i + (a + 1) = i + 1 + a := by omega
    rw [hk, hk2]
    simp only [moduleDeleteIdLoop, hget, h0]
    exact ih (i + 1) arr len count (by omega) (fun c hc => hno c (List.mem_cons_of_mem _ hc))

/-- The last cell of a list that ends in `p :: ps` lies in `p :: ps`. -/
theorem drop_last_mem {α : Type} (pre : List α) (e p : α) (ps : List α) (c : α)
    (hc : c ∈ (pre ++ e :: p :: ps).drop ((pre ++ e :: p :: ps).length - 1)) :
    c ∈ p :: ps := by
  have h : (pre ++ e :: p :: ps) = (pre ++ [e]) ++ (p :: ps) := by simp
  rw [h, List.drop_append_eq_append_drop] at hc
  have h2 : (pre ++ [e]).drop ((pre ++ [e] ++ p :: ps).length - 1) = [] := by
    apply List.drop_eq_nil_of_le; simp
  rw [h2, List.nil_append] at hc
  exact List.mem_of_mem_drop hc

/-- The loop on a document with exactly one event carrying the id: that event is removed, the
stale last cell of the backing array is never a match, and the count is `-1`. -/
theorem moduleDeleteIdLoop_unique (id : String) (pre post : List Component) (e : Component)
    (he : hasId id e = true) (hpre : ∀ c ∈ pre, hasId id c = false)
    (hpost : ∀ c ∈ post, hasId id c = false) :
    ∃ arr, moduleDeleteIdLoop id (pre ++ e :: post).length 0 (pre ++ e :: post)
        (pre ++ e :: post).length 0 = some (arr, (pre ++ post).length, -1) ∧
      arr.take (pre ++ post).length = pre ++ post := by
  have hn : (pre ++ e :: post).length = pre.length + (post.length + 1) := by simp
  have h1 := moduleDeleteIdLoop_skip id pre.length (post.length + 1) 0 (pre ++ e :: post)
    (pre ++ e :: post).length 0 (by simp) (by simpa using hpre)
  rw [← hn] at h1
  rw [h1, Nat.zero_add]
  have hget : (pre ++ e :: post).get? pre.length = some e := by
    rw [List.get?_eq_getElem?, List.getElem?_append_right (Nat.le_refl _)]; simp
  have hrm : removeInPlace (pre ++ e :: post) (pre ++ e :: post).length pre.length
      = some (pre ++ post ++ (pre ++ e :: post).drop ((pre ++ e :: post).length - 1),
          (pre ++ post).length) := by
    unfold removeInPlace
    rw [if_pos (by simp)]
    have hd : ((pre ++ e :: post).take (pre ++ e :: post).length).drop (pre.length + 1) = post := by
      rw [List.take_length]
      have : pre ++ e :: post = (pre ++ [e]) ++ post := by simp
      rw [this]
      exact List.drop_left' (by simp)
    rw [hd]
    simp
  simp only [moduleDeleteIdLoop, hget, he, hrm, if_true]
  refine ⟨pre ++ post ++ (pre ++ e :: post).drop ((pre ++ e :: post).length - 1), ?_, ?_⟩
  · have h2 := moduleDeleteIdLoop_skip id post.length 0 (pre.length + 1)
      (pre ++ post ++ (pre ++ e :: post).drop ((pre ++ e :: post).length - 1))
      (pre ++ post).length (0 - 1) (by simp; omega) (by
        intro c hc
        have hc1 := List.mem_of_mem_take hc
        cases post with
        | nil => simp at hc
        | cons p ps =>
          have hc2 := List.mem_of_mem_drop hc1
          simp only [List.mem_append] at hc2
          rcases hc2 with (hc2 | hc2) | hc2
          · exact hpre c hc2
          · exact hpost c hc2
          · exact hpost c (drop_last_mem pre e p ps c hc2))
    simp only [Nat.add_zero] at h2
    rw [h2]
    simp [moduleDeleteIdLoop]
  · exact List.take_left' rfl

/-- A list with at most one element satisfying `p` has none, or splits around the only one. -/
theorem split_at_most_one {α : Type} (p : α → Bool) (l : List α)
    (h : (l.filter p).length ≤ 1) :
    (∀ c ∈ l, p c = false) ∨
    ∃ pre e post, l = pre ++ e :: post ∧ p e = true ∧
      (∀ c ∈ pre, p c = false) ∧ (∀ c ∈ post, p c = false) := by
  induction l with
  | nil => left; simp
  | cons a l ih =>
    by_cases ha : p a = true
    · right
      refine ⟨[], a, l, rfl, ha, by simp, ?_⟩
      rw [List.filter_cons_of_pos ha] at h
      have h0 : (l.filter p).length = 0 := by simpa using h
      have h1 : l.filter p = [] := List.length_eq_zero.mp h0
      intro c hc
      by_contra hcp
      have : c ∈ l.filter p := List.mem_filter.mpr ⟨hc, by simpa using hcp⟩
      rw [h1] at this
      exact absurd this (List.not_mem_nil c)
    · have ha' : p a = false := by simpa using ha
      rw [List.filter_cons_of_neg ha] at h
      rcases ih h with h0 | ⟨pre, e, post, hl, he, hpre, hpost⟩
      · left
        intro c hc
        rcases List.mem_cons.mp hc with rfl | hc
        · exact ha'
        · exact h0 c hc
      · right
        refine ⟨a :: pre, e, post, by rw [hl]; rfl, he, ?_, hpost⟩
        intro c hc
        rcases List.mem_cons.mp hc with rfl | hc
        · exact ha'
        · exact hpre c hc

/-- Filtering out `p` keeps a list in which nothing satisfies `p`. -/
theorem filter_not_of_none {α : Type} (p : α → Bool) (l : List α) (h : ∀ c ∈ l, p c = false) :
    l.filter (fun c => !p c) = l := by
  apply List.filter_eq_self.mpr
  intro c hc; simp [h c hc]

/-- Filtering by `p` empties a list in which nothing satisfies `p`. -/
theorem filter_of_none {α : Type} (p : α → Bool) (l : List α) (h : ∀ c ∈ l, p c = false) :
    l.filter p = [] := by
  apply List.filter_eq_nil_iff.mpr
  intro c hc; simp [h c hc]

/-- With at most one event carrying the id, `moduleDeleteId` returns, keeps every component
that is not that event, and reports minus the number of events with the id. -/
theorem moduleDeleteId_at_most_one (cal : Calendar) (params : Params)
    (hid : params "id" ≠ "")
    (huniq : (cal.Components.filter (hasId (params "id"))).length ≤ 1) :
    moduleDeleteId cal params = some
      ⟨{ cal with Components := cal.Components.filter (fun c => !hasId (params "id") c) },
        -((cal.Components.filter (hasId (params "id"))).length : Int), none⟩ := by
  unfold moduleDeleteId
  rw [if_neg hid]
  rcases split_at_most_one _ _ huniq with h0 | ⟨pre, e, post, hl, he, hpre, hpost⟩
  · have h1 := moduleDeleteIdLoop_skip (params "id") cal.Components.length 0 0 cal.Components
      cal.Components.length 0 (by simp) (by
        intro c hc; exact h0 c (List.mem_of_mem_take hc))
    simp only [Nat.add_zero] at h1
    simp only [h1, moduleDeleteIdLoop, Nat.zero_add]
    rw [filter_not_of_none _ _ h0, filter_of_none _ _ h0]
    simp
  · obtain ⟨arr, harr, htake⟩ := moduleDeleteIdLoop_unique (params "id") pre post e he hpre hpost
    rw [hl]
    simp only [harr, htake]
    have hf1 : (pre ++ e :: post).filter (fun c => !hasId (params "id") c) = pre ++ post := by
      rw [List.filter_append, List.filter_cons, filter_not_of_none _ _ hpre,
        filter_not_of_none _ _ hpost]
      simp [he]
    have hf2 : (pre ++ e :: post).filter (hasId (params "id")) = [e] := by
      rw [List.filter_append, List.filter_cons, filter_of_none _ _ hpre,
        filter_of_none _ _ hpost]
      simp [he]
    rw [hf1, hf2]
    simp

/-- C2 (as amended): for a calendar in which at most one event carries the non-empty id,
`moduleDeleteId` returns without error, and a second call with the same id returns delta 0,
no error, and leaves the document exactly as the first call left it. -/
theorem moduleDeleteId_twice_of_unique (cal : Calendar) (params : Params)
    (hid : params "id" ≠ "")
    (huniq : (cal.Components.filter (hasId (params "id"))).length ≤ 1) :
    ∃ o1, moduleDeleteId cal params = some o1 ∧ o1.err = none ∧
      moduleDeleteId o1.cal params = some ⟨o1.cal, 0, none⟩ := by
  refine ⟨_, moduleDeleteId_at_most_one cal params hid huniq, rfl, ?_⟩
  have hnone : ∀ c ∈ cal.Components.filter (fun c => !hasId (params "id") c),
      hasId (params "id") c = false := by
    intro c hc
    simpa using (List.mem_filter.mp hc).2
  have h2 := moduleDeleteId_at_most_one
    { cal with Components := cal.Components.filter (fun c => !hasId (params "id") c) } params hid
    (by simp [filter_of_none _ _ hnone])
  rw [h2]
  simp only [filter_of_none _ _ hnone, filter_not_of_none _ _ hnone]
  simp

/-- C2, witness: two events with distinct ids, the first one deleted twice. -/
theorem moduleDeleteId_twice_of_unique_witness :
    ∃ o1, moduleDeleteId (calOf [sampleEvent "x" "A", sampleEvent "y" "B"]) (oneParam "id" "x")
        = some o1 ∧ o1.err = none ∧
      moduleDeleteId o1.cal (oneParam "id" "x") = some ⟨o1.cal, 0, none⟩ :=
  moduleDeleteId_twice_of_unique (calOf [sampleEvent "x" "A", sampleEvent "y" "B"])
    (oneParam "id" "x") (by decide) (by decide)

/-- C2, counterexample: with two events sharing the id, the first call removes one of them and
the second call removes the other, returning delta -1 and changing the document again. -/
theorem moduleDeleteId_second_call_removes_again :
    moduleDeleteId (calOf [sampleEvent "x" "A", sampleEvent "x" "B", sampleEvent "y" "C"])
        (oneParam "id" "x")
      = some ⟨calOf [sampleEvent "x" "B", sampleEvent "y" "C"], -1, none⟩ ∧
    moduleDeleteId (calOf [sampleEvent "x" "B", sampleEvent "y" "C"]) (oneParam "id" "x")
      = some ⟨calOf [sampleEvent "y" "C"], -1, none⟩ := by
  decide

/-- C1, the code at the failing inputs: with the id `x` carried by the first and the third of
four events, `moduleDeleteId` removes both and returns delta -2 (the claim: only the first,
delta -1); with the id carried by both events of a two-event document the call ends in a slice
bounds panic instead of returning. -/
theorem moduleDeleteId_removes_more_than_first :
    moduleDeleteId (calOf [sampleEvent "x" "A", sampleEvent "y" "C", sampleEvent "x" "B",
        sampleEvent "z" "D"]) (oneParam "id" "x")
      = some ⟨calOf [sampleEvent "y" "C", sampleEvent "z" "D"], -2, none⟩ ∧
    moduleDeleteId (calOf [sampleEvent "x" "A", sampleEvent "x" "B"]) (oneParam "id" "x")
      = none := by
  decide

/-! ## Dates and timestamps -/

/-- The cycle decomposition of `yearDay`, on named intermediate values. -/
theorem yearDay_core (d0 n400 d1 q100 n100 d2 n4 d3 q1 n1 : Int)
    (hn400 : n400 = d0 / 146097) (hd1 : d1 = d0 - 146097 * n400)
    (hq100 : q100 = d1 / 36524) (hn100 : n100 = if q100 < 3 then q100 else 3)
    (hd2 : d2 = d1 - 36524 * n100) (hn4 : n4 = d2 / 1461) (hd3 : d3 = d2 - 1461 * n4)
    (hq1 : q1 = d3 / 365) (hn1 : n1 = if q1 < 3 then q1 else 3) :
    daysBeforeYear (1 + 400 * n400 + 100 * n100 + 4 * n4 + n1) + ((d3 - 365 * n1).toNat : Int)
        = d0 ∧
      (d3 - 365 * n1).toNat
        < 365 + (if isLeap (1 + 400 * n400 + 100 * n100 + 4 * n4 + n1) then 1 else 0) := by
  have hd1b : 0 ≤ d1 ∧ d1 < 146097 := by omega
  have hq100b : 0 ≤ q100 ∧ q100 ≤ 4 := by omega
  have hn100b : 0 ≤ n100 ∧ n100 ≤ 3 ∧ (q100 < 3 → n100 = q100) ∧ (3 ≤ q100 → n100 = 3) := by
    split at hn100 <;> omega
  have hd2b : 0 ≤ d2 ∧ d2 ≤ 36524 ∧ (n100 < 3 → d2 < 36524) := by omega
  have hn4b : 0 ≤ n4 ∧ n4 ≤ 24 := by omega
  have hd3b : 0 ≤ d3 ∧ d3 ≤ 1460 ∧ (n4 = 24 → n100 < 3 → d3 < 1460) := by omega
  have hq1b : 0 ≤ q1 ∧ q1 ≤ 4 := by omega
  have hn1b : 0 ≤ n1 ∧ n1 ≤ 3 ∧ (q1 < 3 → n1 = q1) ∧ (3 ≤ q1 → n1 = 3) := by
    split at hn1 <;> omega
  have hyd : 0 ≤ d3 - 365 * n1 ∧ d3 - 365 * n1 ≤ 365 ∧ (n1 < 3 → d3 - 365 * n1 < 365) := by
    omega
  have e4 : (1 + 400 * n400 + 100 * n100 + 4 * n4 + n1 - 1) / 4 = 100 * n400 + 25 * n100 + n4 := by
    omega
  have e100 : (1 + 400 * n400 + 100 * n100 + 4 * n4 + n1 - 1) / 100 = 4 * n400 + n100 := by
    omega
  have e400 : (1 + 400 * n400 + 100 * n100 + 4 * n4 + n1 - 1) / 400 = n400 := by
    omega
  constructor
  · unfold daysBeforeYear
    rw [e4, e100, e400]
    omega
  · by_cases hl : isLeap (1 + 400 * n400 + 100 * n100 + 4 * n4 + n1) = true
    · rw [if_pos hl]; omega
    · rw [if_neg hl]
      have hl' : ¬ ((1 + 400 * n400 + 100 * n100 + 4 * n4 + n1) % 4 = 0 ∧
          ((1 + 400 * n400 + 100 * n100 + 4 * n4 + n1) % 100 ≠ 0 ∨
            (1 + 400 * n400 + 100 * n100 + 4 * n4 + n1) % 400 = 0)) := by
        intro h
        apply hl
        simp only [isLeap, Bool.and_eq_true, Bool.or_eq_true, beq_iff_eq, bne_iff_ne]
        exact h
      omega

/-- The year and the day of the year of a day number add up to it, and the day of the year
lies inside the year. -/
theorem yearDay_spec (z : Int) :
    daysBeforeYear (yearDay z).1 + ((yearDay z).2 : Int) = z + 719162 ∧
    (yearDay z).2 < 365 + (if isLeap (yearDay z).1 then 1 else 0) :=
  yearDay_core (z + 719162) _ _ _ _ _ _ _ _ _ rfl rfl rfl rfl rfl rfl rfl rfl rfl

set_option maxRecDepth 100000 in
/-- The table of the days of a year: month and day of the month of each of them. -/
theorem monthDay_table : ∀ leap : Bool, ∀ yday < 366,
    yday < 365 + (if leap then 1 else 0) →
    1 ≤ (monthDay leap yday).1 ∧ (monthDay leap yday).1 ≤ 12 ∧ 1 ≤ (monthDay leap yday).2 ∧
    daysBeforeMonth leap (monthDay leap yday).1 + (monthDay leap yday).2 = yday + 1 ∧
    (monthDay leap yday).2 ≤ daysIn (monthDay leap yday).1 (if leap then 4 else 1) := by
  decide

/-- The length of a month depends on the year through its leap status only. -/
theorem daysIn_leap (m : Nat) (y : Int) : daysIn m y = daysIn m (if isLeap y then 4 else 1) := by
  have h4 : isLeap 4 = true := by decide
  have h1 : isLeap 1 = false := by decide
  cases h : isLeap y <;> simp [daysIn, h, h4, h1]

/-- The date of a day number is a valid date, and it is the date of that day number only. -/
theorem civilFromDays_spec (z : Int) :
    1 ≤ (civilFromDays z).2.1 ∧ (civilFromDays z).2.1 ≤ 12 ∧ 1 ≤ (civilFromDays z).2.2 ∧
    (civilFromDays z).2.2 ≤ daysIn (civilFromDays z).2.1 (civilFromDays z).1 ∧
    daysFromCivil (civilFromDays z).1 (civilFromDays z).2.1 (civilFromDays z).2.2 = z := by
  obtain ⟨h1, h2⟩ := yearDay_spec z
  have h3 : (yearDay z).2 < 366 := by
    split at h2 <;> omega
  obtain ⟨m1, m2, m3, m4, m5⟩ := monthDay_table (isLeap (yearDay z).1) (yearDay z).2 h3 h2
  rw [← daysIn_leap] at m5
  refine ⟨m1, m2, m3, m5, ?_⟩
  show daysBeforeYear (yearDay z).1
      + ((daysBeforeMonth (isLeap (yearDay z).1) (monthDay (isLeap (yearDay z).1) (yearDay z).2).1
          : Nat) : Int)
      + (((monthDay (isLeap (yearDay z).1) (yearDay z).2).2 : Nat) : Int) - 1 - 719162 = z
  omega

/-- A digit read back from its character. -/
theorem digitVal_digitChar (k : Nat) (h : k < 10) : digitVal (digitChar k) = some k := by
  interval_cases k <;> decide

/-- Two digits written by `padDigits` are read back by `takeDigits`. -/
theorem takeDigits_two (n : Nat) (h : n < 100) (rest : List Char) :
    takeDigits 2 (padDigits 2 n ++ rest) = some (n, rest) := by
  simp only [padDigits, List.nil_append, List.cons_append, List.append_assoc, takeDigits,
    digitVal_digitChar (n / 10 % 10) (by omega), digitVal_digitChar (n % 10) (by omega)]
  simp only [Option.some.injEq, Prod.mk.injEq, and_true]
  norm_num
  omega

/-- Four digits written by `padDigits` are read back by `takeDigits`. -/
theorem takeDigits_four (n : Nat) (h : n < 10000) (rest : List Char) :
    takeDigits 4 (padDigits 4 n ++ rest) = some (n, rest) := by
  simp only [padDigits, List.nil_append, List.cons_append, List.append_assoc, takeDigits,
    digitVal_digitChar (n / 10 / 10 / 10 % 10) (by omega),
    digitVal_digitChar (n / 10 / 10 % 10) (by omega),
    digitVal_digitChar (n / 10 % 10) (by omega), digitVal_digitChar (n % 10) (by omega)]
  simp only [Option.some.injEq, Prod.mk.injEq, and_true]
  norm_num
  omega

/-- Day numbers between 0000-01-01 and 9999-12-31 have a year of four digits. -/
theorem civilFromDays_year (z : Int) (hlo : -719528 ≤ z) (hhi : z < 2932897) :
    0 ≤ (civilFromDays z).1 ∧ (civilFromDays z).1 ≤ 9999 := by
  obtain ⟨h1, h2⟩ := yearDay_spec z
  show 0 ≤ (yearDay z).1 ∧ (yearDay z).1 ≤ 9999
  generalize (yearDay z).1 = y at h1 h2
  generalize (yearDay z).2 = yd at h1 h2
  unfold daysBeforeYear at h1
  have h3 : yd < 366 := by split at h2 <;> omega
  constructor
  · by_contra hneg
    by_cases hy : y = -1
    · subst hy
      have : isLeap (-1) = false := by decide
      rw [this] at h2
      simp at h2
      omega
    · omega
  · omega

/-- Reading back what `formatCompact` wrote, for an instant in UTC with a year of four digits:
the instant itself, cut to the whole second. -/
theorem parseCompact_formatCompact (t : Time) (hoff : t.offset = 0)
    (hlo : -62167219200 * 1000000000 ≤ t.ns) (hhi : t.ns < 253402300800 * 1000000000) :
    parseCompact t.formatCompact = some ⟨t.ns / 1000000000 * 1000000000, 0⟩ := by
  unfold parseCompact Time.formatCompact Time.clock
  simp only [hoff, Int.add_zero]
  generalize hsecs : t.ns / 1000000000 = secs
  have hs1 : -62167219200 ≤ secs ∧ secs < 253402300800 := by omega
  generalize hdays : secs / 86400 = days
  have hd1 : -719528 ≤ days ∧ days < 2932897 := by omega
  generalize hsod : (secs % 86400).toNat = sod
  have hsod1 : sod < 86400 ∧ (sod : Int) = secs % 86400 := by omega
  obtain ⟨c1, c2, c3, c4, c5⟩ := civilFromDays_spec days
  obtain ⟨y1, y2⟩ := civilFromDays_year days hd1.1 hd1.2
  generalize hy : (civilFromDays days).1 = y at *
  generalize hm : (civilFromDays days).2.1 = m at *
  generalize hd : (civilFromDays days).2.2 = d at *
  have hd31 : d ≤ 31 := by
    have : daysIn m y ≤ 31 := by unfold daysIn; split_ifs <;> omega
    omega
  have hyd : yearDigits y = padDigits 4 y.toNat := by
    unfold yearDigits
    have h1 : y.natAbs = y.toNat := by omega
    have h2 : y.toNat < 10000 := by omega
    have h3 : ¬ (y < 0) := by omega
    simp only [h1, h2, h3, if_true, if_false, List.nil_append]
  have hycast : ((y.toNat : Nat) : Int) = y := by omega
  simp only [hyd, List.append_assoc, parseCompactChars,
    takeDigits_four y.toNat (by omega), takeDigits_two m (by omega), takeDigits_two d (by omega),
    List.cons_append, List.nil_append,
    takeDigits_two (sod / 3600) (by omega), takeDigits_two (sod % 3600 / 60) (by omega),
    takeDigits_two (sod % 60) (by omega)]
  have hfrac : takeFraction ['.', ','] ['Z'] = (0, ['Z']) := by decide
  simp only [hfrac]
  unfold mkTime
  rw [hycast]
  rw [if_pos ⟨c1, c2, c3, c4, by omega, by omega, by omega⟩, c5]
  congr 2
  push_cast
  omega

/-! ## delete-duplicates -/

/-- Unfolding `keepLast` on an event with an identifier. -/
theorem keepLast_event (env : Env) (seen : List String) (e : VEvent) (rest : List Component) (key : String)
    (hk : identifier env e = some key) :
    keepLast env seen (.event e :: rest)
      = if seen.contains key || rest.any (hasKey env key) then keepLast env seen rest
        else .event e :: keepLast env seen rest := by
  simp only [keepLast, hk]

/-- Unfolding `keepLast` on an event without an identifier. -/
theorem keepLast_event_none (env : Env) (seen : List String) (e : VEvent) (rest : List Component)
    (hk : identifier env e = none) :
    keepLast env seen (.event e :: rest) = .event e :: keepLast env seen rest := by
  simp only [keepLast, hk]

/-- Unfolding `keepLast` on a component that is no event. -/
theorem keepLast_other (env : Env) (seen : List String) (kind : String) (props : List IANAProperty)
    (rest : List Component) :
    keepLast env seen (.other kind props :: rest) = .other kind props :: keepLast env seen rest := by
  simp only [keepLast]

/-- The identifier test on an event whose identifier is known. -/
theorem hasKey_event (env : Env) (key key' : String) (e : VEvent) (hk : identifier env e = some key) :
    hasKey env key' (.event e) = (key == key') := by
  simp only [hasKey, hk]
  by_cases h : key = key'
  · subst h; simp
  · have h1 : (key == key') = false := by simpa using h
    rw [h1]; simpa using h

/-- The test `any` on a list with one more element at its end. -/
theorem any_append_one {α : Type} (f : α → Bool) (p : List α) (x : α) :
    (p ++ [x]).any f = (p.any f || f x) := by
  rw [List.any_append]; simp only [List.any_cons, List.any_nil, Bool.or_false]

/-- Membership in a list of strings with one more element at its end. -/
theorem contains_append_one (seen : List String) (key key' : String) :
    (seen ++ [key]).contains key' = (seen.contains key' || key == key') := by
  induction seen with
  | nil =>
    simp only [List.nil_append, List.contains, List.elem, Bool.false_or]
    by_cases h : key' = key
    · subst h; simp
    · have h1 : (key' == key) = false := by simpa using h
      have h2 : (key == key') = false := by simpa using (fun hh => h (Eq.symm hh))
      simp [h1, h2]
  | cons a seen ih =>
    simp only [List.contains] at ih
    simp only [List.cons_append, List.contains, List.elem]
    cases hh : (key' == a) with
    | true => simp
    | false => simpa using ih

/-- Appending a non-event to the scanned part. -/
theorem keepLast_append_other (env : Env) (seen : List String) (p : List Component) (kind : String)
    (props : List IANAProperty) :
    keepLast env seen (p ++ [.other kind props]) = keepLast env seen p ++ [.other kind props] := by
  induction p with
  | nil => simp only [List.nil_append, keepLast]
  | cons a p ih =>
    cases a with
    | other k q => rw [List.cons_append, keepLast_other, keepLast_other, ih]; rfl
    | event e =>
      cases hk : identifier env e with
      | none =>
        rw [List.cons_append, keepLast_event_none _ _ _ _ hk, keepLast_event_none _ _ _ _ hk, ih]; rfl
      | some key =>
        rw [List.cons_append, keepLast_event _ _ _ _ _ hk, keepLast_event _ _ _ _ _ hk, ih,
          any_append_one]
        simp only [hasKey, Bool.or_false]
        split <;> rfl

/-- Appending an event whose identifier was seen already. -/
theorem keepLast_append_seen (env : Env) (seen : List String) (p : List Component) (e : VEvent)
    (key : String) (hk : identifier env e = some key) (hs : seen.contains key = true) :
    keepLast env seen (p ++ [.event e]) = keepLast env seen p := by
  induction p with
  | nil => rw [List.nil_append, keepLast_event _ _ _ _ _ hk, hs]; simp [keepLast]
  | cons a p ih =>
    cases a with
    | other k q => rw [List.cons_append, keepLast_other, keepLast_other, ih]
    | event e' =>
      cases hk' : identifier env e' with
      | none =>
        rw [List.cons_append, keepLast_event_none _ _ _ _ hk', keepLast_event_none _ _ _ _ hk', ih]
      | some key' =>
        rw [List.cons_append, keepLast_event _ _ _ _ _ hk', keepLast_event _ _ _ _ _ hk', ih,
          any_append_one, hasKey_event _ _ _ _ hk]
        have hc : (seen.contains key' || (p.any (hasKey env key') || key == key'))
            = (seen.contains key' || p.any (hasKey env key')) := by
          by_cases hkk : key = key'
          · subst hkk; rw [hs]; rfl
          · have h1 : (key == key') = false := by simpa using hkk
            rw [h1, Bool.or_false]
        rw [hc]

/-- Appending an event whose identifier is new. -/
theorem keepLast_append_new (env : Env) (seen : List String) (p : List Component) (e : VEvent)
    (key : String) (hk : identifier env e = some key) (hs : seen.contains key = false) :
    keepLast env seen (p ++ [.event e]) = keepLast env (seen ++ [key]) p ++ [.event e] := by
  induction p with
  | nil => rw [List.nil_append, keepLast_event _ _ _ _ _ hk, hs]; simp [keepLast]
  | cons a p ih =>
    cases a with
    | other k q => rw [List.cons_append, keepLast_other, keepLast_other, ih]; rfl
    | event e' =>
      cases hk' : identifier env e' with
      | none =>
        rw [List.cons_append, keepLast_event_none _ _ _ _ hk', keepLast_event_none _ _ _ _ hk', ih]
        rfl
      | some key' =>
        rw [List.cons_append, keepLast_event _ _ _ _ _ hk', keepLast_event _ _ _ _ _ hk', ih,
          any_append_one, hasKey_event _ _ _ _ hk, contains_append_one]
        have hc : (seen.contains key' || (p.any (hasKey env key') || key == key'))
            = (seen.contains key' || key == key' || p.any (hasKey env key')) := by
          cases seen.contains key' <;> cases p.any (hasKey env key') <;> cases (key == key') <;> rfl
        rw [hc]
        split <;> rfl

/-- An event with a summary property has an identifier. -/
theorem identifier_isSome_of_summary (env : Env) (e : VEvent) (h : lacksSummary (.event e) = false) :
    ∃ key, identifier env e = some key := by
  simp only [lacksSummary] at h
  unfold identifier
  cases hp : GetProperty e.Properties "SUMMARY" with
  | none => rw [hp] at h; simp at h
  | some p => exact ⟨_, rfl⟩

/-- The backward loop of `moduleDeleteDuplicates` on the part `pre` that is still to scan, when
every event of it has a summary: it leaves `keepLast seen pre` and counts the removals. -/
theorem moduleDeleteDuplicatesLoop_eq (env : Env) (pre : List Component) :
    ∀ (out : List Component) (seen : List String) (count : Int),
      (∀ c ∈ pre, lacksSummary c = false) →
      moduleDeleteDuplicatesLoop env pre.length (pre ++ out) seen count
        = some (keepLast env seen pre ++ out,
            count - ((pre.length : Int) - ((keepLast env seen pre).length : Int))) := by
  induction pre using List.reverseRecOn with
  | nil => intro out seen count _; simp [moduleDeleteDuplicatesLoop, keepLast]
  | append_singleton p c ih =>
    intro out seen count hsum
    have hp : ∀ x ∈ p, lacksSummary x = false := fun x hx => hsum x (by simp [hx])
    have hlen : (p ++ [c]).length = p.length + 1 := by simp
    have hget : (p ++ [c] ++ out).get? p.length = some c := by
      rw [List.get?_eq_getElem?, List.append_assoc, List.getElem?_append_right (Nat.le_refl _)]
      simp
    have hreassoc : p ++ [c] ++ out = p ++ (c :: out) := by simp
    rw [hlen]
    cases c with
    | other kind props =>
      simp only [moduleDeleteDuplicatesLoop, hget]
      rw [hreassoc, ih (Component.other kind props :: out) seen count hp, keepLast_append_other]
      simp only [List.length_append, List.length_singleton, List.append_assoc,
        List.singleton_append, Nat.cast_add, Nat.cast_one]
      have hc : (p.length : Int) + 1 - (((keepLast env seen p).length : Int) + 1)
          = (p.length : Int) - ((keepLast env seen p).length : Int) := by omega
      rw [hc]
    | event e =>
      obtain ⟨key, hk⟩ := identifier_isSome_of_summary env e (hsum _ (by simp))
      cases hs : seen.contains key with
      | true =>
        have hrm : removeFromICS (p ++ [Component.event e] ++ out) p.length = some (p ++ out) := by
          unfold removeFromICS remove
          rw [if_pos (by simp)]
          have h1 : (p ++ [Component.event e] ++ out).take p.length = p := by
            rw [List.append_assoc]; exact List.take_left' rfl
          have h2 : (p ++ [Component.event e] ++ out).drop (p.length + 1) = out :=
            List.drop_left' (by simp)
          rw [h1, h2]
        simp only [moduleDeleteDuplicatesLoop, hget, hk, stringInSlice, hs, hrm, if_true]
        rw [ih out seen (count - 1) hp, keepLast_append_seen _ _ _ _ _ hk hs]
        simp only [Nat.cast_add, Nat.cast_one]
        have hc : count - 1 - ((p.length : Int) - ((keepLast env seen p).length : Int))
            = count - ((p.length : Int) + 1 - ((keepLast env seen p).length : Int)) := by omega
        rw [hc]
      | false =>
        simp only [moduleDeleteDuplicatesLoop, hget, hk, stringInSlice, hs]
        rw [hreassoc, ih (Component.event e :: out) (seen ++ [key]) count hp,
          keepLast_append_new _ _ _ _ _ hk hs]
        simp only [List.length_append, List.length_singleton, List.append_assoc,
          List.singleton_append, Nat.cast_add, Nat.cast_one]
        have hc : (p.length : Int) + 1 - (((keepLast env (seen ++ [key]) p).length : Int) + 1)
            = (p.length : Int) - ((keepLast env (seen ++ [key]) p).length : Int) := by omega
        rw [hc]
        simp

/-- What `keepLast` leaves is a sublist of the document: relative order is kept. -/
theorem keepLast_sublist (env : Env) (seen : List String) (l : List Component) :
    (keepLast env seen l).Sublist l := by
  induction l with
  | nil => simp [keepLast]
  | cons c rest ih =>
    cases c with
    | other k q => rw [keepLast_other]; exact ih.cons₂ _
    | event e =>
      cases hk : identifier env e with
      | none => rw [keepLast_event_none _ _ _ _ hk]; exact ih.cons₂ _
      | some key =>
        rw [keepLast_event _ _ _ _ _ hk]
        split
        · exact ih.cons _
        · exact ih.cons₂ _

/-- The components that are no events all stay, in their order. -/
theorem keepLast_filter_isOther (env : Env) (seen : List String) (l : List Component) :
    (keepLast env seen l).filter isOther = l.filter isOther := by
  induction l with
  | nil => simp [keepLast]
  | cons c rest ih =>
    cases c with
    | other k q => rw [keepLast_other]; simp [List.filter_cons, isOther, ih]
    | event e =>
      cases hk : identifier env e with
      | none => rw [keepLast_event_none _ _ _ _ hk]; simp [List.filter_cons, isOther, ih]
      | some key =>
        rw [keepLast_event _ _ _ _ _ hk]
        split <;> simp [List.filter_cons, isOther, ih]

/-- An identifier occurs among the survivors exactly when it occurs in the document. -/
theorem keepLast_any (env : Env) (key : String) (l : List Component) :
    (keepLast env [] l).any (hasKey env key) = l.any (hasKey env key) := by
  induction l with
  | nil => simp [keepLast]
  | cons c rest ih =>
    cases c with
    | other k q => rw [keepLast_other]; simp only [List.any_cons, ih]
    | event e =>
      cases hk : identifier env e with
      | none => rw [keepLast_event_none _ _ _ _ hk]; simp only [List.any_cons, ih]
      | some key' =>
        rw [keepLast_event _ _ _ _ _ hk]
        simp only [List.contains_nil, Bool.false_or]
        cases hr : rest.any (hasKey env key') with
        | true =>
          simp only [if_true, List.any_cons, ih, hasKey_event _ _ _ _ hk]
          by_cases hkk : key' = key
          · subst hkk; rw [hr]; simp
          · have h1 : (key' == key) = false := by simpa using hkk
            rw [h1, Bool.false_or]
        | false => simp only [Bool.false_eq_true, if_false, List.any_cons, ih]

/-- Per identifier, the survivors carrying it are exactly the last event of the document that
carries it. -/
theorem keepLast_filter_hasKey (env : Env) (key : String) (l : List Component) :
    (keepLast env [] l).filter (hasKey env key) = ((l.filter (hasKey env key)).getLast?).toList := by
  induction l with
  | nil => simp [keepLast]
  | cons c rest ih =>
    have hrest : ∀ (hc : hasKey env key c = true), rest.any (hasKey env key) = true →
        ((c :: rest).filter (hasKey env key)).getLast? = (rest.filter (hasKey env key)).getLast? := by
      intro hc hany
      rw [List.filter_cons_of_pos hc]
      obtain ⟨x, hx, hxk⟩ := List.any_eq_true.mp hany
      have hne : rest.filter (hasKey env key) ≠ [] := by
        intro h
        have : x ∈ rest.filter (hasKey env key) := List.mem_filter.mpr ⟨hx, hxk⟩
        rw [h] at this; exact absurd this (List.not_mem_nil x)
      cases hf : rest.filter (hasKey env key) with
      | nil => exact absurd hf hne
      | cons y ys => simp [List.getLast?_cons_cons]
    have hrest0 : rest.any (hasKey env key) = false → rest.filter (hasKey env key) = [] := by
      intro hany
      apply List.filter_eq_nil_iff.mpr
      intro x hx hxk
      have : rest.any (hasKey env key) = true := List.any_eq_true.mpr ⟨x, hx, hxk⟩
      rw [hany] at this; exact absurd this (by simp)
    have hskip : hasKey env key c = false →
        (c :: rest).filter (hasKey env key) = rest.filter (hasKey env key) := by
      intro hc; exact List.filter_cons_of_neg (by simp [hc])
    cases c with
    | other k q =>
      rw [keepLast_other, hskip rfl, List.filter_cons_of_neg (by simp [hasKey]), ih]
    | event e =>
      cases hk : identifier env e with
      | none =>
        have hc : hasKey env key (.event e) = false := by simp [hasKey, hk]
        rw [keepLast_event_none _ _ _ _ hk, hskip hc, List.filter_cons_of_neg (by simp [hc]), ih]
      | some key' =>
        rw [keepLast_event _ _ _ _ _ hk]
        simp only [List.contains_nil, Bool.false_or]
        by_cases hkk : key' = key
        · subst hkk
          have hc : hasKey env key' (.event e) = true := by rw [hasKey_event _ _ _ _ hk]; simp
          cases hr : rest.any (hasKey env key') with
          | true => simp only [if_true]; rw [ih, hrest hc hr]
          | false =>
            simp only [Bool.false_eq_true, if_false]
            rw [List.filter_cons_of_pos hc, List.filter_cons_of_pos hc, ih, hrest0 hr]
            simp
        · have hc : hasKey env key (.event e) = false := by
            rw [hasKey_event _ _ _ _ hk]; simpa using hkk
          rw [hskip hc]
          split
          · exact ih
          · rw [List.filter_cons_of_neg (by simp [hc]), ih]

/-- A second pass of `keepLast` drops nothing. -/
theorem keepLast_idem (env : Env) (l : List Component) : keepLast env [] (keepLast env [] l) = keepLast env [] l := by
  induction l with
  | nil => simp [keepLast]
  | cons c rest ih =>
    cases c with
    | other k q => rw [keepLast_other, keepLast_other, ih]
    | event e =>
      cases hk : identifier env e with
      | none => rw [keepLast_event_none _ _ _ _ hk, keepLast_event_none _ _ _ _ hk, ih]
      | some key =>
        rw [keepLast_event _ _ _ _ _ hk]
        simp only [List.contains_nil, Bool.false_or]
        cases hr : rest.any (hasKey env key) with
        | true => simp only [if_true]; exact ih
        | false =>
          simp only [Bool.false_eq_true, if_false]
          rw [keepLast_event _ _ _ _ _ hk, keepLast_any, hr, ih]
          simp

/-- Delete-duplicates on a document in which every event has a summary: the call returns
without error, the document becomes `keepLast [] cs` (a sublist of the original, all non-events
kept, per identifier exactly the last event carrying it), the delta is minus the number of
removed events, and a second call returns delta 0 and changes nothing. -/
theorem moduleDeleteDuplicates_keeps_last (env : Env) (cal : Calendar) (params : Params)
    (hsum : ∀ c ∈ cal.Components, lacksSummary c = false) :
    moduleDeleteDuplicates env cal params
        = some ⟨{ cal with Components := keepLast env [] cal.Components },
            ((keepLast env [] cal.Components).length : Int) - (cal.Components.length : Int), none⟩ ∧
      (keepLast env [] cal.Components).Sublist cal.Components ∧
      (keepLast env [] cal.Components).filter isOther = cal.Components.filter isOther ∧
      (∀ key, (keepLast env [] cal.Components).filter (hasKey env key)
          = ((cal.Components.filter (hasKey env key)).getLast?).toList) ∧
      moduleDeleteDuplicates env { cal with Components := keepLast env [] cal.Components } params
        = some ⟨{ cal with Components := keepLast env [] cal.Components }, 0, none⟩ := by
  refine ⟨?_, keepLast_sublist _ _ _, keepLast_filter_isOther _ _ _,
    fun key => keepLast_filter_hasKey _ key _, ?_⟩
  · have h := moduleDeleteDuplicatesLoop_eq env cal.Components [] [] 0 hsum
    rw [List.append_nil] at h
    unfold moduleDeleteDuplicates
    rw [h]
    simp only [List.append_nil]
    congr 2
    omega
  · have hsum' : ∀ c ∈ keepLast env [] cal.Components, lacksSummary c = false :=
      fun c hc => hsum c ((keepLast_sublist _ _ _).subset hc)
    have h := moduleDeleteDuplicatesLoop_eq env (keepLast env [] cal.Components) [] [] 0 hsum'
    rw [List.append_nil] at h
    unfold moduleDeleteDuplicates
    simp only [h, keepLast_idem, List.append_nil]
    congr 2
    omega

/-- C3, the code at the failing input: on a document with an event that has no summary
property `moduleDeleteDuplicates` ends in a nil dereference instead of returning. -/
theorem moduleDeleteDuplicates_panics_without_summary :
    moduleDeleteDuplicates sampleEnv (calOf [bareEvent "a" "20250101T100000Z"]) noParams = none := by
  decide

/-! ## delete-timeframe -/

/-- Removing a rule property in place does not change what a lookup of another token finds. -/
theorem GetProperty_removeProperty (arr arr' : List IANAProperty) (i : Nat) (p : IANAProperty)
    (token : String) (hget : arr.get? i = some p) (hp : p.IANAToken = "RRULE")
    (htok : token ≠ "RRULE") (hrm : removeProperty arr i = some arr') :
    GetProperty arr' token = GetProperty arr token := by
  have hi : i < arr.length := by
    rw [List.get?_eq_getElem?] at hget
    exact (List.getElem?_eq_some_iff.mp hget).1
  have hpi : arr[i] = p := by
    rw [List.get?_eq_getElem?] at hget
    exact (List.getElem?_eq_some_iff.mp hget).2
  have hsplit : arr = arr.take i ++ p :: arr.drop (i + 1) := by
    conv_lhs => rw [← List.take_append_drop i arr, List.drop_eq_getElem_cons hi, hpi]
  have hne : (p.IANAToken == token) = false := by
    rw [hp]; simpa using (fun h => htok (Eq.symm h))
  unfold removeProperty removeInPlace at hrm
  rw [if_pos (by omega)] at hrm
  simp only [Option.map_some', Option.some.injEq, List.take_length] at hrm
  subst hrm
  unfold GetProperty
  conv_rhs => rw [hsplit]
  rw [List.find?_append, List.find?_append, List.find?_append, List.find?_cons, hne]
  cases hA : List.find? (fun q => q.IANAToken == token) (arr.take i) with
  | some a => simp
  | none =>
    cases hB : List.find? (fun q => q.IANAToken == token) (arr.drop (i + 1)) with
    | some b => simp
    | none =>
      simp only [Option.none_or]
      apply List.find?_eq_none.mpr
      intro x hx
      have hx1 : x ∈ arr.drop i := by
        have : arr.drop (arr.length - 1) = (arr.drop i).drop (arr.length - 1 - i) := by
          rw [List.drop_drop]; congr 1; omega
        rw [this] at hx
        exact List.mem_of_mem_drop hx
      rw [List.drop_eq_getElem_cons hi, hpi] at hx1
      rcases List.mem_cons.mp hx1 with rfl | hx2
      · simp [hne]
      · exact List.find?_eq_none.mp hB x hx2

/-- The loop that deletes the old rule keeps the length of the property list and does not change
what a lookup of another token finds; it never panics. -/
theorem deleteOldRruleLoop_spec (token : String) (htok : token ≠ "RRULE") (k : Nat) :
    ∀ (i : Nat) (arr : List IANAProperty), i + k ≤ arr.length →
      ∃ arr', deleteOldRruleLoop k i arr = some arr' ∧ arr'.length = arr.length ∧
        GetProperty arr' token = GetProperty arr token := by
  induction k with
  | zero => intro i arr _; exact ⟨arr, rfl, rfl, rfl⟩
  | succ k ih =>
    intro i arr hlen
    have hi : i < arr.length := by omega
    have hget : arr.get? i = some arr[i] := List.get?_eq_get hi
    simp only [deleteOldRruleLoop, hget]
    by_cases hp : (arr[i].IANAToken == "RRULE") = true
    · have hrm : ∃ arr1, removeProperty arr i = some arr1 ∧ arr1.length = arr.length := by
        unfold removeProperty removeInPlace
        rw [if_pos (by omega)]
        refine ⟨_, rfl, ?_⟩
        simp only [List.take_length, List.length_append, List.length_take, List.length_drop]
        omega
      obtain ⟨arr1, hrm1, hlen1⟩ := hrm
      simp only [hp, hrm1, if_true]
      obtain ⟨arr', h1, h2, h3⟩ := ih (i + 1) arr1 (by omega)
      refine ⟨arr', h1, by omega, ?_⟩
      rw [h3]
      exact GetProperty_removeProperty arr arr1 i arr[i] token hget (by simpa using hp) htok hrm1
    · simp only [hp]
      obtain ⟨arr', h1, h2, h3⟩ := ih (i + 1) arr (by omega)
      exact ⟨arr', h1, h2, h3⟩

/-- The rule handling of an event does not change what a lookup of a token other than `RRULE`
finds in it. -/
theorem truncateEvent_GetProperty (env : Env) (after : Time) (i : Nat) (e e' : VEvent)
    (token : String) (htok : token ≠ "RRULE")
    (h : truncateEvent env after i e = some (.ok e')) :
    GetProperty e'.Properties token = GetProperty e.Properties token := by
  unfold truncateEvent at h
  cases hr : GetProperty e.Properties "RRULE" with
  | none => rw [hr] at h; simp only [Option.some.injEq, Except.ok.injEq] at h; rw [← h]
  | some rr =>
    rw [hr] at h
    simp only at h
    unfold rewriteRrule at h
    cases hm : rruleToMap rr.Value with
    | none => rw [hm] at h; simp at h
    | some m =>
      rw [hm] at h
      simp only at h
      cases ht : truncateMap after m with
      | error msg => rw [ht] at h; simp at h
      | ok m' =>
        rw [ht] at h
        simp only at h
        obtain ⟨arr', h1, _, h3⟩ :=
          deleteOldRruleLoop_spec token htok e.Properties.length 0 e.Properties (by simp)
        rw [h1] at h
        simp only [Option.some.injEq, Except.ok.injEq] at h
        rw [← h, ← h3]
        unfold VEvent.AddRrule GetProperty
        simp only
        rw [List.find?_append]
        have hne : (("RRULE" : String) == token) = false := by
          simpa using (fun hh => htok (Eq.symm hh))
        simp [List.find?_cons, hne]

/-- The rule handling of an event does not move its start. -/
theorem truncateEvent_GetStartAt (env : Env) (after : Time) (i : Nat) (e e' : VEvent)
    (h : truncateEvent env after i e = some (.ok e')) : e'.GetStartAt env = e.GetStartAt env := by
  unfold VEvent.GetStartAt getTimeProp
  rw [truncateEvent_GetProperty env after i e e' "DTSTART" (by decide) h]

/-- The branch on `UNTIL` and `COUNT` ends with an error exactly when there is an `UNTIL` that
does not parse. -/
theorem truncateMap_ok_iff (after : Time) (m : RuleMap) :
    (∃ m', truncateMap after m = .ok m') ↔
      ∀ v, mapGet m "UNTIL" = some v → (parseCompact v).isSome = true := by
  unfold truncateMap
  cases hu : mapGet m "UNTIL" with
  | none =>
    simp only [reduceCtorEq, false_implies, implies_true, iff_true]
    cases mapGet m "COUNT" <;> exact ⟨_, rfl⟩
  | some v =>
    cases hp : parseCompact v with
    | none => simp [hp]
    | some u =>
      simp only [Option.some.injEq, forall_eq', hp, Option.isSome_some, iff_true]
      split <;> exact ⟨_, rfl⟩

/-- What the rule handling needs of an event: if it has a rule, every part of the rule has the
form `KEY=VALUE` (the rule reads into a mapping) and an `UNTIL` of the mapping parses in the
compact form. -/
theorem ruleReadable_event_iff (e : VEvent) :
    ruleReadable (.event e) = true ↔
      ∀ rr, GetProperty e.Properties "RRULE" = some rr →
        ∃ m, rruleToMap rr.Value = some m ∧
          ∀ v, mapGet m "UNTIL" = some v → (parseCompact v).isSome = true := by
  cases hr : GetProperty e.Properties "RRULE" with
  | none => simp [ruleReadable, hr]
  | some rr =>
    simp only [Option.some.injEq, forall_eq']
    cases hm : rruleToMap rr.Value with
    | none => simp [ruleReadable, hr, hm]
    | some m =>
      simp only [Option.some.injEq, exists_eq_left']
      cases hu : mapGet m "UNTIL" with
      | none => simp [ruleReadable, hr, hm, hu]
      | some v => simp [ruleReadable, hr, hm, hu]

/-- On an event that the rule handling can read it goes through, whatever the cutoff, the
position and the order of the walk are. -/
theorem truncateEvent_of_readable (env : Env) (after : Time) (i : Nat) (e : VEvent)
    (h : ruleReadable (.event e) = true) : ∃ e', truncateEvent env after i e = some (.ok e') := by
  have hiff := (ruleReadable_event_iff e).mp h
  unfold truncateEvent
  cases hr : GetProperty e.Properties "RRULE" with
  | none => exact ⟨e, rfl⟩
  | some rr =>
    obtain ⟨m, hm, hu⟩ := hiff rr hr
    obtain ⟨m', hm'⟩ := (truncateMap_ok_iff after m).mpr hu
    obtain ⟨arr', h1, _, _⟩ :=
      deleteOldRruleLoop_spec "DTSTART" (by decide) e.Properties.length 0 e.Properties (by simp)
    exact ⟨VEvent.AddRrule { e with Properties := arr' } (rruleString (env.mapOrder i m')),
      by simp only [rewriteRrule, hm, hm', h1]⟩

/-- The rule handling of an event ends with an error only for an `UNTIL` that does not parse in
the compact form: the event has a rule that reads into a mapping with such an `UNTIL`. -/
theorem truncateEvent_error (env : Env) (after : Time) (i : Nat) (e : VEvent) (msg : String)
    (h : truncateEvent env after i e = some (.error msg)) :
    msg = "invalid UNTIL time" ∧
      ∃ rr m v, GetProperty e.Properties "RRULE" = some rr ∧ rruleToMap rr.Value = some m ∧
        mapGet m "UNTIL" = some v ∧ parseCompact v = none := by
  unfold truncateEvent at h
  cases hr : GetProperty e.Properties "RRULE" with
  | none => rw [hr] at h; simp at h
  | some rr =>
    rw [hr] at h
    simp only [rewriteRrule] at h
    cases hm : rruleToMap rr.Value with
    | none => rw [hm] at h; simp at h
    | some m =>
      rw [hm] at h
      simp only at h
      cases ht : truncateMap after m with
      | ok m' =>
        rw [ht] at h
        simp only at h
        obtain ⟨arr', h1, _, _⟩ :=
          deleteOldRruleLoop_spec "DTSTART" (by decide) e.Properties.length 0 e.Properties
            (by simp)
        rw [h1] at h
        simp at h
      | error msg' =>
        rw [ht] at h
        simp only [Option.some.injEq, Except.error.injEq] at h
        subst h
        unfold truncateMap at ht
        cases hu : mapGet m "UNTIL" with
        | none =>
          rw [hu] at ht
          simp only at ht
          cases hc : mapGet m "COUNT" <;> (rw [hc] at ht; simp at ht)
        | some v =>
          rw [hu] at ht
          simp only at ht
          cases hp : parseCompact v with
          | none =>
            rw [hp] at ht
            simp only [Except.error.injEq] at ht
            exact ⟨ht.symm, rr, m, v, rfl, hm, hu, hp⟩
          | some u =>
            rw [hp] at ht
            simp only at ht
            split at ht <;> simp at ht

/-- Overwriting the cell after the part `p` of a list. -/
theorem set_middle {α : Type} (p out : List α) (c x : α) :
    (p ++ [c] ++ out).set p.length x = p ++ x :: out := by
  rw [List.append_assoc, List.set_append_right _ _ (Nat.le_refl _)]
  simp

/-- Removing the cell after the part `p` of a list. -/
theorem remove_middle {α : Type} (p out : List α) (x : α) :
    remove (p ++ x :: out) p.length = some (p ++ out) := by
  unfold remove
  rw [if_pos (by simp)]
  have h1 : (p ++ x :: out).take p.length = p := List.take_left' rfl
  have h2 : (p ++ x :: out).drop (p.length + 1) = out := by
    have : p ++ x :: out = (p ++ [x]) ++ out := by simp
    rw [this]; exact List.drop_left' (by simp)
  rw [h1, h2]

/-- The backward loop of `moduleDeleteTimeframe` on the part `pre` still to scan, when the rule
handling can read each of its components: the components whose start is not strictly inside
the window stay, each with the rule that the handling wrote at its position. -/
theorem moduleDeleteTimeframeLoop_eq (env : Env) (after before : Time) (pre : List Component) :
    ∀ (out : List Component) (count : Int),
      (∀ c ∈ pre, ruleReadable c = true) →
      moduleDeleteTimeframeLoop env after before pre.length (pre ++ out) count
        = some ((pre.enum.filter (fun ic => !startInWindow env after before ic.2)).map
              (fun ic => withTruncatedRule env after ic.1 ic.2) ++ out,
            count - ((pre.filter (startInWindow env after before)).length : Int), none) := by
  induction pre using List.reverseRecOn with
  | nil => intro out count _; simp [moduleDeleteTimeframeLoop]
  | append_singleton p c ih =>
    intro out count hok
    have hp : ∀ x ∈ p, ruleReadable x = true := fun x hx => hok x (by simp [hx])
    have hlen : (p ++ [c]).length = p.length + 1 := by simp
    have hget : (p ++ [c] ++ out).get? p.length = some c := by
      rw [List.get?_eq_getElem?, List.append_assoc, List.getElem?_append_right (Nat.le_refl _)]
      simp
    rw [hlen, List.enum_append, List.enumFrom_singleton]
    cases c with
    | other kind props =>
      have hre : p ++ [Component.other kind props] ++ out = p ++ (Component.other kind props :: out) := by
        simp
      simp only [moduleDeleteTimeframeLoop, hget]
      rw [hre, ih _ count hp]
      simp [List.filter_append, startInWindow, withTruncatedRule]
    | event e =>
      obtain ⟨e', ht⟩ := truncateEvent_of_readable env after p.length e (hok (.event e) (by simp))
      have hstart := truncateEvent_GetStartAt env after p.length e e' ht
      simp only [moduleDeleteTimeframeLoop, hget, ht, hstart, set_middle]
      cases hw : inWindow after before (e.GetStartAt env) with
      | true =>
        simp only [if_true, removeFromICS, remove_middle]
        rw [ih out (count - 1) hp]
        simp only [List.filter_append, List.filter_cons, List.filter_nil, startInWindow, hw,
          Bool.not_true, Bool.false_eq_true, if_false, if_true, List.append_nil,
          List.length_append, List.length_singleton, Nat.cast_add, Nat.cast_one]
        have : count - 1 - ((p.filter (startInWindow env after before)).length : Int)
            = count - (((p.filter (startInWindow env after before)).length : Int) + 1) := by omega
        rw [this]
      | false =>
        simp only [Bool.false_eq_true, if_false]
        rw [ih (Component.event e' :: out) count hp]
        simp [List.filter_append, List.filter_cons, startInWindow, hw, withTruncatedRule, ht]

/-- Overwriting a cell leaves the cells before it as they are. -/
theorem take_set_self {α : Type} (l : List α) (i : Nat) (x : α) :
    (l.set i x).take i = l.take i := by
  induction l generalizing i with
  | nil => simp
  | cons a l ih =>
    cases i with
    | zero => simp
    | succ i => simp [List.set, ih]

/-- A list and what `remove` makes of it agree before the index, also when the cell at the index
was overwritten first. -/
theorem take_remove_set {α : Type} (l l' : List α) (i : Nat) (x : α)
    (h : remove (l.set i x) i = some l') : l'.take i = l.take i := by
  unfold remove at h
  split at h
  · rename_i hi
    simp only [Option.some.injEq] at h
    subst h
    have hlen : ((l.set i x).take i).length = i := by
      simp only [List.length_take, List.length_set] at hi ⊢
      omega
    rw [List.take_left' hlen]
    exact take_set_self l i x
  · simp at h

/-- The backward loop of `moduleDeleteTimeframe` when it ends with an error: the delta is 0, the
error is that of an `UNTIL` that does not parse, on an event at a position `j` below the
starting one, and up to that position the components are as they were. -/
theorem moduleDeleteTimeframeLoop_error (env : Env) (after before : Time) :
    ∀ (i : Nat) (comps : List Component) (count : Int) (comps' : List Component) (d : Int)
      (msg : String),
      moduleDeleteTimeframeLoop env after before i comps count = some (comps', d, some msg) →
      d = 0 ∧ ∃ j e, j < i ∧ comps.get? j = some (.event e) ∧
        truncateEvent env after j e = some (.error msg) ∧
        comps'.take (j + 1) = comps.take (j + 1) := by
  intro i
  induction i with
  | zero => intro comps count comps' d msg h; simp [moduleDeleteTimeframeLoop] at h
  | succ i ih =>
    intro comps count comps' d msg h
    have hstep : ∀ (l : List Component) (c : Int), l.take i = comps.take i →
        moduleDeleteTimeframeLoop env after before i l c = some (comps', d, some msg) →
        d = 0 ∧ ∃ j e, j < i + 1 ∧ comps.get? j = some (.event e) ∧
          truncateEvent env after j e = some (.error msg) ∧
          comps'.take (j + 1) = comps.take (j + 1) := by
      intro l c hl hloop
      obtain ⟨hd, j, e, hj, hget, hte, htake⟩ := ih l c comps' d msg hloop
      have hjl : l.take (j + 1) = comps.take (j + 1) := by
        have := congrArg (List.take (j + 1)) hl
        simpa only [List.take_take, Nat.min_eq_left (Nat.succ_le_of_lt hj)] using this
      refine ⟨hd, j, e, Nat.lt_succ_of_lt hj, ?_, hte, htake.trans hjl⟩
      have h1 : (l.take (j + 1)).get? j = l.get? j := by
        rw [List.get?_eq_getElem?, List.get?_eq_getElem?, List.getElem?_take_of_lt (Nat.lt_succ_self j)]
      have h2 : (comps.take (j + 1)).get? j = comps.get? j := by
        rw [List.get?_eq_getElem?, List.get?_eq_getElem?, List.getElem?_take_of_lt (Nat.lt_succ_self j)]
      rw [← h2, ← hjl, h1]
      exact hget
    simp only [moduleDeleteTimeframeLoop] at h
    cases hget : comps.get? i with
    | none => rw [hget] at h; simp at h
    | some c =>
      rw [hget] at h
      cases c with
      | other kind props => exact hstep comps count rfl h
      | event e =>
        simp only at h
        cases ht : truncateEvent env after i e with
        | none => rw [ht] at h; simp at h
        | some r =>
          cases r with
          | error msg' =>
            rw [ht] at h
            simp only [Option.some.injEq, Prod.mk.injEq] at h
            obtain ⟨h1, h2, h3⟩ := h
            subst h1; subst h3
            exact ⟨h2.symm, i, e, Nat.lt_succ_self i, hget, ht, rfl⟩
          | ok e' =>
            rw [ht] at h
            simp only at h
            split at h
            · cases hrm : removeFromICS (comps.set i (.event e')) i with
              | none => rw [hrm] at h; simp at h
              | some l =>
                rw [hrm] at h
                exact hstep l (count - 1) (take_remove_set comps l i _ hrm) h
            · exact hstep _ count (take_set_self comps i _) h


/-- A string that parses as RFC 3339 is neither empty nor the word `now`. -/
theorem parseRFC3339_ne_empty (v : String) (t : Time) (h : parseRFC3339 v = some t) :
    v ≠ "" ∧ v ≠ "now" := by
  have h1 : parseRFC3339 "" = none := by decide
  have h2 : parseRFC3339 "now" = none := by decide
  constructor
  · intro hv; rw [hv, h1] at h; exact absurd h (by simp)
  · intro hv; rw [hv, h2] at h; exact absurd h (by simp)

/-- C4 (as amended): for well-formed RFC 3339 bounds. On a document whose rules the call can
read, `moduleDeleteTimeframe` returns without error; the remaining components are the original
ones in their order minus the events whose start satisfies `after < start < before`, each
remaining event that has a rule carrying the rule rewritten at its position; an event without
a rule and a component that is no event are unchanged; an event whose start is exactly on a
bound is outside the window; the delta is minus the number of removed events; and with
`after = before` nothing is removed. Whenever the call returns an error, it is the error of an
`UNTIL` that does not parse, the delta is 0, and the event with that `UNTIL` and all components
before it are as they were. -/
theorem moduleDeleteTimeframe_window (env : Env) (cal : Calendar) (params : Params)
    (after before : Time)
    (hafter : parseRFC3339 (params "after") = some after)
    (hbefore : parseRFC3339 (params "before") = some before) :
    ((∀ c ∈ cal.Components, ruleReadable c = true) →
      moduleDeleteTimeframe env cal params
        = some ⟨⟨(cal.Components.enum.filter
                (fun ic => !startInWindow env after before ic.2)).map
              (fun ic => withTruncatedRule env after ic.1 ic.2), cal.CalendarProperties⟩,
            -((cal.Components.filter (startInWindow env after before)).length : Int), none⟩) ∧
      (∀ i e, GetProperty e.Properties "RRULE" = none →
        withTruncatedRule env after i (.event e) = .event e) ∧
      (∀ i kind props, withTruncatedRule env after i (.other kind props) = .other kind props) ∧
      (∀ e : VEvent, (e.GetStartAt env).ns = after.ns ∨ (e.GetStartAt env).ns = before.ns →
        startInWindow env after before (.event e) = false) ∧
      (after.ns = before.ns → cal.Components.filter (startInWindow env after before) = []) ∧
      (∀ o, moduleDeleteTimeframe env cal params = some o → o.err ≠ none →
        o.err = some "invalid UNTIL time" ∧ o.delta = 0 ∧
        ∃ j e rr m v, cal.Components.get? j = some (.event e) ∧
          GetProperty e.Properties "RRULE" = some rr ∧ rruleToMap rr.Value = some m ∧
          mapGet m "UNTIL" = some v ∧ parseCompact v = none ∧
          o.cal.Components.take (j + 1) = cal.Components.take (j + 1)) := by
  obtain ⟨ha1, ha2⟩ := parseRFC3339_ne_empty _ _ hafter
  obtain ⟨hb1, hb2⟩ := parseRFC3339_ne_empty _ _ hbefore
  refine ⟨?_, ?_, ?_, ?_, ?_, ?_⟩
  · intro hrules
    unfold moduleDeleteTimeframe resolveBound
    rw [if_neg (fun h => ha1 h.1)]
    simp only [ha1, ha2, hb1, hb2, if_false, hafter, hbefore]
    have h := moduleDeleteTimeframeLoop_eq env after before cal.Components [] 0 hrules
    rw [List.append_nil] at h
    rw [h]
    simp
  · intro i e he
    simp only [withTruncatedRule, truncateEvent, he]
  · intro i kind props; rfl
  · intro e he
    simp only [startInWindow, inWindow, Time.After]
    rcases he with he | he <;> rw [he] <;> simp
  · intro hab
    apply List.filter_eq_nil_iff.mpr
    intro c _
    cases c with
    | other kind props => simp [startInWindow]
    | event e =>
      simp only [startInWindow, inWindow, Time.After, hab]
      simp only [Bool.and_eq_true, decide_eq_true_eq, not_and, not_lt]
      intro h; omega
  · intro o ho herr
    unfold moduleDeleteTimeframe resolveBound at ho
    rw [if_neg (fun h => ha1 h.1)] at ho
    simp only [ha1, ha2, hb1, hb2, if_false, hafter, hbefore] at ho
    cases hl : moduleDeleteTimeframeLoop env after before cal.Components.length
        cal.Components 0 with
    | none => rw [hl] at ho; simp at ho
    | some r =>
      obtain ⟨comps, count, err⟩ := r
      rw [hl] at ho
      simp only [Option.some.injEq] at ho
      subst ho
      simp only at herr ⊢
      cases err with
      | none => exact absurd rfl herr
      | some msg =>
        obtain ⟨hd, j, e, _, hget, hte, htake⟩ :=
          moduleDeleteTimeframeLoop_error env after before _ _ _ _ _ _ hl
        obtain ⟨hmsg, rr, m, v, h1, h2, h3, h4⟩ := truncateEvent_error env after j e msg hte
        exact ⟨by rw [hmsg], hd, j, e, rr, m, v, hget, h1, h2, h3, h4, htake⟩

/-- C4, witness: the sample document in the window from January to March 2025. The event in
the window goes, the event on the bound stays, the recurring event stays with a rewritten
rule. -/
theorem moduleDeleteTimeframe_window_witness :
    moduleDeleteTimeframe sampleEnv windowCal windowParams
      = some ⟨calOf [.event ⟨[⟨"UID", "a", []⟩, ⟨"DTSTART", "20240101T100000Z", []⟩, ⟨"SUMMARY", "S", []⟩,
            ⟨"SUMMARY", "S", []⟩, ⟨"RRULE", "FREQ=DAILY;UNTIL=20250101T000000Z;", []⟩], []⟩,
          .other "VTIMEZONE" [],
          timedEvent "c" "20250101T000000Z" "20250101T110000Z" "on the bound"], -1, none⟩ := by
  rw [(moduleDeleteTimeframe_window sampleEnv windowCal windowParams jan2025 mar2025
    (by decide) (by decide)).1 (by decide)]
  decide

/-- C4, counterexample: an event whose start lies strictly inside the window and whose rule
ends on a date stays in the document; the call returns an error and delta 0. -/
theorem moduleDeleteTimeframe_keeps_event_in_window :
    parseRFC3339 (windowParams "after") = some jan2025 ∧
    parseRFC3339 (windowParams "before") = some mar2025 ∧
    startInWindow sampleEnv jan2025 mar2025 dateUntilEvent = true ∧
    moduleDeleteTimeframe sampleEnv (calOf [dateUntilEvent]) windowParams
      = some ⟨calOf [dateUntilEvent], 0, some "invalid UNTIL time"⟩ := by
  decide

/-- A digit is below ten. -/
theorem digitVal_lt (c : Char) (v : Nat) (h : digitVal c = some v) : v < 10 := by
  unfold digitVal at h
  split at h
  · rename_i hc
    simp only [Option.some.injEq] at h
    have h9 : c.toNat ≤ 57 := by
      have := hc.2
      exact this
    omega
  · simp at h

/-- A field of `n` digits is below `10 ^ n`. -/
theorem takeDigits_lt (n : Nat) : ∀ (cs : List Char) (v : Nat) (rest : List Char),
    takeDigits n cs = some (v, rest) → v < 10 ^ n := by
  induction n with
  | zero => intro cs v rest h; simp only [takeDigits, Option.some.injEq, Prod.mk.injEq] at h; omega
  | succ n ih =>
    intro cs v rest h
    cases cs with
    | nil => simp [takeDigits] at h
    | cons c cs =>
      simp only [takeDigits] at h
      cases hd : digitVal c with
      | none => rw [hd] at h; simp at h
      | some d =>
        cases ht : takeDigits n cs with
        | none => rw [hd, ht] at h; simp at h
        | some r =>
          obtain ⟨w, rest'⟩ := r
          rw [hd, ht] at h
          simp only [Option.some.injEq, Prod.mk.injEq] at h
          have h1 := digitVal_lt c d hd
          have h2 := ih cs w rest' ht
          rw [← h.1, Nat.pow_succ]
          nlinarith

/-- The digits of a run are below ten. -/
theorem spanDigits_lt : ∀ (cs : List Char), ∀ d ∈ (spanDigits cs).1, d < 10 := by
  intro cs
  induction cs with
  | nil => intro d hd; simp [spanDigits] at hd
  | cons c cs ih =>
    intro d hd
    simp only [spanDigits] at hd
    cases hv : digitVal c with
    | none => rw [hv] at hd; simp at hd
    | some v =>
      rw [hv] at hd
      simp only [List.mem_cons] at hd
      rcases hd with rfl | hd
      · exact digitVal_lt c _ hv
      · exact ih d hd

/-- The value of a digit string is bounded by its length. -/
theorem foldl_digits_lt (l : List Nat) (hl : ∀ d ∈ l, d < 10) : ∀ acc : Nat,
    l.foldl (fun acc d => acc * 10 + d) acc < (acc + 1) * 10 ^ l.length := by
  induction l with
  | nil => intro acc; simp
  | cons d l ih =>
    intro acc
    have hd : d < 10 := hl d (List.mem_cons_self _ _)
    have h := ih (fun x hx => hl x (List.mem_cons_of_mem _ hx)) (acc * 10 + d)
    simp only [List.foldl_cons, List.length_cons, Nat.pow_succ]
    calc _ < (acc * 10 + d + 1) * 10 ^ l.length := h
      _ ≤ ((acc + 1) * 10) * 10 ^ l.length := Nat.mul_le_mul_right _ (by omega)
      _ = (acc + 1) * (10 ^ l.length * 10) := by ring

/-- A fraction of a second is less than a second. -/
theorem fracNanos_lt (ds : List Nat) (h : ∀ d ∈ ds, d < 10) : fracNanos ds < 1000000000 := by
  unfold fracNanos
  have hl : ∀ d ∈ ds.take 9 ++ List.replicate (9 - (ds.take 9).length) 0, d < 10 := by
    intro d hd
    rcases List.mem_append.mp hd with hd | hd
    · exact h d (List.mem_of_mem_take hd)
    · have := List.eq_of_mem_replicate hd; omega
  have h2 := foldl_digits_lt _ hl 0
  have hlen : (ds.take 9 ++ List.replicate (9 - (ds.take 9).length) 0).length = 9 := by
    simp only [List.length_append, List.length_replicate, List.length_take]
    omega
  rw [hlen] at h2
  simpa using h2

/-- The nanoseconds read by `takeFraction` are less than a second. -/
theorem takeFraction_lt (seps cs : List Char) : (takeFraction seps cs).1 < 1000000000 := by
  cases cs with
  | nil => simp [takeFraction]
  | cons c cs =>
    simp only [takeFraction]
    split
    · have hs := spanDigits_lt cs
      split
      · simp
      · rename_i ds rest _ heq
        rw [heq] at hs
        exact fracNanos_lt _ hs
    · simp

/-- A timestamp that parses as RFC 3339 comes from a wall-clock reading with a year of four
digits and less than a second of nanoseconds. -/
theorem parseRFC3339_mkTime (s : String) (t : Time) (h : parseRFC3339 s = some t) :
    ∃ y m d hh mm ss nsec off, y < 10000 ∧ nsec < 1000000000 ∧
      mkTime y m d hh mm ss nsec off = some t := by
  unfold parseRFC3339 parseRFC3339Chars at h
  split at h
  · rename_i y r1 hy
    split at h
    · split at h
      · split at h
        · split at h
          · split at h
            · split at h
              · rename_i off _
                exact ⟨y, _, _, _, _, _, _, off, by simpa using takeDigits_lt 4 _ _ _ hy,
                  takeFraction_lt _ _, h⟩
              · simp at h
            · simp at h
          · simp at h
        · simp at h
      · simp at h
    · simp at h
  · simp at h

/-- The table of the days of a year, read the other way: a valid day of a month lies inside the
year. -/
theorem daysBeforeMonth_table : ∀ leap : Bool, ∀ m < 13, 1 ≤ m →
    daysBeforeMonth leap m + daysIn m (if leap then 4 else 1)
      ≤ 365 + (if leap then 1 else 0) := by
  decide

/-- The instant of a wall-clock reading in UTC with a year of four digits lies between
0000-01-01T00:00:00Z and 9999-12-31T23:59:59.999999999Z. -/
theorem mkTime_range (y m d hh mm ss nsec : Nat) (t : Time) (hy : y < 10000)
    (hn : nsec < 1000000000) (h : mkTime y m d hh mm ss nsec 0 = some t) :
    t.offset = 0 ∧ -62167219200 * 1000000000 ≤ t.ns ∧ t.ns < 253402300800 * 1000000000 := by
  unfold mkTime at h
  split at h
  · rename_i hc
    obtain ⟨h1, h2, h3, h4, h5, h6, h7⟩ := hc
    simp only [Option.some.injEq] at h
    subst h
    have htab := daysBeforeMonth_table (isLeap y) m (by omega) h1
    rw [← daysIn_leap] at htab
    have hleap : (if isLeap (y : Int) = true then 1 else 0) ≤ 1 := by split <;> omega
    have hleap9 : y = 9999 → (if isLeap (y : Int) = true then 1 else 0) = 0 := by
      intro h9; subst h9; decide
    refine ⟨rfl, ?_, ?_⟩
    · show -62167219200 * 1000000000 ≤
        ((daysBeforeYear y + ((daysBeforeMonth (isLeap y) m : Nat) : Int) + (d : Int) - 1 - 719162)
          * 86400 + hh * 3600 + mm * 60 + ss - 0) * 1000000000 + nsec
      unfold daysBeforeYear
      omega
    · show ((daysBeforeYear y + ((daysBeforeMonth (isLeap y) m : Nat) : Int) + (d : Int) - 1 - 719162)
          * 86400 + hh * 3600 + mm * 60 + ss - 0) * 1000000000 + nsec
          < 253402300800 * 1000000000
      unfold daysBeforeYear
      omega
  · simp at h

/-- The instant built by `mkTime` carries the offset it was given. -/
theorem mkTime_offset (y m d hh mm ss nsec : Nat) (off : Int) (t : Time)
    (h : mkTime y m d hh mm ss nsec off = some t) : t.offset = off := by
  unfold mkTime at h
  split at h
  · simp only [Option.some.injEq] at h; rw [← h]
  · simp at h

/-- The lookup right after an assignment to the same key. -/
theorem mapGet_mapSet_same (m : RuleMap) (k v : String) : mapGet (mapSet m k v) k = some v := by
  induction m with
  | nil => simp [mapSet, mapGet]
  | cons kv rest ih =>
    obtain ⟨k', v'⟩ := kv
    simp only [mapSet]
    split
    · simp [mapGet]
    · rename_i hne
      simp only [mapGet, hne, if_false]
      exact ih

/-- The lookup of a key after an assignment to another key. -/
theorem mapGet_mapSet_other (m : RuleMap) (k v k2 : String) (h : k2 ≠ k) :
    mapGet (mapSet m k v) k2 = mapGet m k2 := by
  induction m with
  | nil => simp [mapSet, mapGet, Ne.symm h]
  | cons kv rest ih =>
    obtain ⟨k', v'⟩ := kv
    simp only [mapSet]
    split
    · rename_i heq
      subst heq
      simp only [mapGet, if_neg (Ne.symm h)]
    · rename_i hne
      simp only [mapGet]
      split
      · rfl
      · exact ih

/-- An assignment keeps the keys of a map distinct. -/
theorem mapSet_keys_nodup (m : RuleMap) (k v : String) (h : (m.map Prod.fst).Nodup) :
    ((mapSet m k v).map Prod.fst).Nodup := by
  have hkeys : ∀ (m : RuleMap) (x : String), x ∈ (mapSet m k v).map Prod.fst →
      x = k ∨ x ∈ m.map Prod.fst := by
    intro m
    induction m with
    | nil => intro x hx; simp [mapSet] at hx; exact Or.inl hx
    | cons kv rest ih =>
      obtain ⟨k', v'⟩ := kv
      intro x hx
      simp only [mapSet] at hx
      split at hx
      · rename_i heq
        simp only [List.map_cons, List.mem_cons] at hx ⊢
        rcases hx with hx | hx
        · exact Or.inl hx
        · exact Or.inr (Or.inr hx)
      · simp only [List.map_cons, List.mem_cons] at hx ⊢
        rcases hx with hx | hx
        · exact Or.inr (Or.inl hx)
        · rcases ih x hx with h1 | h1
          · exact Or.inl h1
          · exact Or.inr (Or.inr h1)
  induction m with
  | nil => simp [mapSet]
  | cons kv rest ih =>
    obtain ⟨k', v'⟩ := kv
    simp only [List.map_cons, List.nodup_cons] at h
    simp only [mapSet]
    split
    · rename_i heq
      subst heq
      simp only [List.map_cons, List.nodup_cons]
      exact h
    · rename_i hne
      simp only [List.map_cons, List.nodup_cons]
      refine ⟨?_, ih h.2⟩
      intro hmem
      rcases hkeys rest k' hmem with h1 | h1
      · exact hne h1
      · exact h.1 h1

/-- The loop that fills the map keeps its keys distinct. -/
theorem fillMap_keys_nodup (parts : List (List Char)) :
    ∀ (m m' : RuleMap), (m.map Prod.fst).Nodup → fillMap m parts = some m' →
      (m'.map Prod.fst).Nodup := by
  induction parts with
  | nil => intro m m' h hf; simp only [fillMap, Option.some.injEq] at hf; rw [← hf]; exact h
  | cons e rest ih =>
    intro m m' h hf
    simp only [fillMap] at hf
    split at hf
    · exact ih _ m' (mapSet_keys_nodup m _ _ h) hf
    · simp at hf

/-- The branch on `UNTIL` and `COUNT` keeps the keys of the map distinct. -/
theorem truncateMap_keys_nodup (after : Time) (m m' : RuleMap) (h : (m.map Prod.fst).Nodup)
    (ht : truncateMap after m = .ok m') : (m'.map Prod.fst).Nodup := by
  unfold truncateMap at ht
  split at ht
  · split at ht
    · simp at ht
    · split at ht
      · simp only [Except.ok.injEq] at ht; rw [← ht]; exact mapSet_keys_nodup m _ _ h
      · simp only [Except.ok.injEq] at ht; rw [← ht]; exact h
  · split at ht
    · simp only [Except.ok.injEq] at ht; rw [← ht]; exact h
    · simp only [Except.ok.injEq] at ht; rw [← ht]; exact mapSet_keys_nodup m _ _ h

/-- A lookup that finds nothing: the key is not among the keys. -/
theorem mapGet_none_iff (m : RuleMap) (k : String) :
    mapGet m k = none ↔ k ∉ m.map Prod.fst := by
  induction m with
  | nil => simp [mapGet]
  | cons kv rest ih =>
    obtain ⟨k', v'⟩ := kv
    simp only [mapGet, List.map_cons, List.mem_cons, not_or]
    split
    · rename_i heq
      simp [heq]
    · rename_i hne
      rw [ih]
      exact ⟨fun h => ⟨fun hh => hne hh.symm, h⟩, fun h => h.2⟩

/-- With distinct keys, the lookup finds the value of an entry of the list. -/
theorem mapGet_of_mem (m : RuleMap) (k v : String) (h : (m.map Prod.fst).Nodup)
    (hmem : (k, v) ∈ m) : mapGet m k = some v := by
  induction m with
  | nil => simp at hmem
  | cons kv rest ih =>
    obtain ⟨k', v'⟩ := kv
    simp only [List.map_cons, List.nodup_cons] at h
    simp only [mapGet]
    rcases List.mem_cons.mp hmem with heq | hin
    · simp only [Prod.mk.injEq] at heq
      rw [if_pos heq.1.symm, heq.2]
    · have hne : k' ≠ k := by
        intro hh
        subst hh
        exact h.1 (List.mem_map.mpr ⟨(k', v), hin, rfl⟩)
      rw [if_neg hne]
      exact ih h.2 hin

/-- What the lookup finds is an entry of the list. -/
theorem mapGet_mem (m : RuleMap) (k v : String) (h : mapGet m k = some v) : (k, v) ∈ m := by
  induction m with
  | nil => simp [mapGet] at h
  | cons kv rest ih =>
    obtain ⟨k', v'⟩ := kv
    simp only [mapGet] at h
    split at h
    · rename_i heq
      simp only [Option.some.injEq] at h
      subst heq; subst h
      exact List.mem_cons_self _ _
    · exact List.mem_cons_of_mem _ (ih h)

/-- The lookups of a map do not depend on the order of its entries. -/
theorem mapGet_perm (l m : RuleMap) (k : String) (hp : l.Perm m)
    (h : (m.map Prod.fst).Nodup) : mapGet l k = mapGet m k := by
  have hl : (l.map Prod.fst).Nodup := ((hp.map Prod.fst).nodup_iff).mpr h
  cases hm : mapGet m k with
  | some v => exact mapGet_of_mem l k v hl (hp.mem_iff.mpr (mapGet_mem m k v hm))
  | none =>
    rw [mapGet_none_iff] at hm ⊢
    intro hk
    exact hm ((hp.map Prod.fst).mem_iff.mp hk)

/-- The rule of an event reads into a map with distinct keys. -/
theorem rruleToMap_keys_nodup (value : String) (m : RuleMap) (h : rruleToMap value = some m) :
    (m.map Prod.fst).Nodup :=
  fillMap_keys_nodup _ [] m (by simp) h

/-- The rule handling on a rule that reads as a mapping whose branch on `UNTIL` and `COUNT`
goes through: the event comes back with a new last property `RRULE` whose text is the parts
`KEY=VALUE;` of the entries of the mapping that the branch has left, in the order of the walk;
the walk yields each entry once, so the entries written give the lookups of that mapping. -/
theorem rewriteRrule_of_map (env : Env) (after : Time) (i : Nat) (event : VEvent)
    (value : String) (m m' : RuleMap) (hm : rruleToMap value = some m)
    (ht : truncateMap after m = .ok m') :
    ∃ e', rewriteRrule env after i event value = some (.ok e') ∧
      e'.Properties.getLast? = some ⟨"RRULE", rruleString (env.mapOrder i m'), []⟩ ∧
      (env.mapOrder i m').Perm m' ∧
      ∀ k, mapGet (env.mapOrder i m') k = mapGet m' k := by
  obtain ⟨arr', h1, _, _⟩ :=
    deleteOldRruleLoop_spec "DTSTART" (by decide) event.Properties.length 0 event.Properties
      (by simp)
  refine ⟨VEvent.AddRrule { event with Properties := arr' } (rruleString (env.mapOrder i m')),
    ?_, ?_, env.mapOrder_perm i m', ?_⟩
  · unfold rewriteRrule
    simp only [hm, ht, h1]
  · simp [VEvent.AddRrule]
  · intro k
    exact mapGet_perm _ _ k (env.mapOrder_perm i m')
      (truncateMap_keys_nodup after m m' (rruleToMap_keys_nodup value m hm) ht)

/-- The lookup of a token right after `SetProperty` on it. -/
theorem GetProperty_SetProperty_same (props : List IANAProperty) (token value : String) :
    GetProperty (SetProperty props token value) token = some ⟨token, value, []⟩ := by
  induction props with
  | nil => simp [SetProperty, GetProperty]
  | cons p rest ih =>
    simp only [SetProperty]
    split
    · simp [GetProperty]
    · rename_i hne
      unfold GetProperty at ih ⊢
      rw [List.find?_cons]
      simp only [hne]
      exact ih

/-- The lookup of a token after `SetProperty` on another token. -/
theorem GetProperty_SetProperty_other (props : List IANAProperty) (token value token2 : String)
    (h : token2 ≠ token) :
    GetProperty (SetProperty props token value) token2 = GetProperty props token2 := by
  induction props with
  | nil =>
    have : (token == token2) = false := by simpa using Ne.symm h
    simp [SetProperty, GetProperty, this]
  | cons p rest ih =>
    simp only [SetProperty]
    split
    · rename_i heq
      have h1 : p.IANAToken = token := by simpa using heq
      have h2 : (token == token2) = false := by simpa using Ne.symm h
      have h3 : (p.IANAToken == token2) = false := by rw [h1]; exact h2
      simp [GetProperty, List.find?_cons, h2, h3]
    · unfold GetProperty at ih ⊢
      rw [List.find?_cons, List.find?_cons, ih]

/-- The overwrite policy of one text block: on a field that exists with value `v`, and for a
non-empty new value `n`, mode `true` sets `n`, mode `false` sets `v ++ "; " ++ n`, mode
`fillempty` sets `n` on an empty field and leaves a non-empty one. -/
theorem editText_policy (token n : String) (e : VEvent) (p : IANAProperty) (hn : n ≠ "")
    (hp : GetProperty e.Properties token = some p) :
    fieldOf token (.event (editText token n (e, "true")).1) = some n ∧
    fieldOf token (.event (editText token n (e, "false")).1) = some (p.Value ++ "; " ++ n) ∧
    (p.Value = "" → fieldOf token (.event (editText token n (e, "fillempty")).1) = some n) ∧
    (p.Value ≠ "" → (editText token n (e, "fillempty")).1 = e) := by
  refine ⟨?_, ?_, ?_, ?_⟩
  · simp [editText, hn, hp, fieldOf, VEvent.SetProperty, GetProperty_SetProperty_same]
  · simp [editText, hn, hp, fieldOf, VEvent.SetProperty, GetProperty_SetProperty_same]
  · intro hv
    simp [editText, hn, hp, hv, fieldOf, VEvent.SetProperty, GetProperty_SetProperty_same]
  · intro hv
    simp [editText, hn, hp, hv]

/-- C6, the code at the failing input: mode `false` with a new summary and a new description
on an event that has the description `D` and no summary. The description becomes `N` (the
claim: `D; N`), because the absent summary has set the mode to `true` for the blocks after
it. -/
theorem moduleEditId_mode_lost_for_description :
    moduleEditId (calOf [describedEvent "x" "D"])
        (fourParams "id" "x" "overwrite" "false" "new-summary" "S" "new-description" "N")
      = some ⟨calOf [.event ⟨[⟨"UID", "x", []⟩, ⟨"DESCRIPTION", "N", []⟩, ⟨"SUMMARY", "S", []⟩], []⟩],
          0, none⟩ := by
  decide

/-- The loop of `moduleEditId` keeps the number of components, and a position whose content
differs afterwards held an event with the wanted id that no later position below `i` had. -/
theorem moduleEditIdLoop_frame (params : Params) (overwrite : String) (i : Nat) :
    ∀ (comps : List Component), i ≤ comps.length →
      ∃ comps' err, moduleEditIdLoop params overwrite i comps = some (comps', err) ∧
        comps'.length = comps.length ∧
        ∀ j c, comps.get? j = some c → comps'.get? j ≠ some c →
          hasId (params "id") c = true ∧
          ∀ k c', j < k → k < i → comps.get? k = some c' → hasId (params "id") c' = false := by
  induction i with
  | zero =>
    intro comps _
    exact ⟨comps, none, rfl, rfl, fun j c h1 h2 => absurd h1 h2⟩
  | succ i ih =>
    intro comps hlen
    have hi : i < comps.length := by omega
    have hget : comps.get? i = some comps[i] := List.get?_eq_get hi
    obtain ⟨comps', err, h1, h2, h3⟩ := ih comps (by omega)
    have hskip : hasId (params "id") comps[i] = false →
        moduleEditIdLoop params overwrite i comps = some (comps', err) →
        ∀ j c, comps.get? j = some c → comps'.get? j ≠ some c →
          hasId (params "id") c = true ∧
          ∀ k c', j < k → k < i + 1 → comps.get? k = some c' →
            hasId (params "id") c' = false := by
      intro hno _ j c hj hne
      obtain ⟨ha, hb⟩ := h3 j c hj hne
      refine ⟨ha, ?_⟩
      intro k c' hjk hk hck
      by_cases hki : k = i
      · subst hki
        rw [hget] at hck
        simp only [Option.some.injEq] at hck
        rw [← hck]; exact hno
      · exact hb k c' hjk (by omega) hck
    cases hc : comps[i] with
    | other kind props =>
      simp only [moduleEditIdLoop, hget, hc]
      exact ⟨comps', err, h1, h2, hskip (by rw [hc]; rfl) h1⟩
    | event e =>
      by_cases hid : e.Id = params "id"
      · simp only [moduleEditIdLoop, hget, hc, hid, if_true]
        refine ⟨_, _, rfl, by simp, ?_⟩
        intro j c hj hne
        have hji : j = i := by
          by_contra hji
          apply hne
          rw [List.get?_eq_getElem?, List.getElem?_set_ne (Ne.symm hji), ← List.get?_eq_getElem?]
          exact hj
        subst hji
        rw [hget] at hj
        simp only [Option.some.injEq] at hj
        refine ⟨?_, ?_⟩
        · rw [← hj, hc]; simp [hasId, hid]
        · intro k c' hjk hk _; omega
      · simp only [moduleEditIdLoop, hget, hc, hid, if_false]
        exact ⟨comps', err, h1, h2, hskip (by rw [hc]; simp [hasId, hid]) h1⟩

/-- C7 (as amended): for every calendar and non-empty id, `moduleEditId` returns delta 0 and
keeps the number of components; a position whose content differs after the call held an event
with the given id, and no later position of the document holds an event with that id: the only
component that can differ is the last event in document order with the id. -/
theorem moduleEditId_frame (cal : Calendar) (params : Params) (hid : params "id" ≠ "") :
    ∃ comps err, moduleEditId cal params = some ⟨⟨comps, cal.CalendarProperties⟩, 0, err⟩ ∧
      comps.length = cal.Components.length ∧
      ∀ j c, cal.Components.get? j = some c → comps.get? j ≠ some c →
        hasId (params "id") c = true ∧
        ∀ k c', j < k → cal.Components.get? k = some c' → hasId (params "id") c' = false := by
  obtain ⟨comps', err, h1, h2, h3⟩ :=
    moduleEditIdLoop_frame params (if params "overwrite" = "" then "true" else params "overwrite")
      cal.Components.length cal.Components (Nat.le_refl _)
  refine ⟨comps', err, ?_, h2, ?_⟩
  · unfold moduleEditId
    rw [if_neg hid]
    simp only [h1]
  · intro j c hj hne
    obtain ⟨ha, hb⟩ := h3 j c hj hne
    refine ⟨ha, ?_⟩
    intro k c' hjk hck
    have hk : k < cal.Components.length := by
      rw [List.get?_eq_getElem?] at hck
      exact (List.getElem?_eq_some_iff.mp hck).1
    exact hb k c' hjk hk hck

/-- C7, witness: an edit of the summary in a document of three events, two of them with the
wanted id. -/
theorem moduleEditId_frame_witness :
    ∃ comps err,
      moduleEditId (calOf [sampleEvent "x" "A", sampleEvent "y" "B", sampleEvent "x" "C"])
          (twoParams "id" "x" "new-summary" "moved")
        = some ⟨⟨comps, []⟩, 0, err⟩ ∧
      comps.length = 3 ∧
      ∀ j c, [sampleEvent "x" "A", sampleEvent "y" "B", sampleEvent "x" "C"].get? j = some c →
        comps.get? j ≠ some c →
        hasId "x" c = true ∧
        ∀ k c', j < k →
          [sampleEvent "x" "A", sampleEvent "y" "B", sampleEvent "x" "C"].get? k = some c' →
          hasId "x" c' = false :=
  moduleEditId_frame (calOf [sampleEvent "x" "A", sampleEvent "y" "B", sampleEvent "x" "C"])
    (twoParams "id" "x" "new-summary" "moved") (by decide)

/-- C7, counterexample: with the id carried by the first and the third event, the call leaves
the first event as it is and changes the third. -/
theorem moduleEditId_edits_last_match :
    moduleEditId (calOf [sampleEvent "x" "A", sampleEvent "y" "B", sampleEvent "x" "C"])
        (twoParams "id" "x" "new-summary" "moved")
      = some ⟨calOf [sampleEvent "x" "A", sampleEvent "y" "B", sampleEvent "x" "moved"],
          0, none⟩ := by
  decide

/-! ## edit-bysummary-regex -/

/-- C8, the code at the failing input: without an `overwrite` parameter `moduleEditId`
replaces the existing summary, `moduleEditSummaryRegex` leaves it as it is. -/
theorem moduleEditSummaryRegex_no_default_mode :
    moduleEditId (calOf [timedEvent "a" "20250101T100000Z" "20250101T110000Z" "Standup"])
        (twoParams "id" "a" "new-summary" "moved")
      = some ⟨calOf [timedEvent "a" "20250101T100000Z" "20250101T110000Z" "moved"], 0, none⟩ ∧
    moduleEditSummaryRegex sampleEnv
        (calOf [timedEvent "a" "20250101T100000Z" "20250101T110000Z" "Standup"])
        (twoParams "regex" "Standup" "new-summary" "moved")
      = some ⟨calOf [timedEvent "a" "20250101T100000Z" "20250101T110000Z" "Standup"],
          0, none⟩ := by
  decide

/-! ## Module table -/

/-- C10: the low-privileged list holds exactly the six deletion and edit modules, each of
them is a key of the module table, the table has exactly ten distinct names, and `add-url`,
`add-file`, `save-to-file` and `add-reminder` are known but not low-privileged. -/
theorem lowPrivModules_classification :
    (∀ name, name ∈ lowPrivModules ↔
      name = "delete-bysummary-regex" ∨ name = "delete-byid" ∨ name = "delete-timeframe" ∨
      name = "delete-duplicates" ∨ name = "edit-byid" ∨ name = "edit-bysummary-regex") ∧
    lowPrivModules.Nodup ∧
    (∀ name ∈ lowPrivModules, name ∈ modules) ∧
    modules.length = 10 ∧ modules.Nodup ∧
    (∀ name ∈ ["add-url", "add-file", "save-to-file", "add-reminder"],
      name ∈ modules ∧ name ∉ lowPrivModules) := by
  refine ⟨?_, by decide, by decide, by decide, by decide, by decide⟩
  intro name
  simp [lowPrivModules]

/-- A field of `n` digits takes `n` characters. -/
theorem takeDigits_length (n : Nat) : ∀ (cs : List Char) (v : Nat) (rest : List Char),
    takeDigits n cs = some (v, rest) → cs.length = n + rest.length := by
  induction n with
  | zero =>
    intro cs v rest h
    simp only [takeDigits, Option.some.injEq, Prod.mk.injEq] at h
    rw [h.2]; omega
  | succ n ih =>
    intro cs v rest h
    cases cs with
    | nil => simp [takeDigits] at h
    | cons c cs =>
      simp only [takeDigits] at h
      cases hd : digitVal c with
      | none => rw [hd] at h; simp at h
      | some d =>
        cases ht : takeDigits n cs with
        | none => rw [hd, ht] at h; simp at h
        | some r =>
          obtain ⟨w, rest'⟩ := r
          rw [hd, ht] at h
          simp only [Option.some.injEq, Prod.mk.injEq] at h
          have := ih cs w rest' ht
          rw [← h.2]
          simp only [List.length_cons]
          omega

/-- The instant built by `mkTime` without nanoseconds is a whole second. -/
theorem mkTime_whole (y m d hh mm ss : Nat) (off : Int) (t : Time)
    (h : mkTime y m d hh mm ss 0 off = some t) : t.ns % 1000000000 = 0 := by
  unfold mkTime at h
  split at h
  · simp only [Option.some.injEq] at h
    rw [← h]
    simp only [Nat.cast_zero, Int.add_zero]
    exact Int.mul_emod_left _ _
  · simp at h

/-- A compact timestamp of sixteen characters has no fraction: it reads as a whole second. -/
theorem parseCompactChars_whole (cs : List Char) (t : Time) (hlen : cs.length = 16)
    (h : parseCompactChars cs = some t) : t.ns % 1000000000 = 0 := by
  unfold parseCompactChars at h
  split at h
  · rename_i y r1 h1
    split at h
    · rename_i m r2 h2
      split at h
      · rename_i d r3 h3
        split at h
        · rename_i hh r4 h4
          split at h
          · rename_i mm r5 h5
            split at h
            · rename_i ss r6 h6
              have l1 := takeDigits_length _ _ _ _ h1
              have l2 := takeDigits_length _ _ _ _ h2
              have l3 := takeDigits_length _ _ _ _ h3
              have l4 := takeDigits_length _ _ _ _ h4
              have l5 := takeDigits_length _ _ _ _ h5
              have l6 := takeDigits_length _ _ _ _ h6
              simp only [List.length_cons] at l3
              have l7 : r6.length = 1 := by omega
              match r6, l7 with
              | [c], _ =>
                have hf : (takeFraction ['.', ','] [c]).1 = 0 := by
                  simp only [takeFraction]
                  split
                  · simp [spanDigits]
                  · rfl
                split at h
                · rename_i nsec heq
                  have : nsec = 0 := by rw [← hf, heq]
                  subst this
                  exact mkTime_whole _ _ _ _ _ _ _ _ h
                · simp at h
            · simp at h
          · simp at h
        · simp at h
      · simp at h
    · simp at h
  · simp at h

/-- The zero time is a whole second. -/
theorem zeroTime_whole : zeroTime.ns % 1000000000 = 0 := by decide

/-- What `leadDigits` takes is the head of the value and has the length asked for. -/
theorem leadDigits_some (n : Nat) (cs a b : List Char) (h : leadDigits n cs = some (a, b)) :
    cs = a ++ b ∧ a.length = n := by
  unfold leadDigits at h
  split at h
  · rename_i hc
    simp only [Option.some.injEq, Prod.mk.injEq] at h
    obtain ⟨h1, h2⟩ := h
    subst h1; subst h2
    exact ⟨(List.take_append_drop n cs).symm, by simp [hc.1]⟩
  · simp at h

/-- An optional group of digits is the head of the value and has the full length or none. -/
theorem optDigits_spec (n : Nat) (cs : List Char) :
    cs = (optDigits n cs).1 ++ (optDigits n cs).2 ∧
      ((optDigits n cs).1 = [] ∨ (optDigits n cs).1.length = n) := by
  unfold optDigits
  cases hl : leadDigits n cs with
  | none => simp
  | some r =>
    obtain ⟨a, b⟩ := r
    obtain ⟨q1, q2⟩ := leadDigits_some n cs a b hl
    exact ⟨q1, Or.inr q2⟩

/-- An optional group of one character is the head of the value. -/
theorem optChar_spec (set cs : List Char) :
    cs = (optChar set cs).1 ++ (optChar set cs).2 ∧ (optChar set cs).1.length ≤ 1 := by
  cases cs with
  | nil => simp [optChar]
  | cons c r =>
    simp only [optChar]
    by_cases hc : c ∈ set
    · simp [hc]
    · simp [hc]

/-- A value that matches `timeStampVariations` is its four groups one after the other; the
date group has eight characters or none, the time group six or none, the other two at most
one. -/
theorem timeStampVariations_shape (cs g1 g2 g3 g4 : List Char)
    (h : timeStampVariations cs = some (g1, g2, g3, g4)) :
    cs = g1 ++ (g2 ++ (g3 ++ g4)) ∧ (g1 = [] ∨ g1.length = 8) ∧ g2.length ≤ 1 ∧
      (g3 = [] ∨ g3.length = 6) ∧ g4.length ≤ 1 := by
  unfold timeStampVariations at h
  simp only at h
  split at h
  · rename_i hend
    simp only [Option.some.injEq, Prod.mk.injEq] at h
    obtain ⟨h1, h2, h3, h4⟩ := h
    have e1 := optDigits_spec 8 cs
    have e2 := optChar_spec ['T', 'Z'] (optDigits 8 cs).2
    have e3 := optDigits_spec 6 (optChar ['T', 'Z'] (optDigits 8 cs).2).2
    have e4 := optChar_spec ['Z'] (optDigits 6 (optChar ['T', 'Z'] (optDigits 8 cs).2).2).2
    rw [hend, List.append_nil] at e4
    rw [h1] at e1
    rw [h2] at e2
    rw [h3] at e3
    rw [h4] at e4
    refine ⟨?_, e1.2, e2.2, e3.2, e4.2⟩
    conv_lhs => rw [e1.1, e2.1, e3.1, e4.1]
  · simp at h

/-- Every time that the reader takes from a property is a whole second. -/
theorem readStamp_whole (env : Env) (p : IANAProperty) (t : Time) (z : String)
    (h : readStamp env p = some (t, z)) : t.ns % 1000000000 = 0 := by
  have hdate : ∀ (loc : Location) (y m d hh mm ss : Nat),
      dateIn loc y m d hh mm ss = some (t, z) → t.ns % 1000000000 = 0 := by
    intro loc y m d hh mm ss hd
    unfold dateIn at hd
    split at hd
    · simp only [Option.some.injEq, Prod.mk.injEq] at hd
      rw [← hd.1]
      exact Int.mul_emod_left _ _
    · simp at hd
  unfold readStamp at h
  split at h
  · simp at h
  · rename_i date tOrZ clock zz hv
    split at h
    · simp at h
    · rename_i propLoc _
      obtain ⟨s1, s2, s3, s4, s5⟩ := timeStampVariations_shape _ _ _ _ _ hv
      split at h
      · rename_i hc
        obtain ⟨c1, c2, c3, c4⟩ := hc
        subst c3; subst c4
        have hlen : p.Value.data.length = 16 := by
          rw [s1]
          simp only [List.length_append, List.length_cons, List.length_nil]
          rcases s2 with s2 | s2
          · exact absurd s2 c1
          · rcases s4 with s4 | s4
            · exact absurd s4 c2
            · omega
        cases hp : parseCompactChars p.Value.data with
        | none => rw [hp] at h; simp at h
        | some u =>
          rw [hp] at h
          simp only [Option.map_some', Option.some.injEq, Prod.mk.injEq] at h
          rw [← h.1]
          exact parseCompactChars_whole _ u hlen hp
      · split at h
        · split at h
          · exact hdate _ _ _ _ _ _ _ h
          · simp at h
        · split at h
          · split at h
            · rename_i y m d _ _
              cases hm : mkTime y m d 0 0 0 0 0 with
              | none => rw [hm] at h; simp at h
              | some u =>
                rw [hm] at h
                simp only [Option.map_some', Option.some.injEq, Prod.mk.injEq] at h
                rw [← h.1]
                exact mkTime_whole _ _ _ _ _ _ _ _ hm
            · simp at h
          · split at h
            · split at h
              · exact hdate _ _ _ _ _ _ _ h
              · simp at h
            · simp at h

/-- Every time read from an event is a whole second. -/
theorem getTimeProp_whole (env : Env) (event : VEvent) (token : String) :
    (getTimeProp env event token).1.ns % 1000000000 = 0 := by
  unfold getTimeProp
  split
  · rename_i p _
    cases hp : readStamp env p with
    | none => simp only [Option.getD_none]; exact zeroTime_whole
    | some r =>
      obtain ⟨t, z⟩ := r
      simp only [Option.getD_some]
      exact readStamp_whole env p t z hp
  · exact zeroTime_whole

/-- The digits written by `padDigits` are as many as asked for. -/
theorem padDigits_length (w n : Nat) : (padDigits w n).length = w := by
  induction w generalizing n with
  | zero => rfl
  | succ w ih => simp [padDigits, ih]

/-- What `padDigits` writes are decimal digits. -/
theorem padDigits_digits (w n : Nat) :
    (padDigits w n).all (fun c => (digitVal c).isSome) = true := by
  induction w generalizing n with
  | zero => rfl
  | succ w ih =>
    simp only [padDigits, List.all_append, ih, Bool.true_and, List.all_cons, List.all_nil,
      Bool.and_true]
    rw [digitVal_digitChar (n % 10) (by omega)]
    rfl

/-- A group of `n` digits at the head of a value is taken by `optDigits`. -/
theorem optDigits_append (n : Nat) (ds rest : List Char) (hlen : ds.length = n)
    (hd : ds.all (fun c => (digitVal c).isSome) = true) :
    optDigits n (ds ++ rest) = (ds, rest) := by
  unfold optDigits leadDigits
  have h1 : (ds ++ rest).take n = ds := List.take_left' hlen
  have h2 : (ds ++ rest).drop n = rest := List.drop_left' hlen
  rw [h1, h2, if_pos ⟨by simp [hlen], hd⟩]
  rfl

/-- The pattern on a value in the compact UTC form: eight digits, `T`, six digits, `Z`. -/
theorem timeStampVariations_compact (date clock : List Char) (h1 : date.length = 8)
    (d1 : date.all (fun c => (digitVal c).isSome) = true) (h2 : clock.length = 6)
    (d2 : clock.all (fun c => (digitVal c).isSome) = true) :
    timeStampVariations (date ++ 'T' :: (clock ++ ['Z'])) = some (date, ['T'], clock, ['Z']) := by
  unfold timeStampVariations
  simp only [optDigits_append 8 date _ h1 d1]
  have hT : optChar ['T', 'Z'] ('T' :: (clock ++ ['Z'])) = (['T'], clock ++ ['Z']) := by
    simp [optChar]
  simp only [hT, optDigits_append 6 clock _ h2 d2]
  have hZ : optChar ['Z'] ['Z'] = (['Z'], []) := by decide
  simp only [hZ, if_true]

/-- The golang-ical reading of a property written by `SetStartAt` or `SetEndAt` (the compact
form of `formatCompact`, no parameters), for an instant in UTC with a year of four digits: the
instant, cut to the whole second, in UTC. -/
theorem readStamp_formatCompact (env : Env) (token : String) (t : Time) (hoff : t.offset = 0)
    (hlo : -62167219200 * 1000000000 ≤ t.ns) (hhi : t.ns < 253402300800 * 1000000000) :
    readStamp env ⟨token, t.formatCompact, []⟩
      = some (⟨t.ns / 1000000000 * 1000000000, 0⟩, "UTC") := by
  have hback := parseCompact_formatCompact t hoff hlo hhi
  unfold parseCompact at hback
  have hshape : ∃ date clock, t.formatCompact.data = date ++ 'T' :: (clock ++ ['Z']) ∧
      date.length = 8 ∧ date.all (fun c => (digitVal c).isSome) = true ∧
      clock.length = 6 ∧ clock.all (fun c => (digitVal c).isSome) = true ∧
      date ≠ [] ∧ clock ≠ [] := by
    unfold Time.formatCompact Time.clock
    simp only [hoff, Int.add_zero]
    have hd1 : -719528 ≤ t.ns / 1000000000 / 86400 ∧ t.ns / 1000000000 / 86400 < 2932897 := by
      omega
    obtain ⟨y1, y2⟩ := civilFromDays_year _ hd1.1 hd1.2
    have hyd : yearDigits (civilFromDays (t.ns / 1000000000 / 86400)).1
        = padDigits 4 (civilFromDays (t.ns / 1000000000 / 86400)).1.natAbs := by
      unfold yearDigits
      have h2 : (civilFromDays (t.ns / 1000000000 / 86400)).1.natAbs < 10000 := by omega
      have h3 : ¬ ((civilFromDays (t.ns / 1000000000 / 86400)).1 < 0) := by omega
      simp only [h2, h3, if_true, if_false, List.nil_append]
    rw [hyd]
    refine ⟨padDigits 4 (civilFromDays (t.ns / 1000000000 / 86400)).1.natAbs
        ++ padDigits 2 (civilFromDays (t.ns / 1000000000 / 86400)).2.1
        ++ padDigits 2 (civilFromDays (t.ns / 1000000000 / 86400)).2.2,
      padDigits 2 ((t.ns / 1000000000 % 86400).toNat / 3600)
        ++ padDigits 2 ((t.ns / 1000000000 % 86400).toNat % 3600 / 60)
        ++ padDigits 2 ((t.ns / 1000000000 % 86400).toNat % 60), ?_, ?_, ?_, ?_, ?_, ?_, ?_⟩
    · simp only [List.append_assoc, List.cons_append, List.nil_append]
    · simp [padDigits_length]
    · simp only [List.all_append, padDigits_digits, Bool.and_self]
    · simp [padDigits_length]
    · simp only [List.all_append, padDigits_digits, Bool.and_self]
    · intro h; have := congrArg List.length h; simp [padDigits_length] at this
    · intro h; have := congrArg List.length h; simp [padDigits_length] at this
  obtain ⟨date, clock, hs, h1, d1, h2, d2, n1, n2⟩ := hshape
  unfold readStamp
  simp only [hs, timeStampVariations_compact date clock h1 d1 h2 d2, propLocation,
    List.lookup]
  rw [if_pos ⟨n1, n2, trivial, trivial⟩, ← hs, hback]
  rfl

/-- A text block does not change what a lookup of another token finds. -/
theorem editText_GetProperty_other (token n token2 : String) (st : VEvent × String)
    (h : token2 ≠ token) :
    GetProperty (editText token n st).1.Properties token2 = GetProperty st.1.Properties token2 := by
  unfold editText
  split
  · rfl
  · split
    · exact GetProperty_SetProperty_other _ _ _ _ h
    · split
      · exact GetProperty_SetProperty_other _ _ _ _ h
      · split
        · split
          · exact GetProperty_SetProperty_other _ _ _ _ h
          · rfl
        · split
          · exact GetProperty_SetProperty_other _ _ _ _ h
          · rfl

/-- The three text blocks do not change what a lookup of a token other than theirs finds. -/
theorem editTexts_GetProperty_other (params : Params) (token2 : String) (st : VEvent × String)
    (h1 : token2 ≠ "SUMMARY") (h2 : token2 ≠ "DESCRIPTION") (h3 : token2 ≠ "LOCATION") :
    GetProperty (editTexts params st).1.Properties token2 = GetProperty st.1.Properties token2 := by
  unfold editTexts
  rw [editText_GetProperty_other _ _ _ _ h3, editText_GetProperty_other _ _ _ _ h2,
    editText_GetProperty_other _ _ _ _ h1]

/-- Without `new-start` and `new-end` the time blocks do nothing. -/
theorem editTimes_none (params : Params) (event : VEvent) (hs : params "new-start" = "")
    (he : params "new-end" = "") : editTimes params event = (event, none) := by
  simp [editTimes, hs, he]

/-- The times of an event after the shift `SetStartAt(start.Add(dur))`, `SetEndAt(end.Add(dur))`:
a moved instant with a year of four digits reads back as itself, cut to the whole second. -/
theorem shifted_times (env : Env) (e : VEvent) (s t : Time) :
    (fourDigitYear s.ns →
      ((e.SetStartAt s).SetEndAt t).GetStartAt env = ⟨s.ns / 1000000000 * 1000000000, 0⟩) ∧
    (fourDigitYear t.ns →
      ((e.SetStartAt s).SetEndAt t).GetEndAt env = ⟨t.ns / 1000000000 * 1000000000, 0⟩) := by
  constructor
  · intro hs
    unfold VEvent.GetStartAt getTimeProp VEvent.SetEndAt VEvent.SetStartAt VEvent.SetProperty
    simp only
    rw [GetProperty_SetProperty_other _ _ _ _ (by decide), GetProperty_SetProperty_same]
    simp only
    rw [readStamp_formatCompact env _ s.UTC rfl hs.1 hs.2]
    rfl
  · intro ht
    unfold VEvent.GetEndAt getTimeProp VEvent.SetEndAt VEvent.SetStartAt VEvent.SetProperty
    simp only
    rw [GetProperty_SetProperty_same]
    simp only
    rw [readStamp_formatCompact env _ t.UTC rfl ht.1 ht.2]
    rfl

/-- The loop of `moduleEditSummaryRegex` for a call with `move-time` and without `new-start`
and `new-end`, on a document whose events inside the window all have a summary: it returns
without error, keeps the length, leaves the unmatched components as they are and shifts the
start and the end of every matched event; a moved instant with a year of four digits reads
back as itself, cut to the whole second. -/
theorem moduleEditSummaryRegexLoop_move (env : Env) (params : Params) (re : String → Bool)
    (after before : Time) (dur : Int)
    (hns : params "new-start" = "") (hne : params "new-end" = "")
    (hdur : ParseDuration (params "move-time") = some dur) (i : Nat) :
    ∀ (comps : List Component) (overwrite : String), i ≤ comps.length →
      (∀ j c, j < i → comps.get? j = some c → inWindowWithoutSummary env after before c = false) →
      ∃ comps', moduleEditSummaryRegexLoop env params re after before i comps overwrite
          = some (comps', none) ∧
        comps'.length = comps.length ∧
        (∀ j, i ≤ j → comps'.get? j = comps.get? j) ∧
        (∀ j c, j < i → comps.get? j = some c →
          (matchesEdit env re after before c = false → comps'.get? j = some c) ∧
          (matchesEdit env re after before c = true →
            ∃ e', comps'.get? j = some (.event e') ∧
              (fourDigitYear ((startOf env c).ns + dur) →
                e'.GetStartAt env
                  = ⟨((startOf env c).ns + dur) / 1000000000 * 1000000000, 0⟩) ∧
              (fourDigitYear ((endOf env c).ns + dur) →
                e'.GetEndAt env
                  = ⟨((endOf env c).ns + dur) / 1000000000 * 1000000000, 0⟩))) := by
  have hmt : params "move-time" ≠ "" := by
    intro h
    have h0 : ParseDuration "" = none := by decide
    rw [h, h0] at hdur
    exact absurd hdur (by simp)
  induction i with
  | zero =>
    intro comps overwrite _ _
    exact ⟨comps, rfl, rfl, fun j _ => rfl, fun j c hj => absurd hj (Nat.not_lt_zero j)⟩
  | succ i ih =>
    intro comps overwrite hlen hsum
    have hi : i < comps.length := by omega
    have hget : comps.get? i = some comps[i] := List.get?_eq_get hi
    -- the case in which position `i` is left as it is
    have hkeep : matchesEdit env re after before comps[i] = false →
        (∃ comps', moduleEditSummaryRegexLoop env params re after before i comps overwrite
            = some (comps', none) ∧
          comps'.length = comps.length ∧
          (∀ j, i ≤ j → comps'.get? j = comps.get? j) ∧
          (∀ j c, j < i → comps.get? j = some c →
            (matchesEdit env re after before c = false → comps'.get? j = some c) ∧
            (matchesEdit env re after before c = true →
              ∃ e', comps'.get? j = some (.event e') ∧
                (fourDigitYear ((startOf env c).ns + dur) →
                  e'.GetStartAt env
                    = ⟨((startOf env c).ns + dur) / 1000000000 * 1000000000, 0⟩) ∧
                (fourDigitYear ((endOf env c).ns + dur) →
                  e'.GetEndAt env
                    = ⟨((endOf env c).ns + dur) / 1000000000 * 1000000000, 0⟩)))) →
        ∃ comps', moduleEditSummaryRegexLoop env params re after before i comps overwrite
            = some (comps', none) ∧
          comps'.length = comps.length ∧
          (∀ j, i + 1 ≤ j → comps'.get? j = comps.get? j) ∧
          (∀ j c, j < i + 1 → comps.get? j = some c →
            (matchesEdit env re after before c = false → comps'.get? j = some c) ∧
            (matchesEdit env re after before c = true →
              ∃ e', comps'.get? j = some (.event e') ∧
                (fourDigitYear ((startOf env c).ns + dur) →
                  e'.GetStartAt env
                    = ⟨((startOf env c).ns + dur) / 1000000000 * 1000000000, 0⟩) ∧
                (fourDigitYear ((endOf env c).ns + dur) →
                  e'.GetEndAt env
                    = ⟨((endOf env c).ns + dur) / 1000000000 * 1000000000, 0⟩))) := by
      intro hno ⟨comps', h1, h2, h3, h4⟩
      refine ⟨comps', h1, h2, fun j hj => h3 j (by omega), ?_⟩
      intro j c hj hc
      by_cases hji : j = i
      · subst hji
        rw [hget] at hc
        simp only [Option.some.injEq] at hc
        subst hc
        refine ⟨fun _ => by rw [h3 j (Nat.le_refl _)]; exact hget, ?_⟩
        intro hyes; rw [hno] at hyes; exact absurd hyes (by simp)
      · exact h4 j c (by omega) hc
    have ihc := ih comps overwrite (by omega) (fun j c hj => hsum j c (by omega))
    cases hc : comps[i] with
    | other kind props =>
      obtain ⟨comps', h1, h2, h3, h4⟩ := hkeep (by rw [hc]; rfl) ihc
      exact ⟨comps', by simp only [moduleEditSummaryRegexLoop, hget, hc]; exact h1, h2, h3, h4⟩
    | event e =>
      cases hw : inWindow after before (e.GetStartAt env) with
      | false =>
        obtain ⟨comps', h1, h2, h3, h4⟩ :=
          hkeep (by rw [hc]; simp [matchesEdit, hw]) ihc
        refine ⟨comps', ?_, h2, h3, h4⟩
        simp only [moduleEditSummaryRegexLoop, hget, hc, hw]
        exact h1
      | true =>
        cases hp : GetProperty e.Properties "SUMMARY" with
        | none =>
          have := hsum i (.event e) (Nat.lt_succ_self i) (by rw [hget, hc])
          simp [inWindowWithoutSummary, hw, hp] at this
        | some p =>
          cases hr : re p.Value with
          | false =>
            obtain ⟨comps', h1, h2, h3, h4⟩ :=
              hkeep (by rw [hc]; simp [matchesEdit, hw, hp, hr]) ihc
            refine ⟨comps', ?_, h2, h3, h4⟩
            simp only [moduleEditSummaryRegexLoop, hget, hc, hw, hp, hr]
            exact h1
          | true =>
            have hm : matchesEdit env re after before (.event e) = true := by
              simp [matchesEdit, hw, hp, hr]
            generalize hst : editTexts params (e, overwrite) = st
            have hs1 : (st.1.GetStartAt env) = (e.GetStartAt env) := by
              unfold VEvent.GetStartAt getTimeProp
              rw [← hst, editTexts_GetProperty_other params "DTSTART" (e, overwrite)
                (by decide) (by decide) (by decide)]
            have he1 : (st.1.GetEndAt env) = (e.GetEndAt env) := by
              unfold VEvent.GetEndAt getTimeProp
              rw [← hst, editTexts_GetProperty_other params "DTEND" (e, overwrite)
                (by decide) (by decide) (by decide)]
            generalize hnew : (st.1.SetStartAt ((st.1.GetStartAt env).Add dur)).SetEndAt
              ((st.1.GetEndAt env).Add dur) = e'
            have htimes := shifted_times env st.1 ((st.1.GetStartAt env).Add dur)
              ((st.1.GetEndAt env).Add dur)
            rw [hnew, hs1, he1] at htimes
            have hset : ∀ j, j ≠ i → (comps.set i (.event e')).get? j = comps.get? j := by
              intro j hj
              rw [List.get?_eq_getElem?, List.getElem?_set_ne (Ne.symm hj),
                ← List.get?_eq_getElem?]
            have hseti : (comps.set i (.event e')).get? i = some (.event e') := by
              rw [List.get?_eq_getElem?, List.getElem?_set_self (by omega)]
            obtain ⟨comps', h1, h2, h3, h4⟩ := ih (comps.set i (.event e')) st.2
              (by simp; omega)
              (fun j c hj hcj => hsum j c (by omega) (by rw [← hset j (by omega)]; exact hcj))
            refine ⟨comps', ?_, by rw [h2]; simp, ?_, ?_⟩
            · simp only [moduleEditSummaryRegexLoop, hget, hc, hw, hp, hr, if_true, hst,
                editTimes_none params st.1 hns hne, hmt, if_false, hdur, hnew]
              exact h1
            · intro j hj
              rw [h3 j (by omega), hset j (by omega)]
            · intro j c hj hcj
              by_cases hji : j = i
              · subst hji
                rw [hget, hc] at hcj
                simp only [Option.some.injEq] at hcj
                subst hcj
                refine ⟨fun hno => by rw [hm] at hno; exact absurd hno (by simp), fun _ => ?_⟩
                exact ⟨e', by rw [h3 j (Nat.le_refl _)]; exact hseti, htimes.1, htimes.2⟩
              · exact h4 j c (by omega) (by rw [hset j hji]; exact hcj)

/-- C9 (as amended): move-time in edit-bysummary-regex, for a call whose pattern compiles and
whose bounds resolve, with a valid duration `dur`, on a document whose events inside the window
all have a summary. Given together with `new-start` or `new-end` the call returns an error and
the document is unchanged. Given without them the call returns no error, every unmatched
component is unchanged, and every matched event that has a start and an end and whose moved
start and end lie in the years 0000 to 9999 gets start and end plus the duration cut to the
whole second, so that the span is preserved, and exactly start and end plus the duration when
the duration is a whole number of seconds. -/
theorem moduleEditSummaryRegex_move_time (env : Env) (cal : Calendar) (params : Params)
    (re : String → Bool) (after before : Time) (dur : Int)
    (hregex : params "regex" ≠ "") (hre : env.compile (params "regex") = some re)
    (hafter : resolveAfterOfEdit env params = some after)
    (hbefore : resolveBound env maxTime (params "before") = some before)
    (hdur : ParseDuration (params "move-time") = some dur)
    (hsum : ∀ c ∈ cal.Components, inWindowWithoutSummary env after before c = false) :
    ((params "new-start" ≠ "" ∨ params "new-end" ≠ "") →
      moduleEditSummaryRegex env cal params = some ⟨cal, 0,
        some "two exclusive params were given: 'move-time' and 'new-start'/'new-end'"⟩) ∧
    (params "new-start" = "" → params "new-end" = "" →
      ∃ comps, moduleEditSummaryRegex env cal params
          = some ⟨⟨comps, cal.CalendarProperties⟩, 0, none⟩ ∧
        comps.length = cal.Components.length ∧
        (∀ j c, cal.Components.get? j = some c →
          matchesEdit env re after before c = false → comps.get? j = some c) ∧
        (∀ j e, cal.Components.get? j = some (.event e) →
          matchesEdit env re after before (.event e) = true →
          hasNoStart env e = false → hasNoEnd env e = false →
          fourDigitYear ((e.GetStartAt env).ns + dur) →
          fourDigitYear ((e.GetEndAt env).ns + dur) →
          ∃ e', comps.get? j = some (.event e') ∧
            (e'.GetStartAt env).ns = ((e.GetStartAt env).ns + dur) / 1000000000 * 1000000000 ∧
            (e'.GetEndAt env).ns = ((e.GetEndAt env).ns + dur) / 1000000000 * 1000000000 ∧
            (e'.GetEndAt env).ns - (e'.GetStartAt env).ns
              = (e.GetEndAt env).ns - (e.GetStartAt env).ns ∧
            (dur % 1000000000 = 0 →
              (e'.GetStartAt env).ns = (e.GetStartAt env).ns + dur ∧
              (e'.GetEndAt env).ns = (e.GetEndAt env).ns + dur))) := by
  have hmt : params "move-time" ≠ "" := by
    intro h
    have h0 : ParseDuration "" = none := by decide
    rw [h, h0] at hdur
    exact absurd hdur (by simp)
  constructor
  · intro hx
    unfold moduleEditSummaryRegex
    rw [if_neg hregex]
    simp only [hre, hafter, hbefore]
    rw [if_pos ⟨hmt, hx⟩]
  · intro hns hne
    have hmem : ∀ j c, cal.Components.get? j = some c → c ∈ cal.Components := by
      intro j c hj
      rw [List.get?_eq_getElem?] at hj
      obtain ⟨hlt, heq⟩ := List.getElem?_eq_some_iff.mp hj
      rw [← heq]
      exact List.getElem_mem hlt
    have hlt : ∀ j c, cal.Components.get? j = some c → j < cal.Components.length := by
      intro j c hj
      rw [List.get?_eq_getElem?] at hj
      exact (List.getElem?_eq_some_iff.mp hj).1
    obtain ⟨comps', h1, h2, _, h4⟩ :=
      moduleEditSummaryRegexLoop_move env params re after before dur hns hne hdur
        cal.Components.length cal.Components (params "overwrite") (Nat.le_refl _)
        (fun j c _ hj => hsum c (hmem j c hj))
    refine ⟨comps', ?_, h2, ?_, ?_⟩
    · unfold moduleEditSummaryRegex
      rw [if_neg hregex]
      simp only [hre, hafter, hbefore]
      rw [if_neg (by rw [hns, hne]; simp)]
      simp only [h1]
    · intro j c hj hno
      exact (h4 j c (hlt j c hj) hj).1 hno
    · intro j e hj hm _ _ hys hye
      obtain ⟨e', he1, he2, he3⟩ := (h4 j (.event e) (hlt j _ hj) hj).2 hm
      have he2' := he2 hys
      have he3' := he3 hye
      simp only [startOf, endOf] at he2' he3'
      have hws : (e.GetStartAt env).ns % 1000000000 = 0 := getTimeProp_whole env e "DTSTART"
      have hwe : (e.GetEndAt env).ns % 1000000000 = 0 := getTimeProp_whole env e "DTEND"
      refine ⟨e', he1, by rw [he2'], by rw [he3'], ?_, ?_⟩
      · rw [he2', he3']
        show ((e.GetEndAt env).ns + dur) / 1000000000 * 1000000000
          - ((e.GetStartAt env).ns + dur) / 1000000000 * 1000000000
            = (e.GetEndAt env).ns - (e.GetStartAt env).ns
        omega
      · intro hd
        rw [he2', he3']
        show ((e.GetStartAt env).ns + dur) / 1000000000 * 1000000000
            = (e.GetStartAt env).ns + dur ∧
          ((e.GetEndAt env).ns + dur) / 1000000000 * 1000000000 = (e.GetEndAt env).ns + dur
        omega

/-- C9, witness: the stand-up meeting and the lunch, with `move-time` of one hour for the
pattern `Standup`: the lunch is unchanged, the meeting runs from 11:00 to 12:00. -/
theorem moduleEditSummaryRegex_move_time_witness :
    (∃ comps, moduleEditSummaryRegex sampleEnv meetingCal
          (twoParams "regex" "Standup" "move-time" "1h")
        = some ⟨⟨comps, meetingCal.CalendarProperties⟩, 0, none⟩ ∧
      comps.length = meetingCal.Components.length ∧
      (∀ j c, meetingCal.Components.get? j = some c →
        matchesEdit sampleEnv standupRe zeroTime maxTime c = false → comps.get? j = some c) ∧
      (∀ j e, meetingCal.Components.get? j = some (.event e) →
        matchesEdit sampleEnv standupRe zeroTime maxTime (.event e) = true →
        hasNoStart sampleEnv e = false → hasNoEnd sampleEnv e = false →
        fourDigitYear ((e.GetStartAt sampleEnv).ns + 3600000000000) →
        fourDigitYear ((e.GetEndAt sampleEnv).ns + 3600000000000) →
        ∃ e', comps.get? j = some (.event e') ∧
          (e'.GetStartAt sampleEnv).ns
            = ((e.GetStartAt sampleEnv).ns + 3600000000000) / 1000000000 * 1000000000 ∧
          (e'.GetEndAt sampleEnv).ns
            = ((e.GetEndAt sampleEnv).ns + 3600000000000) / 1000000000 * 1000000000 ∧
          (e'.GetEndAt sampleEnv).ns - (e'.GetStartAt sampleEnv).ns
            = (e.GetEndAt sampleEnv).ns - (e.GetStartAt sampleEnv).ns ∧
          ((3600000000000 : Int) % 1000000000 = 0 →
            (e'.GetStartAt sampleEnv).ns = (e.GetStartAt sampleEnv).ns + 3600000000000 ∧
            (e'.GetEndAt sampleEnv).ns = (e.GetEndAt sampleEnv).ns + 3600000000000))) ∧
    moduleEditSummaryRegex sampleEnv meetingCal (twoParams "regex" "Standup" "move-time" "1h")
      = some ⟨calOf [timedEvent "a" "20250101T110000Z" "20250101T120000Z" "Standup",
          timedEvent "b" "20250101T120000Z" "20250101T130000Z" "Lunch"], 0, none⟩ :=
  ⟨(moduleEditSummaryRegex_move_time sampleEnv meetingCal
    (twoParams "regex" "Standup" "move-time" "1h") standupRe zeroTime maxTime 3600000000000
    (by decide) rfl (by decide) (by decide) (by decide) (by decide)).2
    (by decide) (by decide), by decide⟩

/-- C9, counterexample: a shift by `1500ms` moves start and end by one second, not by one
and a half; and a shift by two hours of an event that starts at 23:00 on the last day of the
year 9999 leaves an event whose start and end no longer read, so that its start is the zero
time. -/
theorem moduleEditSummaryRegex_move_not_exact :
    ParseDuration "1500ms" = some 1500000000 ∧
    moduleEditSummaryRegex sampleEnv
        (calOf [timedEvent "a" "20250101T100000Z" "20250101T110000Z" "Standup"])
        (twoParams "regex" "Standup" "move-time" "1500ms")
      = some ⟨calOf [timedEvent "a" "20250101T100001Z" "20250101T110001Z" "Standup"],
          0, none⟩ ∧
    (startOf sampleEnv (timedEvent "a" "20250101T100001Z" "20250101T110001Z" "Standup")).ns
      ≠ (startOf sampleEnv (timedEvent "a" "20250101T100000Z" "20250101T110000Z" "Standup")).ns
        + 1500000000 ∧
    ParseDuration "2h" = some 7200000000000 ∧
    noStart sampleEnv (timedEvent "a" "99991231T230000Z" "99991231T233000Z" "Standup") = false ∧
    moduleEditSummaryRegex sampleEnv
        (calOf [timedEvent "a" "99991231T230000Z" "99991231T233000Z" "Standup"])
        (twoParams "regex" "Standup" "move-time" "2h")
      = some ⟨calOf [timedEvent "a" "100000101T010000Z" "100000101T013000Z" "Standup"],
          0, none⟩ ∧
    startOf sampleEnv (timedEvent "a" "100000101T010000Z" "100000101T013000Z" "Standup")
      = zeroTime := by
  decide

/-! ## Delta accounting -/

/-- C11, the code at the failing input: the backward loop of `moduleDeleteTimeframe` removes
the event inside the window, then meets a rule that ends on a date and returns the error with
delta 0. The document has lost one of its two events. -/
theorem moduleDeleteTimeframe_error_hides_removal :
    moduleDeleteTimeframe sampleEnv
        (calOf [dateUntilEvent, timedEvent "b" "20250201T100000Z" "20250201T110000Z" "T"])
        windowParams
      = some ⟨calOf [dateUntilEvent], 0, some "invalid UNTIL time"⟩ ∧
    (calOf [dateUntilEvent,
      timedEvent "b" "20250201T100000Z" "20250201T110000Z" "T"]).Events.length = 2 ∧
    (calOf [dateUntilEvent]).Events.length = 1 := by
  decide

/-! ## delete-bysummary-regex -/

/-- C12, the code at the failing input: without `from` and `until` an event that has no start
stays in the document although its summary matches the pattern; the matching event that has a
start is removed. -/
theorem moduleDeleteSummaryRegex_keeps_match_without_start :
    moduleDeleteSummaryRegex sampleEnv
        (calOf [sampleEvent "x" "Standup",
          timedEvent "a" "20250101T100000Z" "20250101T110000Z" "Standup",
          timedEvent "b" "20250101T120000Z" "20250101T130000Z" "Lunch"])
        (oneParam "regex" "Standup")
      = some ⟨calOf [sampleEvent "x" "Standup",
          timedEvent "b" "20250101T120000Z" "20250101T130000Z" "Lunch"], -1, none⟩ := by
  decide

/-- A pattern that does not compile makes `moduleDeleteSummaryRegex` panic, whatever the
document and the other parameters are. -/
theorem moduleDeleteSummaryRegex_none_of_invalid (env : Env) (cal : Calendar) (params : Params)
    (hre : params "regex" ≠ "") (hc : env.compile (params "regex") = none) :
    moduleDeleteSummaryRegex env cal params = none := by
  simp [moduleDeleteSummaryRegex, hre, hc]

/-- C16, the code at the failing inputs: the pattern `(` does not compile and the call panics;
a `from` that is no timestamp is read as the zero time, and the matching event is removed
without an error; an `until` that is no timestamp is read as the zero time, and the call
returns without an error. -/
theorem moduleDeleteSummaryRegex_invalid_parameters :
    moduleDeleteSummaryRegex sampleEnv meetingCal (oneParam "regex" "(") = none ∧
    moduleDeleteSummaryRegex sampleEnv meetingCal
        (threeParams "regex" "Standup" "from" "garbage" "until" "2026-01-01T00:00:00Z")
      = some ⟨calOf [timedEvent "b" "20250101T120000Z" "20250101T130000Z" "Lunch"],
          -1, none⟩ ∧
    moduleDeleteSummaryRegex sampleEnv meetingCal
        (threeParams "regex" "Standup" "from" "2024-01-01T00:00:00Z" "until" "garbage")
      = some ⟨meetingCal, 0, none⟩ := by
  decide

/-! ## add-reminder -/

/-- C14, the code at the failing input: on an event that has an alarm already, the trigger and
the action are written to that alarm, and the alarm the call adds stays without properties. -/
theorem moduleAddAllReminder_changes_first_alarm :
    moduleAddAllReminder (calOf [alarmedEvent "a"]) (oneParam "time" "15M")
      = some ⟨calOf [.event ⟨[⟨"UID", "a", []⟩],
          [⟨[⟨"ACTION", "DISPLAY", []⟩, ⟨"TRIGGER", "-PT15M", []⟩]⟩, ⟨[]⟩]⟩], 0, none⟩ := by
  decide

/-- The modules that test their mandatory parameter: without it each of them returns its error
with delta 0 and the document it was given. -/
theorem missing_parameter_guards (env : Env) (src : Sources) (cal : Calendar)
    (params : Params) :
    (params "regex" = "" → moduleDeleteSummaryRegex env cal params
      = some ⟨cal, 0, some "missing mandatory Parameter 'regex'"⟩) ∧
    (params "regex" = "" → moduleEditSummaryRegex env cal params
      = some ⟨cal, 0, some "missing mandatory Parameter 'regex'"⟩) ∧
    (params "id" = "" → moduleDeleteId cal params
      = some ⟨cal, 0, some "missing mandatory Parameter 'id'"⟩) ∧
    (params "id" = "" → moduleEditId cal params
      = some ⟨cal, 0, some "missing mandatory Parameter 'id'"⟩) ∧
    (params "url" = "" → moduleAddURL src cal params
      = some ⟨cal, 0, some "missing mandatory Parameter 'url'"⟩) ∧
    (params "filename" = "" → moduleAddFile src cal params
      = some ⟨cal, 0, some "missing mandatory Parameter 'filename'"⟩) ∧
    (params "file" = "" → moduleSaveToFile src cal params
      = some ⟨cal, 0, some "missing mandatory Parameter 'file'"⟩) ∧
    (params "after" = "" → params "before" = "" → moduleDeleteTimeframe env cal params
      = some ⟨cal, 0, some "missing both Parameters 'start' or 'end'. One has to be present"⟩) := by
  refine ⟨?_, ?_, ?_, ?_, ?_, ?_, ?_, ?_⟩
  · intro h; simp [moduleDeleteSummaryRegex, h]
  · intro h; simp [moduleEditSummaryRegex, h]
  · intro h; simp [moduleDeleteId, h]
  · intro h; simp [moduleEditId, h]
  · intro h; simp [moduleAddURL, h]
  · intro h; simp [moduleAddFile, h]
  · intro h; simp [moduleSaveToFile, h]
  · intro h1 h2; simp [moduleDeleteTimeframe, h1, h2]

/-- C15, the code at the failing input: without a `time` parameter `moduleAddAllReminder`
returns no error and adds an alarm with the trigger `-PT` to the event. -/
theorem moduleAddAllReminder_without_time :
    moduleAddAllReminder (calOf [sampleEvent "b" "S"]) noParams
      = some ⟨calOf [.event ⟨[⟨"UID", "b", []⟩, ⟨"SUMMARY", "S", []⟩],
          [⟨[⟨"TRIGGER", "-PT", []⟩, ⟨"ACTION", "DISPLAY", []⟩]⟩]⟩], 0, none⟩ := by
  decide

/-! ## Rule replacement -/

/-- C18, the code at the failing inputs: a rule that is the last property stays, and the
rewritten rule is added behind it, so that the lookup still returns the old rule; a rule followed
by another property is dropped, and that property stands twice afterwards. -/
theorem moduleDeleteTimeframe_rule_replacement :
    moduleDeleteTimeframe sampleEnv (calOf [ruleLastEvent]) windowParams
      = some ⟨calOf [.event ⟨[⟨"UID", "a", []⟩, ⟨"DTSTART", "20240101T100000Z", []⟩,
            ⟨"RRULE", "FREQ=DAILY;UNTIL=20301231T000000Z", []⟩,
            ⟨"RRULE", "FREQ=DAILY;UNTIL=20250101T000000Z;", []⟩], []⟩], 0, none⟩ ∧
    moduleDeleteTimeframe sampleEnv (calOf [.event dailyEvent]) windowParams
      = some ⟨calOf [.event ⟨[⟨"UID", "a", []⟩, ⟨"DTSTART", "20240101T100000Z", []⟩, ⟨"SUMMARY", "S", []⟩,
            ⟨"SUMMARY", "S", []⟩, ⟨"RRULE", "FREQ=DAILY;UNTIL=20250101T000000Z;", []⟩], []⟩],
          0, none⟩ := by
  decide

/-- C19, the code at the failing input: the first call rewrites the rule of the recurring
event and ends it with a semicolon; the second call with the same parameters panics on that
rule. -/
theorem moduleDeleteTimeframe_second_call_panics :
    moduleDeleteTimeframe sampleEnv (calOf [.event dailyEvent]) windowParams
      = some ⟨calOf [.event ⟨[⟨"UID", "a", []⟩, ⟨"DTSTART", "20240101T100000Z", []⟩, ⟨"SUMMARY", "S", []⟩,
            ⟨"SUMMARY", "S", []⟩, ⟨"RRULE", "FREQ=DAILY;UNTIL=20250101T000000Z;", []⟩], []⟩],
          0, none⟩ ∧
    moduleDeleteTimeframe sampleEnv
        (calOf [.event ⟨[⟨"UID", "a", []⟩, ⟨"DTSTART", "20240101T100000Z", []⟩, ⟨"SUMMARY", "S", []⟩,
            ⟨"SUMMARY", "S", []⟩, ⟨"RRULE", "FREQ=DAILY;UNTIL=20250101T000000Z;", []⟩], []⟩])
        windowParams
      = none := by
  decide

/-! ## Overwrite policy -/

/-- C20, the code at the failing inputs: in `moduleEditId` the missing summary switches the
mode to `true`, and the description `D` is replaced although `false` was asked for; in
`moduleEditSummaryRegex` the event `b`, which has no description, switches the mode for the
event `a` that is edited after it, whose description `D` is replaced as well. -/
theorem overwrite_forced_for_later_fields :
    moduleEditId (calOf [describedEvent "x" "D"])
        (fourParams "id" "x" "overwrite" "false" "new-summary" "S" "new-description" "N")
      = some ⟨calOf [.event ⟨[⟨"UID", "x", []⟩, ⟨"DESCRIPTION", "N", []⟩, ⟨"SUMMARY", "S", []⟩], []⟩],
          0, none⟩ ∧
    moduleEditSummaryRegex sampleEnv
        (calOf [notedEvent "a" "20250101T100000Z" "Standup" "D",
          timedEvent "b" "20250101T120000Z" "20250101T130000Z" "Standup"])
        (threeParams "regex" "Standup" "overwrite" "false" "new-description" "N")
      = some ⟨calOf [notedEvent "a" "20250101T100000Z" "Standup" "N",
          .event ⟨[⟨"UID", "b", []⟩, ⟨"DTSTART", "20250101T120000Z", []⟩,
            ⟨"DTEND", "20250101T130000Z", []⟩, ⟨"SUMMARY", "Standup", []⟩,
            ⟨"DESCRIPTION", "N", []⟩], []⟩], 0, none⟩ := by
  decide

/-! ## Errors of edit-byid -/

/-- When the time blocks report an error, the event they leave carries the new start if
`new-start` is a timestamp, and is the event they were given otherwise. -/
theorem editTimes_error (params : Params) (event : VEvent)
    (h : (editTimes params event).2 ≠ none) :
    (editTimes params event).1
      = match parseRFC3339 (params "new-start") with
        | some s => event.SetStartAt s
        | none => event := by
  have h0 : parseRFC3339 "" = none := by decide
  unfold editTimes at h ⊢
  by_cases hs : params "new-start" = ""
  · rw [if_pos hs] at h ⊢
    rw [hs, h0]
    by_cases he : params "new-end" = ""
    · rw [if_pos he] at h; exact absurd rfl h
    · rw [if_neg he] at h ⊢
      cases hp : parseRFC3339 (params "new-end") with
      | none => rfl
      | some t => rw [hp] at h; exact absurd rfl h
  · rw [if_neg hs] at h ⊢
    cases hp : parseRFC3339 (params "new-start") with
    | none => rfl
    | some s =>
      rw [hp] at h
      simp only at h ⊢
      by_cases he : params "new-end" = ""
      · rw [if_pos he] at h; exact absurd rfl h
      · rw [if_neg he] at h ⊢
        cases hq : parseRFC3339 (params "new-end") with
        | none => rfl
        | some t => rw [hq] at h; exact absurd rfl h

/-- Writing to a cell what it holds changes nothing. -/
theorem set_of_get? {α : Type} (l : List α) (i : Nat) (x : α) (h : l.get? i = some x) :
    l.set i x = l := by
  induction l generalizing i with
  | nil => rfl
  | cons a rest ih =>
    cases i with
    | zero =>
      simp only [List.get?, Option.some.injEq] at h
      rw [h]; rfl
    | succ i =>
      simp only [List.get?] at h
      simp only [List.set, ih i h]

/-- Without text parameters the text blocks leave the event and the mode as they are. -/
theorem editTexts_none (params : Params) (st : VEvent × String)
    (h1 : params "new-summary" = "") (h2 : params "new-description" = "")
    (h3 : params "new-location" = "") : editTexts params st = st := by
  simp [editTexts, editText, h1, h2, h3]

/-- A run of the loop of `moduleEditId` that ends with an error has edited one event with the
wanted id: the document it leaves is the one it was given with that event replaced. -/
theorem moduleEditIdLoop_error (params : Params) (overwrite : String) (i : Nat) :
    ∀ (comps comps' : List Component) (msg : String),
      moduleEditIdLoop params overwrite i comps = some (comps', some msg) →
      ∃ j e, comps.get? j = some (.event e) ∧ e.Id = params "id" ∧
        comps' = comps.set j
          (.event (editTimes params (editTexts params (e, overwrite)).1).1) ∧
        (editTimes params (editTexts params (e, overwrite)).1).2 = some msg := by
  induction i with
  | zero =>
    intro comps comps' msg h
    simp [moduleEditIdLoop] at h
  | succ i ih =>
    intro comps comps' msg h
    cases hget : comps.get? i with
    | none => simp only [moduleEditIdLoop, hget, reduceCtorEq] at h
    | some c =>
      cases c with
      | other kind props =>
        simp only [moduleEditIdLoop, hget] at h
        exact ih comps comps' msg h
      | event e =>
        by_cases hid : e.Id = params "id"
        · simp only [moduleEditIdLoop, hget, hid, if_true, Option.some.injEq,
            Prod.mk.injEq] at h
          exact ⟨i, e, hget, hid, h.1.symm, h.2⟩
        · simp only [moduleEditIdLoop, hget, hid, if_false] at h
          exact ih comps comps' msg h

/-- C17 (as amended): when `moduleEditId` returns an error for a given id, the delta is 0 and
the document is the one before the call with one event of that id replaced: by the event with
the text edits of the call applied, and with the new start set when `new-start` is a timestamp
(the failing field is then `new-end`). The edits made before the failing field are kept. The
document is identical to the one before the call when no text field was given and `new-start`
is no timestamp (absent or invalid). -/
theorem moduleEditId_error_state (cal : Calendar) (params : Params) (o : Outcome)
    (hid : params "id" ≠ "") (h : moduleEditId cal params = some o) (herr : o.err ≠ none) :
    o.delta = 0 ∧
    (∃ i e, cal.Components.get? i = some (.event e) ∧ e.Id = params "id" ∧
      o.cal = ⟨cal.Components.set i (.event
          (match parseRFC3339 (params "new-start") with
            | some s => VEvent.SetStartAt (editTexts params
                (e, if params "overwrite" = "" then "true" else params "overwrite")).1 s
            | none => (editTexts params
                (e, if params "overwrite" = "" then "true" else params "overwrite")).1)),
        cal.CalendarProperties⟩) ∧
    (params "new-summary" = "" → params "new-description" = "" →
      params "new-location" = "" → parseRFC3339 (params "new-start") = none → o.cal = cal) := by
  unfold moduleEditId at h
  rw [if_neg hid] at h
  simp only at h
  cases hl : moduleEditIdLoop params
      (if params "overwrite" = "" then "true" else params "overwrite")
      cal.Components.length cal.Components with
  | none => rw [hl] at h; simp at h
  | some r =>
    obtain ⟨comps', err⟩ := r
    rw [hl] at h
    simp only [Option.some.injEq] at h
    subst h
    simp only at herr ⊢
    cases err with
    | none => exact absurd rfl herr
    | some msg =>
      obtain ⟨j, e, hj, he, hc, hm⟩ := moduleEditIdLoop_error params _ _ _ _ msg hl
      have hne : (editTimes params (editTexts params
          (e, if params "overwrite" = "" then "true" else params "overwrite")).1).2 ≠ none := by
        rw [hm]; simp
      have hev := editTimes_error params _ hne
      refine ⟨trivial, ⟨j, e, hj, he, ?_⟩, ?_⟩
      · rw [hc, hev]
      · intro h1 h2 h3 hp
        rw [hc, hev, hp, editTexts_none params _ h1 h2 h3]
        simp only
        rw [set_of_get? _ _ _ hj]

/-- C17, witness: an edit with a new summary and a `new-start` that is no timestamp returns
the error and the event with the new summary; the same call without the new summary returns the
error and the document it was given. -/
theorem moduleEditId_error_state_witness :
    moduleEditId (calOf [sampleEvent "x" "A"]) garbageStart
      = some ⟨calOf [sampleEvent "x" "moved"], 0, some "invalid start time"⟩ ∧
    (∃ i e, (calOf [sampleEvent "x" "A"]).Components.get? i = some (.event e) ∧
      e.Id = garbageStart "id" ∧
      calOf [sampleEvent "x" "moved"]
        = ⟨(calOf [sampleEvent "x" "A"]).Components.set i (.event
          (match parseRFC3339 (garbageStart "new-start") with
            | some s => VEvent.SetStartAt (editTexts garbageStart
                (e, if garbageStart "overwrite" = "" then "true"
                  else garbageStart "overwrite")).1 s
            | none => (editTexts garbageStart
                (e, if garbageStart "overwrite" = "" then "true"
                  else garbageStart "overwrite")).1)),
        (calOf [sampleEvent "x" "A"]).CalendarProperties⟩) ∧
    moduleEditId (calOf [sampleEvent "x" "A"]) (twoParams "id" "x" "new-start" "garbage")
      = some ⟨calOf [sampleEvent "x" "A"], 0, some "invalid start time"⟩ ∧
    calOf [sampleEvent "x" "A"] = calOf [sampleEvent "x" "A"] :=
  ⟨by decide,
    (moduleEditId_error_state (calOf [sampleEvent "x" "A"]) garbageStart
      ⟨calOf [sampleEvent "x" "moved"], 0, some "invalid start time"⟩
      (by decide) (by decide) (by decide)).2.1,
    by decide,
    (moduleEditId_error_state (calOf [sampleEvent "x" "A"])
      (twoParams "id" "x" "new-start" "garbage")
      ⟨calOf [sampleEvent "x" "A"], 0, some "invalid start time"⟩
      (by decide) (by decide) (by decide)).2.2 (by decide) (by decide) (by decide) (by decide)⟩

/-- C17, counterexample: a call with a new summary and a `new-start` that is no timestamp
returns the error and leaves the new summary in the document. -/
theorem moduleEditId_error_keeps_text_edit :
    moduleEditId (calOf [sampleEvent "x" "A"])
        (threeParams "id" "x" "new-summary" "moved" "new-start" "garbage")
      = some ⟨calOf [sampleEvent "x" "moved"], 0, some "invalid start time"⟩ ∧
    parseRFC3339 "garbage" = none ∧
    calOf [sampleEvent "x" "moved"] ≠ calOf [sampleEvent "x" "A"] := by
  decide

/-! ## Aggregation -/

/-- The loop of `addEvents` appends the events in their order and counts them. -/
theorem addEventsLoop_eq (events : List VEvent) :
    ∀ (cal1 : Calendar) (count : Int),
      addEventsLoop events cal1 count
        = (⟨cal1.Components ++ events.map Component.event, cal1.CalendarProperties⟩,
            count + (events.length : Int)) := by
  induction events with
  | nil => intro cal1 count; simp [addEventsLoop]
  | cons e rest ih =>
    intro cal1 count
    rw [addEventsLoop, ih]
    simp only [Calendar.AddVEvent, List.append_assoc, List.singleton_append, List.map_cons,
      List.length_cons, Nat.cast_add, Nat.cast_one]
    have hc : count + 1 + (rest.length : Int) = count + ((rest.length : Int) + 1) := by omega
    rw [hc]

/-- The events of a document to which events were appended. -/
theorem Events_append (comps : List Component) (props : List IANAProperty)
    (events : List VEvent) :
    Calendar.Events ⟨comps ++ events.map Component.event, props⟩
      = Calendar.Events ⟨comps, props⟩ ++ events := by
  simp only [Calendar.Events, List.filterMap_append, List.filterMap_map]
  congr 1
  induction events with
  | nil => rfl
  | cons e rest ih => simp only [List.filterMap_cons, Function.comp_apply, ih, eventOf]

/-- The loop of `addMultiFile` over a run of files that are there and can be read, followed by
further files: the events of the run are appended and counted, and the loop goes on with the
further files. -/
theorem addMultiFileLoop_parsed (src : Sources) (later : List String) (filenames : List String) :
    ∀ (cals : List Calendar) (cal : Calendar) (count : Int),
      filenames.map src.file = cals.map FileState.parsed →
      addMultiFileLoop src (filenames ++ later) cal count
        = addMultiFileLoop src later
            ⟨cal.Components ++ ((cals.map Calendar.Events).flatten).map Component.event,
              cal.CalendarProperties⟩
            (count + (cals.map (fun c => (c.Events.length : Int))).sum) := by
  induction filenames with
  | nil =>
    intro cals cal count h
    cases cals with
    | nil => simp
    | cons c cs => simp at h
  | cons f rest ih =>
    intro cals cal count h
    cases cals with
    | nil => simp at h
    | cons c cs =>
      simp only [List.map_cons, List.cons.injEq] at h
      obtain ⟨hf, hrest⟩ := h
      simp only [List.cons_append, addMultiFileLoop, addEventsFile, hf, addEvents,
        addEventsLoop_eq, List.append_eq]
      rw [ih cs _ _ hrest]
      simp only [List.map_cons, List.flatten_cons, List.map_append, List.append_assoc,
        List.sum_cons, zero_add]
      have hc : count + (c.Events.length : Int)
            + (cs.map (fun c => (c.Events.length : Int))).sum
          = count + ((c.Events.length : Int)
            + (cs.map (fun c => (c.Events.length : Int))).sum) := by omega
      rw [hc]

/-- C13: for every ordered list of files that are there and can be read, `addMultiFile` returns
without error, the delta is the sum of the files' event counts, the target's components are
its original components followed by each file's events in list order (so its events are its
original events followed by the files' events), and its calendar-level properties are
unchanged; if the next file of the list is missing, the call returns the error for that file
with the same document and the same count, whatever files follow. -/
theorem addMultiFile_merges (src : Sources) (cal : Calendar) (filenames : List String)
    (cals : List Calendar) (hfiles : filenames.map src.file = cals.map FileState.parsed) :
    addMultiFile src cal filenames
        = some ⟨⟨cal.Components ++ ((cals.map Calendar.Events).flatten).map Component.event,
              cal.CalendarProperties⟩,
            (cals.map (fun c => (c.Events.length : Int))).sum, none⟩ ∧
      Calendar.Events ⟨cal.Components ++ ((cals.map Calendar.Events).flatten).map Component.event,
          cal.CalendarProperties⟩
        = cal.Events ++ (cals.map Calendar.Events).flatten ∧
      ∀ (absent : String) (later : List String), src.file absent = FileState.missing →
        addMultiFile src cal (filenames ++ absent :: later)
          = some ⟨⟨cal.Components ++ ((cals.map Calendar.Events).flatten).map Component.event,
                cal.CalendarProperties⟩,
              (cals.map (fun c => (c.Events.length : Int))).sum,
              some ("file " ++ absent ++ " not found")⟩ := by
  refine ⟨?_, Events_append _ _ _, ?_⟩
  · have h := addMultiFileLoop_parsed src [] filenames cals cal 0 hfiles
    rw [List.append_nil] at h
    rw [addMultiFile, h]
    simp [addMultiFileLoop]
  · intro absent later habsent
    rw [addMultiFile, addMultiFileLoop_parsed src (absent :: later) filenames cals cal 0 hfiles]
    simp [addMultiFileLoop, addEventsFile, habsent]

/-- C13, witness: a file with three events and a file with two are merged into a target with
one event, delta 3 + 2 = 5; with a missing file between them the call returns the error, the
count 3 of the first file, and the second file is not merged. -/
theorem addMultiFile_merges_witness :
    addMultiFile sampleSources targetCal ["a.ics", "b.ics"]
        = some ⟨⟨[.other "VTIMEZONE" [], sampleEvent "t" "T", sampleEvent "a1" "A1",
              sampleEvent "a2" "A2", sampleEvent "a3" "A3", sampleEvent "b1" "B1",
              sampleEvent "b2" "B2"], [⟨"PRODID", "relay", []⟩]⟩, 5, none⟩ ∧
      addMultiFile sampleSources targetCal ["a.ics", "c.ics", "b.ics"]
        = some ⟨⟨[.other "VTIMEZONE" [], sampleEvent "t" "T", sampleEvent "a1" "A1",
              sampleEvent "a2" "A2", sampleEvent "a3" "A3"], [⟨"PRODID", "relay", []⟩]⟩, 3,
            some "file c.ics not found"⟩ := by
  constructor
  · rw [(addMultiFile_merges sampleSources targetCal ["a.ics", "b.ics"] [fileA, fileB]
      (by decide)).1]
    decide
  · have h := (addMultiFile_merges sampleSources targetCal ["a.ics"] [fileA] (by decide)).2.2
      "c.ics" ["b.ics"] (by decide)
    rw [List.singleton_append] at h
    rw [h]
    decide

/-! ## delete-bysummary-regex on documents it can read -/

/-- The backward loop of `removeByRegexSummaryAndTime` on the part `pre` still to scan, when
every event of it inside the window has a summary. -/
theorem removeByRegexSummaryAndTimeLoop_eq (env : Env) (regex : String → Bool) (start stop : Time)
    (pre : List Component) :
    ∀ (out : List Component) (count : Int),
      (∀ c ∈ pre, inWindowWithoutSummary env start stop c = false) →
      removeByRegexSummaryAndTimeLoop env regex start stop pre.length (pre ++ out) count
        = some (pre.filter (fun c => !matchesEdit env regex start stop c) ++ out,
            count - ((pre.filter (matchesEdit env regex start stop)).length : Int)) := by
  induction pre using List.reverseRecOn with
  | nil => intro out count _; simp [removeByRegexSummaryAndTimeLoop]
  | append_singleton p c ih =>
    intro out count hok
    have hp : ∀ x ∈ p, inWindowWithoutSummary env start stop x = false :=
      fun x hx => hok x (by simp [hx])
    have hlen : (p ++ [c]).length = p.length + 1 := by simp
    have hget : (p ++ [c] ++ out).get? p.length = some c := by
      rw [List.get?_eq_getElem?, List.append_assoc, List.getElem?_append_right (Nat.le_refl _)]
      simp
    have hre : p ++ [c] ++ out = p ++ (c :: out) := by simp
    rw [hlen]
    cases c with
    | other kind props =>
      simp only [removeByRegexSummaryAndTimeLoop, hget]
      rw [hre, ih _ count hp]
      simp [List.filter_append, matchesEdit]
    | event e =>
      have hc := hok (.event e) (by simp)
      simp only [inWindowWithoutSummary] at hc
      cases hw : inWindow start stop (e.GetStartAt env) with
      | false =>
        simp only [removeByRegexSummaryAndTimeLoop, hget, hw, Bool.false_eq_true, if_false]
        rw [hre, ih _ count hp]
        simp [List.filter_append, matchesEdit, hw]
      | true =>
        rw [hw] at hc
        cases hs : GetProperty e.Properties "SUMMARY" with
        | none => rw [hs] at hc; simp at hc
        | some summary =>
          cases hm : regex summary.Value with
          | false =>
            simp only [removeByRegexSummaryAndTimeLoop, hget, hw, hs, hm, if_true,
              Bool.false_eq_true, if_false]
            rw [hre, ih _ count hp]
            simp [List.filter_append, matchesEdit, hw, hs, hm]
          | true =>
            simp only [removeByRegexSummaryAndTimeLoop, hget, hw, hs, hm, if_true,
              removeFromICS]
            rw [hre, remove_middle]
            simp only
            rw [ih out (count - 1) hp]
            simp only [List.filter_append, List.filter_cons, List.filter_nil, matchesEdit, hw,
              hs, hm, Bool.and_self, Bool.not_true, Bool.false_eq_true, if_false, if_true,
              List.append_nil, List.length_append, List.length_singleton, Nat.cast_add,
              Nat.cast_one]
            have : count - 1 - ((p.filter (matchesEdit env regex start stop)).length : Int)
                = count - (((p.filter (matchesEdit env regex start stop)).length : Int) + 1) := by
              omega
            rw [this]

/-- Without a complete window, on a pattern that compiles and a document in which every event
with a start after the zero time has a summary, `moduleDeleteSummaryRegex` removes the events
whose start lies after the zero time (and before the upper sentinel) and whose summary matches,
keeps the other components in their order, and returns minus the number of removed events. -/
theorem moduleDeleteSummaryRegex_without_window (env : Env) (cal : Calendar) (params : Params)
    (regex : String → Bool) (hre : params "regex" ≠ "")
    (hc : env.compile (params "regex") = some regex)
    (hw : params "from" = "" ∨ params "until" = "")
    (hsum : ∀ c ∈ cal.Components, inWindowWithoutSummary env zeroTime maxTime c = false) :
    moduleDeleteSummaryRegex env cal params
      = some ⟨⟨cal.Components.filter (fun c => !matchesEdit env regex zeroTime maxTime c),
            cal.CalendarProperties⟩,
          -((cal.Components.filter (matchesEdit env regex zeroTime maxTime)).length : Int),
          none⟩ := by
  have hloop := removeByRegexSummaryAndTimeLoop_eq _ regex zeroTime maxTime cal.Components [] 0
    hsum
  rw [List.append_nil, List.append_nil] at hloop
  have hnw : ¬ (params "from" ≠ "" ∧ params "until" ≠ "") := by
    intro h; cases hw with
    | inl h1 => exact h.1 h1
    | inr h2 => exact h.2 h2
  have hneg : ¬ ((0 : Int)
      - ((cal.Components.filter (matchesEdit env regex zeroTime maxTime)).length : Int) > 0) := by
    omega
  simp only [moduleDeleteSummaryRegex, if_neg hre, hc, if_neg hnw, removeByRegexSummary,
    removeByRegexSummaryAndTime, hloop, if_neg hneg]
  simp

/-- An event without a readable start is outside the window that `removeByRegexSummary` passes
on, whatever its summary is: its start reads as the zero time, the lower bound itself. -/
theorem matchesEdit_zero_start (env : Env) (regex : String → Bool) (e : VEvent)
    (h : (e.GetStartAt env) = zeroTime) : matchesEdit env regex zeroTime maxTime (.event e) = false := by
  simp [matchesEdit, inWindow, Time.After, h]

/-! ## add-reminder on every document -/

/-- The body of the loop of `moduleAddAllReminder` on one event: an event without alarms gets
one alarm with the trigger and the action; on an event with alarms the first alarm gets the
trigger and the action, and an alarm without properties is added at the end. -/
theorem addReminder_eq (time : String) (e : VEvent) :
    addReminder time e
      = some ⟨e.Properties,
          match e.Alarms with
          | [] => [⟨[⟨"TRIGGER", "-PT" ++ time, []⟩, ⟨"ACTION", "DISPLAY", []⟩]⟩]
          | alarm :: rest =>
            ⟨SetProperty (SetProperty alarm.Properties "TRIGGER" ("-PT" ++ time))
              "ACTION" "DISPLAY"⟩ :: (rest ++ [⟨[]⟩])⟩ := by
  cases ha : e.Alarms with
  | nil => simp [addReminder, setOnFirstAlarm, VEvent.AddAlarm, ha, SetProperty]
  | cons alarm rest => simp [addReminder, setOnFirstAlarm, VEvent.AddAlarm, ha]

/-- The backward loop of `moduleAddAllReminder` on the part `pre` still to scan. -/
theorem moduleAddAllReminderLoop_eq (params : Params) (pre : List Component) :
    ∀ (out : List Component),
      moduleAddAllReminderLoop params pre.length (pre ++ out)
        = some (pre.map (withReminder (params "time")) ++ out) := by
  induction pre using List.reverseRecOn with
  | nil => intro out; simp [moduleAddAllReminderLoop]
  | append_singleton p c ih =>
    intro out
    have hlen : (p ++ [c]).length = p.length + 1 := by simp
    have hget : (p ++ [c] ++ out).get? p.length = some c := by
      rw [List.get?_eq_getElem?, List.append_assoc, List.getElem?_append_right (Nat.le_refl _)]
      simp
    rw [hlen]
    cases c with
    | other kind props =>
      have hre : p ++ [Component.other kind props] ++ out
          = p ++ (Component.other kind props :: out) := by simp
      simp only [moduleAddAllReminderLoop, hget]
      rw [hre, ih]
      simp [withReminder]
    | event e =>
      simp only [moduleAddAllReminderLoop, hget, addReminder_eq, set_middle]
      rw [ih]
      simp [withReminder, addReminder_eq]

/-- On every document and every parameter bag `moduleAddAllReminder` returns delta 0 and no
error, and the document with `withReminder` applied to each component; it does so without a
`time` parameter as well. -/
theorem moduleAddAllReminder_eq (cal : Calendar) (params : Params) :
    moduleAddAllReminder cal params
      = some ⟨⟨cal.Components.map (withReminder (params "time")), cal.CalendarProperties⟩,
          0, none⟩ := by
  have h := moduleAddAllReminderLoop_eq params cal.Components []
  rw [List.append_nil, List.append_nil] at h
  simp [moduleAddAllReminder, h]

/-- On an event without alarms `moduleAddAllReminder` does what is asked of it: the event gets
one alarm, with the trigger `-PT` followed by `time` and the action `DISPLAY`, and keeps its
properties. -/
theorem withReminder_of_no_alarm (time : String) (e : VEvent) (h : e.Alarms = []) :
    withReminder time (.event e)
      = .event ⟨e.Properties, [⟨[⟨"TRIGGER", "-PT" ++ time, []⟩, ⟨"ACTION", "DISPLAY", []⟩]⟩]⟩ := by
  simp [withReminder, addReminder_eq, h]

/-- On an event that has alarms `moduleAddAllReminder` writes the trigger and the action to
the first of them and adds an alarm without properties at the end. -/
theorem withReminder_of_alarm (time : String) (e : VEvent) (alarm : VAlarm)
    (rest : List VAlarm) (h : e.Alarms = alarm :: rest) :
    withReminder time (.event e)
      = .event ⟨e.Properties,
          ⟨SetProperty (SetProperty alarm.Properties "TRIGGER" ("-PT" ++ time))
            "ACTION" "DISPLAY"⟩ :: (rest ++ [⟨[]⟩])⟩ := by
  simp [withReminder, addReminder_eq, h]

/-! ## Delta accounting of the calls that return -/

/-- A list split at a cell it has. -/
theorem split_at_get? {α : Type} (l : List α) (i : Nat) (x : α) (h : l.get? i = some x) :
    ∃ p out, l = p ++ x :: out ∧ p.length = i := by
  rw [List.get?_eq_getElem?] at h
  obtain ⟨hlt, heq⟩ := List.getElem?_eq_some_iff.mp h
  refine ⟨l.take i, l.drop (i + 1), ?_, ?_⟩
  · rw [← heq, ← List.drop_eq_getElem_cons hlt, List.take_append_drop]
  · rw [List.length_take]; omega

/-- Removing a cell that holds an event takes one event from the list. -/
theorem events_remove (comps comps' : List Component) (i : Nat) (e : VEvent)
    (hget : comps.get? i = some (.event e)) (h : remove comps i = some comps') :
    (comps'.filterMap eventOf).length + 1 = (comps.filterMap eventOf).length := by
  obtain ⟨p, out, hsplit, hlen⟩ := split_at_get? comps i _ hget
  subst hsplit; subst hlen
  rw [remove_middle, Option.some.injEq] at h
  rw [← h]
  simp only [List.filterMap_append, List.filterMap_cons, eventOf, List.length_append,
    List.length_cons]
  omega

/-- Writing an event to a cell that holds an event keeps the number of events. -/
theorem events_set (comps : List Component) (i : Nat) (e e' : VEvent)
    (hget : comps.get? i = some (.event e)) :
    ((comps.set i (.event e')).filterMap eventOf).length
      = (comps.filterMap eventOf).length := by
  obtain ⟨p, out, hsplit, hlen⟩ := split_at_get? comps i _ hget
  subst hsplit; subst hlen
  have h := set_middle p out (Component.event e) (Component.event e')
  rw [List.append_assoc, List.singleton_append] at h
  rw [h]
  simp [List.filterMap_append, eventOf]

/-- The loop of `removeByRegexSummaryAndTime`, when it returns: the count has not grown, and the
events have gone down by what the count went down. -/
theorem removeByRegexSummaryAndTimeLoop_count (env : Env) (regex : String → Bool) (start stop : Time)
    (i : Nat) :
    ∀ (comps comps' : List Component) (count count' : Int),
      removeByRegexSummaryAndTimeLoop env regex start stop i comps count = some (comps', count') →
      count' ≤ count ∧
        ((comps'.filterMap eventOf).length : Int)
          = (comps.filterMap eventOf).length + (count' - count) := by
  induction i with
  | zero =>
    intro comps comps' count count' h
    simp only [removeByRegexSummaryAndTimeLoop, Option.some.injEq, Prod.mk.injEq] at h
    obtain ⟨h1, h2⟩ := h
    subst h1; subst h2
    exact ⟨le_refl _, by omega⟩
  | succ i ih =>
    intro comps comps' count count' h
    cases hget : comps.get? i with
    | none => simp only [removeByRegexSummaryAndTimeLoop, hget, reduceCtorEq] at h
    | some c =>
      cases c with
      | other kind props =>
        simp only [removeByRegexSummaryAndTimeLoop, hget] at h
        exact ih _ _ _ _ h
      | event e =>
        simp only [removeByRegexSummaryAndTimeLoop, hget] at h
        split at h
        · split at h
          · exact absurd h (by simp)
          · split at h
            · cases hr : removeFromICS comps i with
              | none => rw [hr] at h; exact absurd h (by simp)
              | some comps1 =>
                rw [hr] at h
                obtain ⟨h1, h2⟩ := ih _ _ _ _ h
                have h3 := events_remove comps comps1 i e hget hr
                constructor
                · omega
                · omega
            · exact ih _ _ _ _ h
        · exact ih _ _ _ _ h

/-- The loop of `moduleDeleteDuplicates`, when it returns: the count has not grown, and the
events have gone down by what the count went down. -/
theorem moduleDeleteDuplicatesLoop_count (env : Env) (i : Nat) :
    ∀ (comps comps' : List Component) (uniques : List String) (count count' : Int),
      moduleDeleteDuplicatesLoop env i comps uniques count = some (comps', count') →
      count' ≤ count ∧
        ((comps'.filterMap eventOf).length : Int)
          = (comps.filterMap eventOf).length + (count' - count) := by
  induction i with
  | zero =>
    intro comps comps' uniques count count' h
    simp only [moduleDeleteDuplicatesLoop, Option.some.injEq, Prod.mk.injEq] at h
    obtain ⟨h1, h2⟩ := h
    subst h1; subst h2
    exact ⟨le_refl _, by omega⟩
  | succ i ih =>
    intro comps comps' uniques count count' h
    cases hget : comps.get? i with
    | none => simp only [moduleDeleteDuplicatesLoop, hget, reduceCtorEq] at h
    | some c =>
      cases c with
      | other kind props =>
        simp only [moduleDeleteDuplicatesLoop, hget] at h
        exact ih _ _ _ _ _ h
      | event e =>
        simp only [moduleDeleteDuplicatesLoop, hget] at h
        split at h
        · split at h
          · cases hr : removeFromICS comps i with
            | none => rw [hr] at h; exact absurd h (by simp)
            | some comps1 =>
              rw [hr] at h
              obtain ⟨h1, h2⟩ := ih _ _ _ _ _ h
              have h3 := events_remove comps comps1 i e hget hr
              constructor
              · omega
              · omega
          · exact ih _ _ _ _ _ h
        · exact absurd h (by simp)

/-- The loop of `moduleDeleteTimeframe`, when it returns without an error: the count has not
grown, and the events have gone down by what the count went down. -/
theorem moduleDeleteTimeframeLoop_count (env : Env) (after before : Time) (i : Nat) :
    ∀ (comps comps' : List Component) (count count' : Int),
      moduleDeleteTimeframeLoop env after before i comps count = some (comps', count', none) →
      count' ≤ count ∧
        ((comps'.filterMap eventOf).length : Int)
          = (comps.filterMap eventOf).length + (count' - count) := by
  induction i with
  | zero =>
    intro comps comps' count count' h
    simp only [moduleDeleteTimeframeLoop, Option.some.injEq, Prod.mk.injEq, and_true] at h
    obtain ⟨h1, h2⟩ := h
    subst h1; subst h2
    exact ⟨le_refl _, by omega⟩
  | succ i ih =>
    intro comps comps' count count' h
    cases hget : comps.get? i with
    | none => simp only [moduleDeleteTimeframeLoop, hget, reduceCtorEq] at h
    | some c =>
      cases c with
      | other kind props =>
        simp only [moduleDeleteTimeframeLoop, hget] at h
        exact ih _ _ _ _ h
      | event e =>
        simp only [moduleDeleteTimeframeLoop, hget] at h
        cases ht : truncateEvent env after i e with
        | none => rw [ht] at h; exact absurd h (by simp)
        | some r =>
          cases r with
          | error msg => rw [ht] at h; simp at h
          | ok e' =>
            rw [ht] at h
            simp only at h
            have hs := events_set comps i e e' hget
            have hget' : (comps.set i (.event e')).get? i = some (.event e') := by
              rw [List.get?_eq_getElem?] at hget ⊢
              obtain ⟨hlt, _⟩ := List.getElem?_eq_some_iff.mp hget
              exact List.getElem?_set_self hlt
            split at h
            · cases hr : removeFromICS (comps.set i (.event e')) i with
              | none => rw [hr] at h; exact absurd h (by simp)
              | some comps1 =>
                rw [hr] at h
                obtain ⟨h1, h2⟩ := ih _ _ _ _ h
                have h3 := events_remove _ comps1 i e' hget' hr
                constructor
                · omega
                · omega
            · obtain ⟨h1, h2⟩ := ih _ _ _ _ h
              constructor
              · omega
              · omega

/-- A removal in place on a slice no longer than its array: the new slice is the old one
without the cell, and the array keeps its length. -/
theorem removeInPlace_take {α : Type} (arr arr' : List α) (len len' s : Nat)
    (hlen : len ≤ arr.length) (h : removeInPlace arr len s = some (arr', len')) :
    remove (arr.take len) s = some (arr'.take len') ∧ len' ≤ arr'.length ∧ s < len := by
  unfold removeInPlace at h
  by_cases hs : s + 1 ≤ len
  · rw [if_pos hs, Option.some.injEq, Prod.mk.injEq] at h
    obtain ⟨h1, h2⟩ := h
    have hl : (arr.take s ++ (arr.take len).drop (s + 1)).length = len - 1 := by
      simp only [List.length_append, List.length_take, List.length_drop]
      omega
    refine ⟨?_, ?_, by omega⟩
    · unfold remove
      rw [if_pos (by rw [List.length_take]; omega), ← h1, ← h2, List.take_left' hl,
        List.take_take]
      have : min s len = s := by omega
      rw [this]
    · rw [← h1, ← h2]
      simp only [List.length_append, List.length_take, List.length_drop]
      omega
  · rw [if_neg hs] at h; exact absurd h (by simp)

/-- The loop of `moduleDeleteId`, when it returns: the count has not grown, and the events of
the slice have gone down by what the count went down. -/
theorem moduleDeleteIdLoop_count (id : String) (k : Nat) :
    ∀ (i : Nat) (arr arr' : List Component) (len len' : Nat) (count count' : Int),
      len ≤ arr.length →
      moduleDeleteIdLoop id k i arr len count = some (arr', len', count') →
      count' ≤ count ∧
        (((arr'.take len').filterMap eventOf).length : Int)
          = ((arr.take len).filterMap eventOf).length + (count' - count) := by
  induction k with
  | zero =>
    intro i arr arr' len len' count count' _ h
    simp only [moduleDeleteIdLoop, Option.some.injEq, Prod.mk.injEq] at h
    obtain ⟨h1, h2, h3⟩ := h
    subst h1; subst h2; subst h3
    exact ⟨le_refl _, by omega⟩
  | succ k ih =>
    intro i arr arr' len len' count count' hlen h
    cases hget : arr.get? i with
    | none => simp only [moduleDeleteIdLoop, hget, reduceCtorEq] at h
    | some c =>
      simp only [moduleDeleteIdLoop, hget] at h
      split at h
      · rename_i hid
        cases hr : removeInPlace arr len i with
        | none => rw [hr] at h; exact absurd h (by simp)
        | some r =>
          obtain ⟨arr1, len1⟩ := r
          rw [hr] at h
          simp only at h
          obtain ⟨hrem, hlen1, hi⟩ := removeInPlace_take arr arr1 len len1 i hlen hr
          obtain ⟨h1, h2⟩ := ih _ _ _ _ _ _ _ hlen1 h
          cases c with
          | other kind props => simp [hasId] at hid
          | event e =>
            have hget' : (arr.take len).get? i = some (.event e) := by
              rw [List.get?_eq_getElem?] at hget ⊢
              rw [List.getElem?_take_of_lt hi]
              exact hget
            have h3 := events_remove _ _ i e hget' hrem
            constructor
            · omega
            · omega
      · exact ih _ _ _ _ _ _ _ hlen h

/-- Delta accounting of the deletion modules: a call of delete-bysummary-regex, delete-byid or
delete-duplicates that returns, and a call of delete-timeframe that returns without an error,
has a delta that is not positive, and the number of events after the call is the number
before it plus the delta. -/
theorem deletion_delta_accounting (env : Env) (cal : Calendar) (params : Params) (o : Outcome)
    (h : moduleDeleteSummaryRegex env cal params = some o ∨
      moduleDeleteId cal params = some o ∨
      moduleDeleteDuplicates env cal params = some o ∨
      (moduleDeleteTimeframe env cal params = some o ∧ o.err = none)) :
    o.delta ≤ 0 ∧ (o.cal.Events.length : Int) = cal.Events.length + o.delta := by
  rcases h with h | h | h | ⟨h, herr⟩
  · unfold moduleDeleteSummaryRegex at h
    split at h
    · simp only [Option.some.injEq] at h; subst h; simp
    · split at h
      · exact absurd h (by simp)
      · rename_i regex _
        have key : ∀ start stop cal' count,
            removeByRegexSummaryAndTime env cal regex start stop = some (cal', count) →
            count ≤ 0 ∧ (cal'.Events.length : Int) = cal.Events.length + count := by
          intro start stop cal' count hr
          unfold removeByRegexSummaryAndTime at hr
          cases hl : removeByRegexSummaryAndTimeLoop env regex start stop cal.Components.length
              cal.Components 0 with
          | none => rw [hl] at hr; exact absurd hr (by simp)
          | some r =>
            obtain ⟨comps', count'⟩ := r
            rw [hl] at hr
            simp only [Option.some.injEq, Prod.mk.injEq] at hr
            obtain ⟨h1, h2⟩ := hr
            subst h1; subst h2
            obtain ⟨h3, h4⟩ := removeByRegexSummaryAndTimeLoop_count _ _ _ _ _ _ _ _ _ hl
            simp only [Calendar.Events]
            constructor
            · omega
            · omega
        split at h
        · rename_i cal' count hr
          have hk : count ≤ 0 ∧ (cal'.Events.length : Int) = cal.Events.length + count := by
            split at hr
            · exact key _ _ _ _ hr
            · exact key _ _ _ _ hr
          split at h
          · omega
          · simp only [Option.some.injEq] at h; subst h; exact hk
        · exact absurd h (by simp)
  · unfold moduleDeleteId at h
    split at h
    · simp only [Option.some.injEq] at h; subst h; simp
    · simp only at h
      split at h
      · rename_i arr len count hl
        simp only [Option.some.injEq] at h; subst h
        obtain ⟨h3, h4⟩ := moduleDeleteIdLoop_count _ _ _ _ _ _ _ _ _ (le_refl _) hl
        rw [List.take_length] at h4
        simp only [Calendar.Events]
        constructor
        · omega
        · omega
      · exact absurd h (by simp)
  · unfold moduleDeleteDuplicates at h
    split at h
    · rename_i comps count hl
      simp only [Option.some.injEq] at h; subst h
      obtain ⟨h3, h4⟩ := moduleDeleteDuplicatesLoop_count _ _ _ _ _ _ _ hl
      simp only [Calendar.Events]
      constructor
      · omega
      · omega
    · exact absurd h (by simp)
  · unfold moduleDeleteTimeframe at h
    split at h
    · simp only [Option.some.injEq] at h; subst h; simp
    · split at h
      · simp only [Option.some.injEq] at h; subst h; simp
      · split at h
        · simp only [Option.some.injEq] at h; subst h; simp
        · split at h
          · rename_i comps count err hl
            simp only [Option.some.injEq] at h; subst h
            simp only at herr
            subst herr
            obtain ⟨h3, h4⟩ := moduleDeleteTimeframeLoop_count _ _ _ _ _ _ _ _ hl
            simp only [Calendar.Events]
            constructor
            · omega
            · omega
          · exact absurd h (by simp)

/-! ## Rule replacement on every event -/

/-- The rule handling of `moduleDeleteTimeframe` never replaces a rule: an event that has a rule
and comes out of it has one property more than before, so either a rule property too many or
another property twice. -/
theorem truncateEvent_length (env : Env) (after : Time) (i : Nat) (e e' : VEvent)
    (hrule : GetProperty e.Properties "RRULE" ≠ none)
    (h : truncateEvent env after i e = some (.ok e')) :
    e'.Properties.length = e.Properties.length + 1 := by
  unfold truncateEvent at h
  cases hr : GetProperty e.Properties "RRULE" with
  | none => exact absurd hr hrule
  | some rr =>
    rw [hr] at h
    simp only [rewriteRrule] at h
    obtain ⟨arr', h1, h2, _⟩ := deleteOldRruleLoop_spec "UID" (by decide) e.Properties.length 0
      e.Properties (by omega)
    rw [h1] at h
    cases hm : rruleToMap rr.Value with
    | none => rw [hm] at h; exact absurd h (by simp)
    | some m =>
      rw [hm] at h
      simp only at h
      cases ht : truncateMap after m with
      | error msg => rw [ht] at h; simp at h
      | ok m' =>
        rw [ht] at h
        simp only [Option.some.injEq, Except.ok.injEq] at h
        rw [← h]
        simp [VEvent.AddRrule, h2]

/-! ## Reading back a rewritten rule -/

/-- A split has at least one part. -/
theorem splitOn_ne_nil (sep : Char) (s : List Char) : splitOn sep s ≠ [] := by
  cases s with
  | nil => simp [splitOn]
  | cons c cs =>
    by_cases hc : c = sep
    · simp [splitOn, hc]
    · simp only [splitOn, hc, if_false]
      split <;> simp

/-- Splitting a text that ends with the separator yields an empty last part. -/
theorem splitOn_trailing (sep : Char) (s : List Char) :
    splitOn sep (s ++ [sep]) = splitOn sep s ++ [[]] := by
  induction s with
  | nil => simp [splitOn]
  | cons c cs ih =>
    by_cases hc : c = sep
    · simp only [List.cons_append, splitOn, hc, if_true, ih, List.append_eq]
    · simp only [List.cons_append, splitOn, hc, if_false, List.append_eq]
      rw [ih]
      cases hsp : splitOn sep cs with
      | nil => exact absurd hsp (splitOn_ne_nil sep cs)
      | cons h t => simp

/-- The loop that fills the map panics on a list of parts whose last part is empty. -/
theorem fillMap_trailing (parts : List (List Char)) :
    ∀ (m : RuleMap), fillMap m (parts ++ [[]]) = none := by
  induction parts with
  | nil => intro m; simp [fillMap, splitOn]
  | cons e rest ih =>
    intro m
    simp only [List.cons_append, fillMap]
    split
    · exact ih _
    · rfl

/-- A rule as `moduleDeleteTimeframe` writes it ends with a semicolon. -/
theorem rruleString_trailing (entries : List (String × String)) (h : entries ≠ []) :
    ∃ s, (rruleString entries).data = s ++ [';'] := by
  induction entries using List.reverseRecOn with
  | nil => exact absurd rfl h
  | append_singleton p kv _ =>
    refine ⟨(List.foldl (fun acc kv => acc ++ kv.1 ++ "=" ++ kv.2 ++ ";") "" p ++ kv.1 ++ "="
      ++ kv.2).data, ?_⟩
    simp only [rruleString, List.foldl_append, List.foldl_cons, List.foldl_nil,
      String.data_append]

/-- The reader of `moduleDeleteTimeframe` panics on every rule that its writer has produced
from a map with at least one entry. -/
theorem rruleToMap_rruleString (entries : List (String × String)) (h : entries ≠ []) :
    rruleToMap (rruleString entries) = none := by
  obtain ⟨s, hs⟩ := rruleString_trailing entries h
  rw [rruleToMap, hs, splitOn_trailing, fillMap_trailing]

/-! ## The window of edit-bysummary-regex -/

/-- With a lower bound given as `after` and no parameter `start`, `moduleEditSummaryRegex`
returns the error of the lower bound and the document it was given, whatever timestamp `after`
holds. -/
theorem moduleEditSummaryRegex_after_without_start (env : Env) (cal : Calendar)
    (params : Params) (re : String → Bool) (hre : params "regex" ≠ "")
    (hc : env.compile (params "regex") = some re) (ha : params "after" ≠ "")
    (hn : params "after" ≠ "now") (hs : params "start" = "") :
    moduleEditSummaryRegex env cal params = some ⟨cal, 0, some "invalid start time"⟩ := by
  have h0 : parseRFC3339 "" = none := by decide
  simp [moduleEditSummaryRegex, resolveAfterOfEdit, hre, hc, ha, hn, hs, h0]

/-- C21, the code at the failing inputs: with `after` = 2024-01-01T00:00:00Z and no parameter
`start` the call returns the error `invalid start time` and edits nothing; with the same
`after` and a parameter `start` = 2025-06-01T00:00:00Z the call returns no error and leaves the
event of January 2025 as it is, although its summary matches and its start is later than
`after`. -/
theorem moduleEditSummaryRegex_reads_start_for_after :
    moduleEditSummaryRegex sampleEnv meetingCal
        (paramsOf [("regex", "Standup"), ("after", "2024-01-01T00:00:00Z"),
          ("overwrite", "true"), ("new-summary", "X")])
      = some ⟨meetingCal, 0, some "invalid start time"⟩ ∧
    moduleEditSummaryRegex sampleEnv meetingCal
        (paramsOf [("regex", "Standup"), ("after", "2024-01-01T00:00:00Z"),
          ("start", "2025-06-01T00:00:00Z"), ("overwrite", "true"), ("new-summary", "X")])
      = some ⟨meetingCal, 0, none⟩ ∧
    moduleEditSummaryRegex sampleEnv meetingCal
        (paramsOf [("regex", "Standup"), ("overwrite", "true"), ("new-summary", "X")])
      = some ⟨calOf [timedEvent "a" "20250101T100000Z" "20250101T110000Z" "X",
          timedEvent "b" "20250101T120000Z" "20250101T130000Z" "Lunch"], 0, none⟩ := by
  decide

/-! ## The cutoff for a bound with an offset -/

/-- What `formatCompact` writes for an instant with an offset is what it writes for the instant
that lies the offset later, taken in UTC. -/
theorem formatCompact_offset (t : Time) :
    t.formatCompact = (⟨t.ns + t.offset * 1000000000, 0⟩ : Time).formatCompact := by
  unfold Time.formatCompact Time.clock
  have h : (t.ns + t.offset * 1000000000) / 1000000000 + 0 = t.ns / 1000000000 + t.offset := by
    omega
  simp only [h]

/-- C23, the code at the failing input: for `after` = 2025-01-01T00:00:00+02:00, the instant
2024-12-31T22:00:00Z, `moduleDeleteTimeframe` writes `UNTIL=20250101T000000Z`, which read in
the compact UTC form is the instant 2025-01-01T00:00:00Z, two hours later than `after`. -/
theorem moduleDeleteTimeframe_cutoff_with_offset :
    parseRFC3339 "2025-01-01T00:00:00+02:00" = some ⟨1735682400 * 1000000000, 7200⟩ ∧
    moduleDeleteTimeframe sampleEnv (calOf [.event dailyEvent])
        (oneParam "after" "2025-01-01T00:00:00+02:00")
      = some ⟨calOf [.event ⟨[⟨"UID", "a", []⟩, ⟨"DTSTART", "20240101T100000Z", []⟩, ⟨"SUMMARY", "S", []⟩,
            ⟨"SUMMARY", "S", []⟩, ⟨"RRULE", "FREQ=DAILY;UNTIL=20250101T000000Z;", []⟩], []⟩],
          0, none⟩ ∧
    parseCompact "20250101T000000Z" = some ⟨1735689600 * 1000000000, 0⟩ ∧
    (1735689600 : Int) - 1735682400 = 7200 := by
  decide

/-! ## Events without a summary -/

/-- C24, the code at the failing input: on a document whose only event has a start and no
summary property, `moduleDeleteSummaryRegex`, `moduleDeleteDuplicates` and
`moduleEditSummaryRegex` all end in a nil dereference instead of returning. -/
theorem modules_panic_without_summary :
    moduleDeleteSummaryRegex sampleEnv (calOf [bareEvent "a" "20250101T100000Z"])
        (oneParam "regex" "Standup") = none ∧
    moduleDeleteDuplicates sampleEnv (calOf [bareEvent "a" "20250101T100000Z"]) noParams = none ∧
    moduleEditSummaryRegex sampleEnv (calOf [bareEvent "a" "20250101T100000Z"])
        (twoParams "regex" "Standup" "new-summary" "X") = none := by
  decide

/-! ## Expiry cleanup -/

/-- C25, the code at the failing input: a module entry whose `expires` holds a timestamp of the
year 2999 and that has no `expiration` entry is selected for removal at a clock reading in
2025, whatever the helper does with the list; an entry with `expires` and an `expiration` in
the past is selected, and an entry with an `expiration` in the past and no `expires` is not. -/
theorem RunCleanup_selects_unexpired_module :
    cleanupSelects sampleEnv [("name", "add-url"), ("expires", "2999-01-01T00:00:00Z")] = true ∧
    Config.RunCleanup
        (feedConfig [[("name", "add-url"), ("expires", "2999-01-01T00:00:00Z")]])
        copyOnly sampleEnv
      = some (feedConfig [[("name", "add-url"), ("expires", "2999-01-01T00:00:00Z")]],
          [("feed", [0])]) ∧
    Config.RunCleanup
        (feedConfig [[("name", "add-url"), ("expires", "2999-01-01T00:00:00Z")]])
        shiftDown sampleEnv
      = some (feedConfig [[("name", "add-url"), ("expires", "2999-01-01T00:00:00Z")]],
          [("feed", [0])]) ∧
    cleanupSelects sampleEnv
      [("name", "add-url"), ("expires", "yes"), ("expiration", "2020-01-01T00:00:00Z")]
      = true ∧
    cleanupSelects sampleEnv [("name", "add-url"), ("expiration", "2020-01-01T00:00:00Z")]
      = false := by
  decide

/-- What `moduleDeleteTimeframe` writes as the cutoff for a bound parsed from an RFC 3339
timestamp reads back, in the compact UTC form, as the instant that lies the bound's offset
later than the bound (cut to the whole second): the bound itself only for the offset zero. -/
theorem cutoff_reads_back_shifted (s : String) (after : Time)
    (hparse : parseRFC3339 s = some after) :
    parseCompact after.formatCompact
      = some ⟨(after.ns / 1000000000 + after.offset) * 1000000000, 0⟩ := by
  obtain ⟨y, m, d, hh, mm, ss, nsec, off, hy, hn, hmk⟩ := parseRFC3339_mkTime s after hparse
  have hoff : after.offset = off := mkTime_offset _ _ _ _ _ _ _ _ _ hmk
  have hmk0 : mkTime y m d hh mm ss nsec 0
      = some ⟨after.ns + after.offset * 1000000000, 0⟩ := by
    unfold mkTime at hmk ⊢
    split at hmk
    · rename_i hc
      rw [if_pos hc]
      simp only [Option.some.injEq] at hmk
      rw [← hmk]
      simp only [Option.some.injEq, Time.mk.injEq, and_true]
      omega
    · simp at hmk
  obtain ⟨_, hlo, hhi⟩ := mkTime_range y m d hh mm ss nsec _ hy hn hmk0
  rw [formatCompact_offset, parseCompact_formatCompact _ rfl hlo hhi]
  simp only [Option.some.injEq, Time.mk.injEq, and_true]
  omega

/-- The loop of `removeByRegexSummaryAndTime` panics whenever the part still to scan holds an
event inside the window that has no summary. -/
theorem removeByRegexSummaryAndTimeLoop_none (env : Env) (regex : String → Bool) (start stop : Time)
    (pre : List Component) :
    (∃ c ∈ pre, inWindowWithoutSummary env start stop c = true) →
    ∀ (out : List Component) (count : Int),
      removeByRegexSummaryAndTimeLoop env regex start stop pre.length (pre ++ out) count
        = none := by
  induction pre using List.reverseRecOn with
  | nil => intro h; obtain ⟨c, hc, _⟩ := h; simp at hc
  | append_singleton p c ih =>
    intro hbad out count
    have hlen : (p ++ [c]).length = p.length + 1 := by simp
    have hget : (p ++ [c] ++ out).get? p.length = some c := by
      rw [List.get?_eq_getElem?, List.append_assoc, List.getElem?_append_right (Nat.le_refl _)]
      simp
    have hre : p ++ [c] ++ out = p ++ (c :: out) := by simp
    have hrest : inWindowWithoutSummary env start stop c = false →
        ∃ x ∈ p, inWindowWithoutSummary env start stop x = true := by
      intro hc
      obtain ⟨x, hx, hxb⟩ := hbad
      rcases List.mem_append.mp hx with hx | hx
      · exact ⟨x, hx, hxb⟩
      · simp only [List.mem_singleton] at hx
        subst hx
        rw [hc] at hxb
        exact absurd hxb (by simp)
    rw [hlen]
    cases c with
    | other kind props =>
      simp only [removeByRegexSummaryAndTimeLoop, hget]
      rw [hre]
      exact ih (hrest rfl) _ _
    | event e =>
      cases hw : inWindow start stop (e.GetStartAt env) with
      | false =>
        simp only [removeByRegexSummaryAndTimeLoop, hget, hw, Bool.false_eq_true, if_false]
        rw [hre]
        exact ih (hrest (by simp [inWindowWithoutSummary, hw])) _ _
      | true =>
        cases hs : GetProperty e.Properties "SUMMARY" with
        | none => simp only [removeByRegexSummaryAndTimeLoop, hget, hw, hs, if_true]
        | some summary =>
          have hp := hrest (by simp [inWindowWithoutSummary, hw, hs])
          cases hm : regex summary.Value with
          | false =>
            simp only [removeByRegexSummaryAndTimeLoop, hget, hw, hs, hm, if_true,
              Bool.false_eq_true, if_false]
            rw [hre]
            exact ih hp _ _
          | true =>
            simp only [removeByRegexSummaryAndTimeLoop, hget, hw, hs, hm, if_true,
              removeFromICS]
            rw [hre, remove_middle]
            exact ih hp _ _

/-- The loop of `moduleDeleteDuplicates` panics whenever the part still to scan holds an event
that has no summary. -/
theorem moduleDeleteDuplicatesLoop_none (env : Env) (pre : List Component) :
    (∃ c ∈ pre, lacksSummary c = true) →
    ∀ (out : List Component) (uniques : List String) (count : Int),
      moduleDeleteDuplicatesLoop env pre.length (pre ++ out) uniques count = none := by
  induction pre using List.reverseRecOn with
  | nil => intro h; obtain ⟨c, hc, _⟩ := h; simp at hc
  | append_singleton p c ih =>
    intro hbad out uniques count
    have hlen : (p ++ [c]).length = p.length + 1 := by simp
    have hget : (p ++ [c] ++ out).get? p.length = some c := by
      rw [List.get?_eq_getElem?, List.append_assoc, List.getElem?_append_right (Nat.le_refl _)]
      simp
    have hre : p ++ [c] ++ out = p ++ (c :: out) := by simp
    have hrest : lacksSummary c = false → ∃ x ∈ p, lacksSummary x = true := by
      intro hc
      obtain ⟨x, hx, hxb⟩ := hbad
      rcases List.mem_append.mp hx with hx | hx
      · exact ⟨x, hx, hxb⟩
      · simp only [List.mem_singleton] at hx
        subst hx
        rw [hc] at hxb
        exact absurd hxb (by simp)
    rw [hlen]
    cases c with
    | other kind props =>
      simp only [moduleDeleteDuplicatesLoop, hget]
      rw [hre]
      exact ih (hrest rfl) _ _ _
    | event e =>
      cases hs : GetProperty e.Properties "SUMMARY" with
      | none => simp only [moduleDeleteDuplicatesLoop, hget, identifier, hs]
      | some summary =>
        have hp := hrest (by simp [lacksSummary, hs])
        simp only [moduleDeleteDuplicatesLoop, hget, identifier, hs]
        split
        · simp only [removeFromICS]
          rw [hre, remove_middle]
          exact ih hp _ _ _
        · rw [hre]
          exact ih hp _ _ _

/-- The loop of `moduleEditSummaryRegex` panics whenever the part still to scan holds an event
inside the window that has no summary, in a call without `new-start`, `new-end` and
`move-time` (the parameters whose errors end the loop early). -/
theorem moduleEditSummaryRegexLoop_none (env : Env) (params : Params) (re : String → Bool)
    (after before : Time) (hs : params "new-start" = "") (he : params "new-end" = "")
    (hmv : params "move-time" = "") (pre : List Component) :
    (∃ c ∈ pre, inWindowWithoutSummary env after before c = true) →
    ∀ (out : List Component) (overwrite : String),
      moduleEditSummaryRegexLoop env params re after before pre.length (pre ++ out) overwrite
        = none := by
  induction pre using List.reverseRecOn with
  | nil => intro h; obtain ⟨c, hc, _⟩ := h; simp at hc
  | append_singleton p c ih =>
    intro hbad out overwrite
    have hlen : (p ++ [c]).length = p.length + 1 := by simp
    have hget : (p ++ [c] ++ out).get? p.length = some c := by
      rw [List.get?_eq_getElem?, List.append_assoc, List.getElem?_append_right (Nat.le_refl _)]
      simp
    have hre : p ++ [c] ++ out = p ++ (c :: out) := by simp
    have hrest : inWindowWithoutSummary env after before c = false →
        ∃ x ∈ p, inWindowWithoutSummary env after before x = true := by
      intro hc
      obtain ⟨x, hx, hxb⟩ := hbad
      rcases List.mem_append.mp hx with hx | hx
      · exact ⟨x, hx, hxb⟩
      · simp only [List.mem_singleton] at hx
        subst hx
        rw [hc] at hxb
        exact absurd hxb (by simp)
    rw [hlen]
    cases c with
    | other kind props =>
      simp only [moduleEditSummaryRegexLoop, hget]
      rw [hre]
      exact ih (hrest rfl) _ _
    | event e =>
      cases hw : inWindow after before (e.GetStartAt env) with
      | false =>
        simp only [moduleEditSummaryRegexLoop, hget, hw, Bool.false_eq_true, if_false]
        rw [hre]
        exact ih (hrest (by simp [inWindowWithoutSummary, hw])) _ _
      | true =>
        cases hsum : GetProperty e.Properties "SUMMARY" with
        | none => simp only [moduleEditSummaryRegexLoop, hget, hw, hsum, if_true]
        | some summary =>
          have hp := hrest (by simp [inWindowWithoutSummary, hw, hsum])
          cases hm : re summary.Value with
          | false =>
            simp only [moduleEditSummaryRegexLoop, hget, hw, hsum, hm, if_true,
              Bool.false_eq_true, if_false]
            rw [hre]
            exact ih hp _ _
          | true =>
            have ht : ∀ ev, editTimes params ev = (ev, none) := by
              intro ev; simp [editTimes, hs, he]
            simp only [moduleEditSummaryRegexLoop, hget, hw, hsum, hm, if_true, ht, hmv,
              set_middle]
            exact ih hp _ _

/-- On every document that holds an event without a summary `moduleDeleteDuplicates` panics;
so do `moduleDeleteSummaryRegex` (for a pattern that compiles, without a complete window) and
`moduleEditSummaryRegex` (for a pattern that compiles, without window and without time
parameters) when that event has a start after the zero time. -/
theorem summary_less_event_panics (env : Env) (cal : Calendar) (params : Params)
    (re : String → Bool) (hre : params "regex" ≠ "")
    (hc : env.compile (params "regex") = some re) :
    ((∃ c ∈ cal.Components, lacksSummary c = true) →
      moduleDeleteDuplicates env cal params = none) ∧
    ((∃ c ∈ cal.Components, inWindowWithoutSummary env zeroTime maxTime c = true) →
      (params "from" = "" ∨ params "until" = "" →
        moduleDeleteSummaryRegex env cal params = none) ∧
      (params "after" = "" → params "before" = "" → params "new-start" = "" →
        params "new-end" = "" → params "move-time" = "" →
        moduleEditSummaryRegex env cal params = none)) := by
  refine ⟨?_, ?_⟩
  · intro hbad
    have h := moduleDeleteDuplicatesLoop_none env cal.Components hbad [] [] 0
    rw [List.append_nil] at h
    simp [moduleDeleteDuplicates, h]
  · intro hbad
    refine ⟨?_, ?_⟩
    · intro hw
      have h := removeByRegexSummaryAndTimeLoop_none _ re zeroTime maxTime cal.Components hbad
        [] 0
      rw [List.append_nil] at h
      have hnw : ¬ (params "from" ≠ "" ∧ params "until" ≠ "") := by
        intro hh; cases hw with
        | inl h1 => exact hh.1 h1
        | inr h2 => exact hh.2 h2
      simp only [moduleDeleteSummaryRegex, if_neg hre, hc, if_neg hnw, removeByRegexSummary,
        removeByRegexSummaryAndTime, h]
    · intro ha hb hs he hmv
      have h := moduleEditSummaryRegexLoop_none _ params re zeroTime maxTime hs he hmv
        cal.Components hbad [] (params "overwrite")
      rw [List.append_nil] at h
      simp [moduleEditSummaryRegex, hre, hc, resolveAfterOfEdit, resolveBound, ha, hb, hs, he,
        hmv, h]

/-- The cleanup selects every module entry that has an `expires` entry and no `expiration`
entry, whatever `expires` holds, as soon as the clock is past the zero time; and it selects no
entry without `expires`, whatever `expiration` holds. -/
theorem cleanupSelects_by_expires (env : Env) (m : ModuleEntry) :
    (entryGet m "expires" ≠ "" → entryGet m "expiration" = "" → zeroTime.ns < env.now.ns →
      cleanupSelects env m = true) ∧
    (entryGet m "expires" = "" → cleanupSelects env m = false) := by
  have h0 : parseRFC3339 "" = none := by decide
  constructor
  · intro h1 h2 h3
    simp only [cleanupSelects, h2, parseOrZero, h0, Option.getD_none, Time.After,
      Bool.and_eq_true, bne_iff_ne, ne_eq, decide_eq_true_eq]
    exact ⟨h1, h3⟩
  · intro h1
    simp [cleanupSelects, h1]

/-! ## Events without a start -/

/-- An event without a readable start has the zero time as its start. -/
theorem GetStartAt_of_hasNoStart (env : Env) (e : VEvent) (h : hasNoStart env e = true) :
    (e.GetStartAt env) = zeroTime := by
  unfold hasNoStart at h
  unfold VEvent.GetStartAt getTimeProp
  cases hp : GetProperty e.Properties "DTSTART" with
  | none => rfl
  | some p =>
    rw [hp] at h
    simp only [Option.isNone_iff_eq_none] at h
    simp only [h, Option.getD_none]

/-- A component without a readable start is outside every window whose lower bound is not
earlier than the zero time. -/
theorem noStart_outside (env : Env) (after before : Time) (hlow : zeroTime.ns ≤ after.ns) (c : Component)
    (h : noStart env c = true) : startInWindow env after before c = false := by
  cases c with
  | other kind props => rfl
  | event e =>
    simp only [noStart] at h
    simp only [startInWindow, inWindow, Time.After, GetStartAt_of_hasNoStart _ e h]
    simp only [Bool.and_eq_false_imp, decide_eq_true_eq]
    intro hlt; omega

/-- The rule handling keeps an event without a readable start as it finds it on that score. -/
theorem noStart_withTruncatedRule (env : Env) (after : Time) (i : Nat) (c : Component) :
    noStart env (withTruncatedRule env after i c) = noStart env c := by
  cases c with
  | other kind props => rfl
  | event e =>
    simp only [withTruncatedRule]
    cases ht : truncateEvent env after i e with
    | none => rfl
    | some r =>
      cases r with
      | error msg => rfl
      | ok e' =>
        simp only [noStart, hasNoStart,
          truncateEvent_GetProperty env after i e e' "DTSTART" (by decide) ht]

/-- Filtering twice, when the second test implies the first. -/
theorem filter_filter_of_imp {α : Type} (p q : α → Bool) (l : List α)
    (h : ∀ x, q x = true → p x = true) : (l.filter p).filter q = l.filter q := by
  induction l with
  | nil => rfl
  | cons a rest ih =>
    by_cases hq : q a = true
    · simp [List.filter_cons, hq, h a hq, ih]
    · by_cases hp : p a = true
      · simp [List.filter_cons, hq, hp, ih]
      · simp [List.filter_cons, hq, hp, ih]

/-- With `from` and `until` given as timestamps, on a pattern that compiles and a document in
which every event inside the window has a summary, `moduleDeleteSummaryRegex` removes the
events inside the window whose summary matches and returns minus their number. -/
theorem moduleDeleteSummaryRegex_with_window (env : Env) (cal : Calendar) (params : Params)
    (regex : String → Bool) (start stop : Time) (hre : params "regex" ≠ "")
    (hc : env.compile (params "regex") = some regex)
    (hfrom : parseRFC3339 (params "from") = some start)
    (huntil : parseRFC3339 (params "until") = some stop)
    (hsum : ∀ c ∈ cal.Components, inWindowWithoutSummary env start stop c = false) :
    moduleDeleteSummaryRegex env cal params
      = some ⟨⟨cal.Components.filter (fun c => !matchesEdit env regex start stop c),
            cal.CalendarProperties⟩,
          -((cal.Components.filter (matchesEdit env regex start stop)).length : Int),
          none⟩ := by
  have hloop := removeByRegexSummaryAndTimeLoop_eq _ regex start stop cal.Components [] 0 hsum
  rw [List.append_nil, List.append_nil] at hloop
  have hw : params "from" ≠ "" ∧ params "until" ≠ "" :=
    ⟨(parseRFC3339_ne_empty _ _ hfrom).1, (parseRFC3339_ne_empty _ _ huntil).1⟩
  have hneg : ¬ ((0 : Int)
      - ((cal.Components.filter (matchesEdit env regex start stop)).length : Int) > 0) := by
    omega
  simp only [moduleDeleteSummaryRegex, if_neg hre, hc, if_pos hw, parseOrZero, hfrom, huntil,
    Option.getD_some, removeByRegexSummaryAndTime, hloop, if_neg hneg]
  simp

/-- C22, counterexample: the lower bound 0001-01-01T00:00:00+01:00 is a well-formed RFC 3339
timestamp one hour before the zero time. With it an event without a start lies inside the
window: `moduleDeleteTimeframe` removes it, and so does `moduleDeleteSummaryRegex`. -/
theorem missing_start_removed_for_early_bound :
    parseRFC3339 "0001-01-01T00:00:00+01:00" = some ⟨-62135600400 * 1000000000, 3600⟩ ∧
    zeroTime.ns = -62135596800 * 1000000000 ∧
    noStart sampleEnv (sampleEvent "x" "Standup") = true ∧
    moduleDeleteTimeframe sampleEnv (calOf [sampleEvent "x" "Standup"])
        (twoParams "after" "0001-01-01T00:00:00+01:00" "before" "2025-03-01T00:00:00Z")
      = some ⟨calOf [], -1, none⟩ ∧
    moduleDeleteSummaryRegex sampleEnv (calOf [sampleEvent "x" "Standup"])
        (threeParams "regex" "Standup" "from" "0001-01-01T00:00:00+01:00"
          "until" "2025-03-01T00:00:00Z")
      = some ⟨calOf [], -1, none⟩ := by
  decide

/-! ## delete-timeframe with `before` only -/

/-- With the zero time as the cutoff, a mapping whose `UNTIL` is a compact timestamp later than
the zero time, or that has neither `UNTIL` nor `COUNT`, gets `UNTIL` = `00010101T000000Z`. -/
theorem truncateMap_zeroTime (m : RuleMap)
    (h : (∃ v u, mapGet m "UNTIL" = some v ∧ parseCompact v = some u ∧ zeroTime.ns < u.ns) ∨
      (mapGet m "UNTIL" = none ∧ mapGet m "COUNT" = none)) :
    truncateMap zeroTime m = .ok (mapSet m "UNTIL" "00010101T000000Z") := by
  have hz : zeroTime.formatCompact = "00010101T000000Z" := by decide
  unfold truncateMap
  rcases h with ⟨v, u, hv, hu, hlt⟩ | ⟨hv, hcnt⟩
  · simp only [hv, hu, Time.After, hz]
    rw [if_pos (by simpa using hlt)]
  · simp only [hv, hcnt, hz]

/-- The text written for a list of entries, started from a text already there. -/
theorem rruleString_foldl (entries : List (String × String)) (acc : String) :
    entries.foldl (fun acc kv => acc ++ kv.1 ++ "=" ++ kv.2 ++ ";") acc
      = acc ++ rruleString entries := by
  induction entries generalizing acc with
  | nil => simp [rruleString]
  | cons kv rest ih =>
    simp only [rruleString, List.foldl_cons]
    rw [ih, ih ("" ++ kv.1 ++ "=" ++ kv.2 ++ ";")]
    simp only [String.append_assoc, String.empty_append]

/-- The text written for a map holds the part `KEY=VALUE;` of each entry. -/
theorem rruleString_of_mem (entries : List (String × String)) (k v : String)
    (h : (k, v) ∈ entries) :
    ∃ pre post, rruleString entries = pre ++ (k ++ "=" ++ v ++ ";") ++ post := by
  obtain ⟨a, b, hab⟩ := List.append_of_mem h
  refine ⟨rruleString a, rruleString b, ?_⟩
  subst hab
  simp only [rruleString, List.foldl_append, List.foldl_cons]
  rw [rruleString_foldl b]
  simp only [rruleString, String.append_assoc]

/-- C26 (as amended): `moduleDeleteTimeframe` called with `before` only takes the zero time as
the cutoff. On a document whose rules the call can read it returns without error, removes the
events that start after the zero time and before `before`, and leaves every other component
with the rule rewritten at its position. The rule handling, which runs on each event before
the window test, gives every event whose rule reads as a mapping with an `UNTIL` in the compact
UTC form later than the zero time, or with neither `UNTIL` nor `COUNT`, a new last property
`RRULE` whose text holds the part `UNTIL=00010101T000000Z;` and, each once, the parts of the
other keys with their values as before; the event that stays in the document is that event.
Whenever the call returns an error, it is the error of an `UNTIL` that does not parse, and the
event with that `UNTIL` and all components before it are as they were. -/
theorem moduleDeleteTimeframe_before_only (env : Env) (cal : Calendar) (params : Params)
    (before : Time) (hafter : params "after" = "")
    (hbefore : parseRFC3339 (params "before") = some before) :
    ((∀ c ∈ cal.Components, ruleReadable c = true) →
      moduleDeleteTimeframe env cal params
        = some ⟨⟨(cal.Components.enum.filter
                (fun ic => !startInWindow env zeroTime before ic.2)).map
              (fun ic => withTruncatedRule env zeroTime ic.1 ic.2), cal.CalendarProperties⟩,
            -((cal.Components.filter (startInWindow env zeroTime before)).length : Int),
            none⟩) ∧
      zeroTime.formatCompact = "00010101T000000Z" ∧
      (∀ (i : Nat) (e : VEvent) (rr : IANAProperty) (m : RuleMap),
        GetProperty e.Properties "RRULE" = some rr → rruleToMap rr.Value = some m →
        ((∃ v u, mapGet m "UNTIL" = some v ∧ parseCompact v = some u ∧ zeroTime.ns < u.ns) ∨
          (mapGet m "UNTIL" = none ∧ mapGet m "COUNT" = none)) →
        ∃ e' entries, truncateEvent env zeroTime i e = some (.ok e') ∧
          withTruncatedRule env zeroTime i (.event e) = .event e' ∧
          e'.Properties.getLast? = some ⟨"RRULE", rruleString entries, []⟩ ∧
          (∃ pre post, rruleString entries = pre ++ "UNTIL=00010101T000000Z;" ++ post) ∧
          entries.Perm (mapSet m "UNTIL" "00010101T000000Z") ∧
          mapGet entries "UNTIL" = some "00010101T000000Z" ∧
          ∀ k, k ≠ "UNTIL" → mapGet entries k = mapGet m k) ∧
      (∀ o, moduleDeleteTimeframe env cal params = some o → o.err ≠ none →
        o.err = some "invalid UNTIL time" ∧ o.delta = 0 ∧
        ∃ j e rr m v, cal.Components.get? j = some (.event e) ∧
          GetProperty e.Properties "RRULE" = some rr ∧ rruleToMap rr.Value = some m ∧
          mapGet m "UNTIL" = some v ∧ parseCompact v = none ∧
          o.cal.Components.take (j + 1) = cal.Components.take (j + 1)) := by
  obtain ⟨hb1, hb2⟩ := parseRFC3339_ne_empty _ _ hbefore
  refine ⟨?_, by decide, ?_, ?_⟩
  · intro hrules
    unfold moduleDeleteTimeframe resolveBound
    rw [if_neg (fun h => hb1 h.2)]
    simp only [hafter, hb1, hb2, if_true, if_false, hbefore]
    have h := moduleDeleteTimeframeLoop_eq env zeroTime before cal.Components [] 0 hrules
    rw [List.append_nil] at h
    rw [h]
    simp
  · intro i e rr m hrr hm hform
    have ht := truncateMap_zeroTime m hform
    obtain ⟨e', he', hlast, hperm, hget⟩ := rewriteRrule_of_map env zeroTime i e rr.Value m _ hm ht
    have hte : truncateEvent env zeroTime i e = some (.ok e') := by
      simp only [truncateEvent, hrr, he']
    have hu : mapGet (env.mapOrder i (mapSet m "UNTIL" "00010101T000000Z")) "UNTIL"
        = some "00010101T000000Z" := by
      rw [hget]; exact mapGet_mapSet_same m "UNTIL" _
    refine ⟨e', env.mapOrder i (mapSet m "UNTIL" "00010101T000000Z"), hte, ?_, hlast, ?_,
      hperm, hu, ?_⟩
    · simp only [withTruncatedRule, hte]
    · exact rruleString_of_mem _ "UNTIL" "00010101T000000Z" (mapGet_mem _ _ _ hu)
    · intro k hk
      rw [hget]
      exact mapGet_mapSet_other m "UNTIL" _ k hk
  · intro o ho herr
    unfold moduleDeleteTimeframe resolveBound at ho
    rw [if_neg (fun h => hb1 h.2)] at ho
    simp only [hafter, hb1, hb2, if_true, if_false, hbefore] at ho
    cases hl : moduleDeleteTimeframeLoop env zeroTime before cal.Components.length
        cal.Components 0 with
    | none => rw [hl] at ho; simp at ho
    | some r =>
      obtain ⟨comps, count, err⟩ := r
      rw [hl] at ho
      simp only [Option.some.injEq] at ho
      subst ho
      simp only at herr ⊢
      cases err with
      | none => exact absurd rfl herr
      | some msg =>
        obtain ⟨hd, j, e, _, hget, hte, htake⟩ :=
          moduleDeleteTimeframeLoop_error env zeroTime before _ _ _ _ _ _ hl
        obtain ⟨hmsg, rr, m, v, h1, h2, h3, h4⟩ := truncateEvent_error env zeroTime j e msg hte
        exact ⟨by rw [hmsg], hd, j, e, rr, m, v, hget, h1, h2, h3, h4, htake⟩

/-- C26, witness: with `before` = 2025-03-01T00:00:00Z the recurring event that starts in 2024
is removed and the one that starts in 2026 stays, its rule written as
`FREQ=DAILY;UNTIL=00010101T000000Z;`; the rule `FREQ=DAILY;UNTIL=20301231T000000Z` comes out of
the rule handling with the part `UNTIL=00010101T000000Z;` and `FREQ` as before. -/
theorem moduleDeleteTimeframe_before_only_witness :
    moduleDeleteTimeframe sampleEnv recurringCal (oneParam "before" "2025-03-01T00:00:00Z")
      = some ⟨calOf [.event ⟨[⟨"UID", "late", []⟩, ⟨"DTSTART", "20260101T100000Z", []⟩,
            ⟨"SUMMARY", "S", []⟩, ⟨"SUMMARY", "S", []⟩,
            ⟨"RRULE", "FREQ=DAILY;UNTIL=00010101T000000Z;", []⟩], []⟩], -1, none⟩ ∧
    (∃ e' entries, truncateEvent sampleEnv zeroTime 0 dailyEvent = some (.ok e') ∧
      withTruncatedRule sampleEnv zeroTime 0 (.event dailyEvent) = .event e' ∧
      e'.Properties.getLast? = some ⟨"RRULE", rruleString entries, []⟩ ∧
      (∃ pre post, rruleString entries = pre ++ "UNTIL=00010101T000000Z;" ++ post) ∧
      entries.Perm (mapSet dailyUntil2030Map "UNTIL" "00010101T000000Z") ∧
      mapGet entries "UNTIL" = some "00010101T000000Z" ∧
      ∀ k, k ≠ "UNTIL" → mapGet entries k = mapGet dailyUntil2030Map k) := by
  constructor
  · rw [(moduleDeleteTimeframe_before_only sampleEnv recurringCal
      (oneParam "before" "2025-03-01T00:00:00Z") mar2025 (by decide) (by decide)).1
      (by decide)]
    decide
  · exact (moduleDeleteTimeframe_before_only sampleEnv recurringCal
      (oneParam "before" "2025-03-01T00:00:00Z") mar2025 (by decide) (by decide)).2.2.1
      0 dailyEvent ⟨"RRULE", dailyUntil2030, []⟩ dailyUntil2030Map (by decide) (by decide)
      (Or.inl ⟨"20301231T000000Z", ⟨1924905600 * 1000000000, 0⟩, by decide, by decide,
        by decide⟩)

/-- C26, counterexample: with `before` only, a rule that ends on a date (`UNTIL=20301231`, later
than the year 1) makes the call return an error; that rule is left as it is, and so is the rule
`FREQ=DAILY` (neither `UNTIL` nor `COUNT`) of the event before it, which the loop has not
reached. Neither event has `UNTIL=00010101T000000Z` afterwards. -/
theorem moduleDeleteTimeframe_before_only_stops_on_date :
    moduleDeleteTimeframe sampleEnv
        (calOf [recurringEvent "r" "20250201T100000Z" "FREQ=DAILY" "S", dateUntilEvent])
        (oneParam "before" "2025-03-01T00:00:00Z")
      = some ⟨calOf [recurringEvent "r" "20250201T100000Z" "FREQ=DAILY" "S", dateUntilEvent],
          0, some "invalid UNTIL time"⟩ := by
  decide

/-! ## Events without a start, on every call that returns -/

/-- Removing a cell that fails a test does not change what passes the test. -/
theorem filter_remove_of_false (p : Component → Bool) (comps comps' : List Component)
    (i : Nat) (c : Component) (hget : comps.get? i = some c) (hc : p c = false)
    (h : remove comps i = some comps') : comps'.filter p = comps.filter p := by
  obtain ⟨pre, out, hsplit, hlen⟩ := split_at_get? comps i _ hget
  subst hsplit; subst hlen
  rw [remove_middle, Option.some.injEq] at h
  rw [← h]
  simp [List.filter_append, List.filter_cons, hc]

/-- Writing to a cell a component that does on a test as the one it replaces keeps the number
of components that pass the test. -/
theorem filter_set_length (p : Component → Bool) (comps : List Component) (i : Nat)
    (c c' : Component) (hget : comps.get? i = some c) (hc : p c' = p c) :
    ((comps.set i c').filter p).length = (comps.filter p).length := by
  obtain ⟨pre, out, hsplit, hlen⟩ := split_at_get? comps i _ hget
  subst hsplit; subst hlen
  have h := set_middle pre out c c'
  rw [List.append_assoc, List.singleton_append] at h
  rw [h]
  simp only [List.filter_append, List.filter_cons, hc, List.length_append]
  split <;> simp

/-- The loop of `removeByRegexSummaryAndTime`, when it returns, for a window whose lower bound
is not earlier than the zero time: the events without a readable start are as before. -/
theorem removeByRegexSummaryAndTimeLoop_noStart (env : Env) (regex : String → Bool) (start stop : Time)
    (hlow : zeroTime.ns ≤ start.ns) (i : Nat) :
    ∀ (comps comps' : List Component) (count count' : Int),
      removeByRegexSummaryAndTimeLoop env regex start stop i comps count = some (comps', count') →
      comps'.filter (noStart env) = comps.filter (noStart env) := by
  induction i with
  | zero =>
    intro comps comps' count count' h
    simp only [removeByRegexSummaryAndTimeLoop, Option.some.injEq, Prod.mk.injEq] at h
    rw [h.1]
  | succ i ih =>
    intro comps comps' count count' h
    cases hget : comps.get? i with
    | none => simp only [removeByRegexSummaryAndTimeLoop, hget, reduceCtorEq] at h
    | some c =>
      cases c with
      | other kind props =>
        simp only [removeByRegexSummaryAndTimeLoop, hget] at h
        exact ih _ _ _ _ h
      | event e =>
        simp only [removeByRegexSummaryAndTimeLoop, hget] at h
        split at h
        · rename_i hw
          have hns : noStart env (.event e) = false := by
            cases hn : noStart env (.event e) with
            | false => rfl
            | true =>
              have := noStart_outside _ start stop hlow _ hn
              simp only [startInWindow] at this
              rw [this] at hw
              exact absurd hw (by simp)
          split at h
          · exact absurd h (by simp)
          · split at h
            · cases hr : removeFromICS comps i with
              | none => rw [hr] at h; exact absurd h (by simp)
              | some comps1 =>
                rw [hr] at h
                rw [ih _ _ _ _ h]
                exact filter_remove_of_false (noStart env) comps comps1 i _ hget hns hr
            · exact ih _ _ _ _ h
        · exact ih _ _ _ _ h

/-- The loop of `moduleDeleteTimeframe`, when it returns, with or without an error, for a
window whose lower bound is not earlier than the zero time: there are as many events without a
readable start as before. -/
theorem moduleDeleteTimeframeLoop_noStart (env : Env) (after before : Time)
    (hlow : zeroTime.ns ≤ after.ns) (i : Nat) :
    ∀ (comps comps' : List Component) (count count' : Int) (err : Option String),
      moduleDeleteTimeframeLoop env after before i comps count = some (comps', count', err) →
      (comps'.filter (noStart env)).length = (comps.filter (noStart env)).length := by
  induction i with
  | zero =>
    intro comps comps' count count' err h
    simp only [moduleDeleteTimeframeLoop, Option.some.injEq, Prod.mk.injEq] at h
    rw [h.1]
  | succ i ih =>
    intro comps comps' count count' err h
    cases hget : comps.get? i with
    | none => simp only [moduleDeleteTimeframeLoop, hget, reduceCtorEq] at h
    | some c =>
      cases c with
      | other kind props =>
        simp only [moduleDeleteTimeframeLoop, hget] at h
        exact ih _ _ _ _ _ h
      | event e =>
        simp only [moduleDeleteTimeframeLoop, hget] at h
        cases ht : truncateEvent env after i e with
        | none => rw [ht] at h; exact absurd h (by simp)
        | some r =>
          cases r with
          | error msg =>
            rw [ht] at h
            simp only [Option.some.injEq, Prod.mk.injEq] at h
            rw [h.1]
          | ok e' =>
            rw [ht] at h
            simp only at h
            have hsame : noStart env (.event e') = noStart env (.event e) := by
              have := noStart_withTruncatedRule env after i (.event e)
              simpa only [withTruncatedRule, ht] using this
            have hs := filter_set_length (noStart env) comps i (.event e) (.event e') hget hsame
            have hget' : (comps.set i (.event e')).get? i = some (.event e') := by
              rw [List.get?_eq_getElem?] at hget ⊢
              obtain ⟨hlt, _⟩ := List.getElem?_eq_some_iff.mp hget
              exact List.getElem?_set_self hlt
            split at h
            · rename_i hw
              have hns : noStart env (.event e') = false := by
                cases hn : noStart env (.event e') with
                | false => rfl
                | true =>
                  have := noStart_outside _ after before hlow _ hn
                  simp only [startInWindow] at this
                  rw [this] at hw
                  exact absurd hw (by simp)
              cases hr : removeFromICS (comps.set i (.event e')) i with
              | none => rw [hr] at h; exact absurd h (by simp)
              | some comps1 =>
                rw [hr] at h
                rw [ih _ _ _ _ _ h,
                  filter_remove_of_false (noStart env) _ comps1 i _ hget' hns hr, hs]
            · rw [ih _ _ _ _ _ h, hs]

/-- Every call of `moduleDeleteTimeframe` that returns, with or without an error, for a lower
bound that is not earlier than the zero time (an absent `after` among them), leaves as many
events without a readable start in the document as it found; every call of
`moduleDeleteSummaryRegex` that returns, for a `from` that is not earlier than the zero time,
leaves these events as they were. -/
theorem noStart_never_removed (env : Env) (cal : Calendar) (params : Params) (o : Outcome) :
    ((∀ t, resolveBound env zeroTime (params "after") = some t → zeroTime.ns ≤ t.ns) →
      moduleDeleteTimeframe env cal params = some o →
      (o.cal.Components.filter (noStart env)).length = (cal.Components.filter (noStart env)).length) ∧
    ((∀ t, parseRFC3339 (params "from") = some t → zeroTime.ns ≤ t.ns) →
      moduleDeleteSummaryRegex env cal params = some o →
      o.cal.Components.filter (noStart env) = cal.Components.filter (noStart env)) := by
  constructor
  · intro hlow h
    unfold moduleDeleteTimeframe at h
    split at h
    · simp only [Option.some.injEq] at h; subst h; rfl
    · split at h
      · simp only [Option.some.injEq] at h; subst h; rfl
      · rename_i after hafter
        split at h
        · simp only [Option.some.injEq] at h; subst h; rfl
        · split at h
          · rename_i comps count err hl
            simp only [Option.some.injEq] at h; subst h
            exact moduleDeleteTimeframeLoop_noStart env after _ (hlow after hafter) _ _ _ _ _ _
              hl
          · exact absurd h (by simp)
  · intro hlow h
    have hz : zeroTime.ns ≤ (parseOrZero (params "from")).ns := by
      unfold parseOrZero
      cases hp : parseRFC3339 (params "from") with
      | none => exact le_refl _
      | some t => exact hlow t hp
    have key : ∀ start stop regex cal' count, zeroTime.ns ≤ start.ns →
        removeByRegexSummaryAndTime env cal regex start stop = some (cal', count) →
        cal'.Components.filter (noStart env) = cal.Components.filter (noStart env) := by
      intro start stop regex cal' count hs hr
      unfold removeByRegexSummaryAndTime at hr
      cases hl : removeByRegexSummaryAndTimeLoop env regex start stop cal.Components.length
          cal.Components 0 with
      | none => rw [hl] at hr; exact absurd hr (by simp)
      | some r =>
        obtain ⟨comps', count'⟩ := r
        rw [hl] at hr
        simp only [Option.some.injEq, Prod.mk.injEq] at hr
        rw [← hr.1]
        exact removeByRegexSummaryAndTimeLoop_noStart _ regex start stop hs _ _ _ _ _ hl
    unfold moduleDeleteSummaryRegex at h
    split at h
    · simp only [Option.some.injEq] at h; subst h; rfl
    · split at h
      · exact absurd h (by simp)
      · split at h
        · rename_i cal' count hr
          have hk : cal'.Components.filter (noStart env) = cal.Components.filter (noStart env) := by
            split at hr
            · exact key _ _ _ _ _ hz hr
            · exact key _ _ _ _ _ (le_refl _) hr
          split at h
          · simp only [Option.some.injEq] at h; subst h; exact hk
          · simp only [Option.some.injEq] at h; subst h; exact hk
        · exact absurd h (by simp)


/-- C22 (as amended): for a window whose lower bound is not earlier than the zero time
0001-01-01T00:00:00Z, the instant that the code takes for a missing start, an event without a
readable start is outside the window. With both bounds given as RFC 3339 timestamps,
`moduleDeleteTimeframe` returns without error on a document whose rules it can read, and
`moduleDeleteSummaryRegex` returns without error on a document in which every event inside the
window has a summary (the events without a start need none); in both cases the events without a
readable start are all still in the document, in their order, those with a rule carrying the
rule rewritten at their position after `moduleDeleteTimeframe`. And whatever the document is,
a call that returns, with or without an error, has removed none of them. -/
theorem missing_start_outside_window (env : Env) (after before : Time)
    (hlow : zeroTime.ns ≤ after.ns) :
    (∀ c, noStart env c = true → startInWindow env after before c = false) ∧
    (∀ (cal : Calendar) (params : Params),
      parseRFC3339 (params "after") = some after →
      parseRFC3339 (params "before") = some before →
      (∀ c ∈ cal.Components, ruleReadable c = true) →
      ∃ o, moduleDeleteTimeframe env cal params = some o ∧ o.err = none ∧
        o.cal.Components.filter (noStart env)
          = (cal.Components.enum.filter (fun ic => noStart env ic.2)).map
              (fun ic => withTruncatedRule env after ic.1 ic.2)) ∧
    (∀ (cal : Calendar) (params : Params) (regex : String → Bool),
      params "regex" ≠ "" → env.compile (params "regex") = some regex →
      parseRFC3339 (params "from") = some after →
      parseRFC3339 (params "until") = some before →
      (∀ c ∈ cal.Components, inWindowWithoutSummary env after before c = false) →
      ∃ o, moduleDeleteSummaryRegex env cal params = some o ∧ o.err = none ∧
        o.cal.Components.filter (noStart env) = cal.Components.filter (noStart env)) ∧
    (∀ (cal : Calendar) (params : Params) (o : Outcome),
      parseRFC3339 (params "after") = some after →
      moduleDeleteTimeframe env cal params = some o →
      (o.cal.Components.filter (noStart env)).length = (cal.Components.filter (noStart env)).length) ∧
    (∀ (cal : Calendar) (params : Params) (o : Outcome),
      parseRFC3339 (params "from") = some after →
      moduleDeleteSummaryRegex env cal params = some o →
      o.cal.Components.filter (noStart env) = cal.Components.filter (noStart env)) := by
  refine ⟨noStart_outside _ after before hlow, ?_, ?_, ?_, ?_⟩
  · intro cal params hafter hbefore hrules
    obtain ⟨ha1, ha2⟩ := parseRFC3339_ne_empty _ _ hafter
    obtain ⟨hb1, hb2⟩ := parseRFC3339_ne_empty _ _ hbefore
    have h := moduleDeleteTimeframeLoop_eq env after before cal.Components [] 0 hrules
    rw [List.append_nil] at h
    refine ⟨⟨⟨(cal.Components.enum.filter (fun ic => !startInWindow env after before ic.2)).map
        (fun ic => withTruncatedRule env after ic.1 ic.2), cal.CalendarProperties⟩,
      0 - ((cal.Components.filter (startInWindow env after before)).length : Int), none⟩,
      ?_, rfl, ?_⟩
    · unfold moduleDeleteTimeframe resolveBound
      rw [if_neg (fun h => ha1 h.1)]
      simp only [ha1, ha2, hb1, hb2, if_false, hafter, hbefore, h, List.append_nil]
    · simp only
      rw [List.filter_map]
      have hcomp : (noStart env ∘ fun ic : Nat × Component =>
          withTruncatedRule env after ic.1 ic.2) = fun ic => noStart env ic.2 := by
        funext ic; exact noStart_withTruncatedRule env after ic.1 ic.2
      rw [hcomp, filter_filter_of_imp]
      intro ic hc
      simp [noStart_outside _ after before hlow ic.2 hc]
  · intro cal params regex hre hc hfrom huntil hsum
    refine ⟨⟨⟨cal.Components.filter (fun c => !matchesEdit env regex after before c),
        cal.CalendarProperties⟩,
      -((cal.Components.filter (matchesEdit env regex after before)).length : Int), none⟩,
      moduleDeleteSummaryRegex_with_window env cal params regex after before hre hc
        hfrom huntil hsum, rfl, ?_⟩
    simp only
    apply filter_filter_of_imp
    intro c hc
    have hout := noStart_outside _ after before hlow c hc
    cases c with
    | other kind props => rfl
    | event e =>
      simp only [startInWindow] at hout
      simp [matchesEdit, hout]
  · intro cal params o hafter h
    obtain ⟨ha1, ha2⟩ := parseRFC3339_ne_empty _ _ hafter
    refine (noStart_never_removed env cal params o).1 ?_ h
    intro t ht
    simp only [resolveBound, if_neg ha1, if_neg ha2, hafter, Option.some.injEq] at ht
    rw [← ht]; exact hlow
  · intro cal params o hfrom h
    refine (noStart_never_removed env cal params o).2 ?_ h
    intro t ht
    rw [hfrom, Option.some.injEq] at ht
    rw [← ht]; exact hlow

/-- C22, witness: the window from January to March 2025 on a document with two events without
a start, one of them without a summary as well. Both calls return without error and keep the
two events. -/
theorem missing_start_outside_window_witness :
    (∃ o, moduleDeleteTimeframe sampleEnv startlessCal windowParams = some o ∧ o.err = none ∧
      o.cal.Components.filter (noStart sampleEnv)
        = (startlessCal.Components.enum.filter (fun ic => noStart sampleEnv ic.2)).map
            (fun ic => withTruncatedRule sampleEnv jan2025 ic.1 ic.2)) ∧
    (∃ o, moduleDeleteSummaryRegex sampleEnv startlessCal
        (threeParams "regex" "Standup" "from" "2025-01-01T00:00:00Z"
          "until" "2025-03-01T00:00:00Z") = some o ∧ o.err = none ∧
      o.cal.Components.filter (noStart sampleEnv) = startlessCal.Components.filter (noStart sampleEnv)) ∧
    startlessCal.Components.filter (noStart sampleEnv)
      = [.event ⟨[⟨"UID", "n", []⟩], []⟩, sampleEvent "x" "Standup"] :=
  ⟨(missing_start_outside_window sampleEnv jan2025 mar2025 (by decide)).2.1 startlessCal
      windowParams (by decide) (by decide) (by decide),
    (missing_start_outside_window sampleEnv jan2025 mar2025 (by decide)).2.2.1 startlessCal
      (threeParams "regex" "Standup" "from" "2025-01-01T00:00:00Z"
        "until" "2025-03-01T00:00:00Z") standupRe (by decide) rfl (by decide) (by decide)
      (by decide),
    by decide⟩

/-! ## The library readers on escaped ids, wide zones, dates with `Z` and long fractions -/

/-- The id of an event is its `UID` with the escapes of the text format undone: the values
`a\,b` and `a,b` are one id. A document that holds both has two events with the id `a,b`; the
two are neighbours, and `moduleDeleteId` runs past the end of its slice. -/
theorem moduleDeleteId_reads_unescaped_id :
    hasId "a,b" (sampleEvent "a\\,b" "A") = true ∧
    ([sampleEvent "a\\,b" "A", sampleEvent "a,b" "B"].filter (hasId "a,b")).length = 2 ∧
    moduleDeleteId (calOf [sampleEvent "a\\,b" "A", sampleEvent "a,b" "B"]) (oneParam "id" "a,b")
      = none ∧
    moduleDeleteId (calOf [sampleEvent "a\\,b" "A"]) (oneParam "id" "a,b")
      = some ⟨calOf [], -1, none⟩ := by
  decide

/-- An edit by the id `a,b` changes the event whose `UID` is written `a\,b`. -/
theorem moduleEditId_reads_unescaped_id :
    moduleEditId (calOf [sampleEvent "a\\,b" "A"]) (twoParams "id" "a,b" "new-summary" "moved")
      = some ⟨calOf [sampleEvent "a\\,b" "moved"], 0, none⟩ := by
  decide

/-- A `new-start` with the zone `+24:00` is a timestamp for `time.Parse`: the call sets the
start, one day before the wall-clock reading, and then fails at `new-end`. A clock with an hour
of one digit or a fraction after a comma is read as well; a zone with `+25:00` is not. -/
theorem moduleEditId_reads_wide_zone :
    parseRFC3339 "2025-01-02T00:00:00+24:00"
      = (parseRFC3339 "2025-01-01T00:00:00Z").map (fun t => ⟨t.ns, 86400⟩) ∧
    moduleEditId (calOf [sampleEvent "x" "A"])
        (threeParams "id" "x" "new-start" "2025-01-02T00:00:00+24:00" "new-end" "garbage")
      = some ⟨calOf [.event ⟨[⟨"UID", "x", []⟩, ⟨"SUMMARY", "A", []⟩,
          ⟨"DTSTART", "20250101T000000Z", []⟩], []⟩], 0, some "invalid end time"⟩ ∧
    (parseRFC3339 "2025-01-01T9:00:00Z").isSome = true ∧
    (parseRFC3339 "2025-01-01T09:00:00,5Z").isSome = true ∧
    (parseRFC3339 "2025-01-01T09:00:60Z").isSome = false ∧
    (parseRFC3339 "2025-01-01T09:00:00+00:60").isSome = true ∧
    (parseRFC3339 "2025-01-01T09:00:00+25:00").isSome = false := by
  decide

/-- A start written as a date with `Z` is a start that the library reads, the midnight of the
day in UTC: the event is no event without a start, and a window around the day removes it. -/
theorem moduleDeleteTimeframe_reads_date_with_zone :
    noStart sampleEnv (bareEvent "a" "20250115Z") = false ∧
    startOf sampleEnv (bareEvent "a" "20250115Z") = parseRFC3339 "2025-01-15T00:00:00Z" ∧
    moduleDeleteTimeframe sampleEnv (calOf [bareEvent "a" "20250115Z"]) windowParams
      = some ⟨calOf [], -1, none⟩ := by
  decide

set_option maxRecDepth 1000000 in
/-- Durations follow the arithmetic of `time.ParseDuration`: the fraction is scaled in
double precision and cut, so eighteen nines after the point make a whole second; the sum of the
terms is kept in 64 bits; a number too long for 63 bits is no duration. -/
theorem ParseDuration_follows_library :
    ParseDuration "0.999999999999999999s" = some 1000000000 ∧
    ParseDuration "1.5s" = some 1500000000 ∧
    ParseDuration "-1h30m" = some (-5400000000000) ∧
    ParseDuration "0.3333333333333333333h" = some 1200000000000 ∧
    ParseDuration "9223372036854775808ns" = none ∧
    ParseDuration "9223372036854775808ns9223372036854775808ns" = some 0 ∧
    ParseDuration "1" = none ∧
    ParseDuration "0" = some 0 := by
  decide

/-- A start without `Z` is a wall-clock reading: in the zone that the `TZID` of the property
names, in the zone of the host without one; a start with `Z` is read in UTC whatever the
`TZID`. A `TZID` that the zone database does not know, or one with two values, makes the start
unreadable, and the caller gets the zero time. -/
theorem GetStartAt_reads_zones :
    some (VEvent.GetStartAt ⟨[⟨"DTSTART", "20250115T100000", []⟩], []⟩ eastEnv)
      = parseRFC3339 "2025-01-15T10:00:00+01:00" ∧
    some (VEvent.GetStartAt ⟨[⟨"DTSTART", "20250115", []⟩], []⟩ eastEnv)
      = parseRFC3339 "2025-01-15T00:00:00+01:00" ∧
    some (VEvent.GetStartAt
        ⟨[⟨"DTSTART", "20250115T100000", [("TZID", ["Asia/Tokyo"])]⟩], []⟩ eastEnv)
      = parseRFC3339 "2025-01-15T10:00:00+09:00" ∧
    some (VEvent.GetStartAt
        ⟨[⟨"DTSTART", "20250115T100000Z", [("TZID", ["Asia/Tokyo"])]⟩], []⟩ eastEnv)
      = parseRFC3339 "2025-01-15T10:00:00Z" ∧
    some (VEvent.GetStartAt ⟨[⟨"DTSTART", "20250115Z", []⟩], []⟩ eastEnv)
      = parseRFC3339 "2025-01-15T00:00:00Z" ∧
    VEvent.GetStartAt
        ⟨[⟨"DTSTART", "20250115T100000", [("TZID", ["Mars/Base"])]⟩], []⟩ eastEnv
      = zeroTime ∧
    VEvent.GetStartAt
        ⟨[⟨"DTSTART", "20250115T100000", [("TZID", ["UTC", "Asia/Tokyo"])]⟩], []⟩ eastEnv
      = zeroTime ∧
    VEvent.GetStartAt ⟨[⟨"DTSTART", "20250115T1000", []⟩], []⟩ eastEnv = zeroTime ∧
    VEvent.GetStartAt ⟨[⟨"DTSTART", "20250230T100000Z", []⟩], []⟩ eastEnv = zeroTime := by
  decide

end IcalRelay
